import Mathlib

/-!
# Element evaluation-point cache map and neighbouring components

A shallow embedding of `ElementCacheMap` (src/fields/field_value_cache.cc) and
theorems about it, together with embeddings of the integral descriptors
(src/fields/eval_subset.cc), of the attribute reader of `VtkMeshReader`
(src/mesh/msh_vtkreader.cc), of `TimeMark` and `TimeMarksIterator`
(src/coupling/time_marks.hh), of `Input::Factory` (src/input/factory_impl.hh), of
methods of `Mesh` (src/mesh/mesh.cc), of `MultiField::set_input_list`
(src/fields/multi_field.impl.hh) and of `TransportDG::update_after_reactions`
(src/transport/transport_dg.cc).

Conventions of the embedding.

* `unsigned int` values are natural numbers; the all-ones value written `-1` in
  the source is `UINT_MAX`.  The loop counters `i_pos` and `points_in_cache`
  are kept as naturals: they count pending records, and the record count is
  taken to be below `2^31`, so that neither the unsigned counter nor its
  conversion to the `int` table entry wraps.
* Calls whose behaviour the C++ source leaves undefined (a write outside a
  container, dereferencing `end()`, a null pointer) and failed debug
  assertions are explicit `Fault` results.
* `std::map` / `std::unordered_map` objects are association lists with unique
  keys, maintained by `UIntMap.assign`.
-/

namespace FieldValueCache

/-! ## Constants and small types -/

/-- Largest value of a 32-bit `unsigned int`; `(unsigned int)(-1)` in the source. -/
def UINT_MAX : Nat := 4294967295

/-- The constant `ElementCacheMap::undef_elem_idx`
(`std::numeric_limits<unsigned int>::max()`). -/
def undef_elem_idx : Nat := UINT_MAX

/-- The constant `ElementCacheMap::simd_size_double`. -/
def simd_size_double : Nat := 4

/-- Ways in which a call can fail to produce a state. -/
inductive Fault where
  /-- An assertion (`ASSERT`, `ASSERT_DBG`, `ASSERT_PTR_DBG`, `ASSERT_EQ_DBG`) does not
  hold. -/
  | assertion_failed
  /-- An index outside of the container it is applied to (undefined behaviour). -/
  | out_of_range
  /-- The iterator returned by `find` is `end()` and is dereferenced (undefined behaviour). -/
  | end_iterator
  /-- A null pointer is dereferenced (undefined behaviour). -/
  | null_pointer
  deriving DecidableEq

/-- One pending request: the fields of `EvalPointData` read by
`prepare_elements_to_update`. -/
structure EvalPointData where
  /-- Region index of the element. -/
  i_reg_ : Nat
  /-- Mesh index of the element. -/
  i_element_ : Nat
  /-- Index of the local evaluation point. -/
  i_eval_point_ : Nat
  deriving DecidableEq

/-- Modelled from the spec: `EvalPointData::operator<` is declared in
field_value_cache.hh, which is not among the sources.  The spec gives the sort
key as `(element_index, region_index, local_eval_point_index)`. -/
def EvalPointData.lt (a b : EvalPointData) : Bool :=
  if a.i_element_ = b.i_element_ then
    if a.i_reg_ = b.i_reg_ then decide (a.i_eval_point_ < b.i_eval_point_)
    else decide (a.i_reg_ < b.i_reg_)
  else decide (a.i_element_ < b.i_element_)

/-- The relation "b is not smaller than a", the order kept by `std::sort`. -/
def EvalPointData.le (a b : EvalPointData) : Prop := EvalPointData.lt b a = false

instance EvalPointData.decidable_le : DecidableRel EvalPointData.le :=
  fun a b => inferInstanceAs (Decidable (EvalPointData.lt b a = false))

/-- The call `std::sort(eval_point_data_.begin(), eval_point_data_.end())`:
the records in ascending order of `operator<`.  The order is total on whole
records, so the result does not depend on the sorting algorithm. -/
def std_sort (l : List EvalPointData) : List EvalPointData :=
  l.insertionSort EvalPointData.le

/-- The observable part of the shared `EvalPoints` object: `max_size()`. -/
structure EvalPoints where
  /-- Maximal number of local points on one element. -/
  max_size : Nat
  deriving DecidableEq

/-- The part of `DHCellAccessor` used by the cache map: the mesh index of the
element and the cache index set by `set_element_cache_index`. -/
structure DHCellAccessor where
  /-- Result of `elm_idx()`. -/
  elm_idx : Nat
  /-- Value stored by `set_element_cache_index`. -/
  element_cache_index : Nat
  deriving DecidableEq

/-! ## Maps from unsigned to unsigned -/

/-- A `std::map<unsigned int, unsigned int>` as an association list. -/
abbrev UIntMap := List (Nat × Nat)

/-- The call `m.find(k)`: the mapped value, or `none` for `end()`. -/
def UIntMap.find : UIntMap → Nat → Option Nat
  | [], _ => none
  | (k', v') :: m, k => if k' = k then some v' else UIntMap.find m k

/-- The assignment `m[k] = v`: replaces the value of an existing key, adds a new key otherwise. -/
def UIntMap.assign : UIntMap → Nat → Nat → UIntMap
  | [], k, v => [(k, v)]
  | (k', v') :: m, k, v => if k' = k then (k, v) :: m else (k', v') :: UIntMap.assign m k v

/-- The call `m.size()`. -/
def UIntMap.size (m : UIntMap) : Nat := m.length

/-! ## RevertableList -/

/-- Modelled from the spec: `RevertableList<unsigned int>` is declared in a
header that is not among the sources.  The spec describes a pre-allocated,
reusable, growable array with a temporary and a permanent size; `reset` sets
both sizes to zero and keeps the storage, `push_back` writes at the temporary
size (growing the storage when it is full) and `make_permanent` fixes the size. -/
structure RevertableList where
  /-- Reserved storage; entries at and after `temporary_size_` are stale. -/
  data_ : List Nat
  /-- Number of entries pushed since the last reset. -/
  temporary_size_ : Nat
  /-- Number of entries fixed by the last `make_permanent`. -/
  permanent_size_ : Nat
  deriving DecidableEq

/-- Modelled from the spec: the constructor `RevertableList(reserved_size, enlarged_by)`,
storage of the reserved size and both sizes zero. -/
def RevertableList.create (reserved_size : Nat) : RevertableList :=
  { data_ := List.replicate reserved_size 0, temporary_size_ := 0, permanent_size_ := 0 }

/-- Modelled from the spec: `reset()`, both sizes become zero, the storage is kept. -/
def RevertableList.reset (l : RevertableList) : RevertableList :=
  { l with temporary_size_ := 0, permanent_size_ := 0 }

/-- Modelled from the spec: `temporary_size()`. -/
def RevertableList.temporary_size (l : RevertableList) : Nat := l.temporary_size_

/-- Modelled from the spec: `push_back(t)`, store `t` at position `temporary_size_`
(the storage grows when it is full) and advance the temporary size. -/
def RevertableList.push_back (l : RevertableList) (t : Nat) : RevertableList :=
  { l with
    data_ := if l.temporary_size_ < l.data_.length then l.data_.set l.temporary_size_ t
             else l.data_ ++ [t]
    temporary_size_ := l.temporary_size_ + 1 }

/-- Modelled from the spec: `make_permanent()`, the pushed entries become the permanent content. -/
def RevertableList.make_permanent (l : RevertableList) : RevertableList :=
  { l with permanent_size_ := l.temporary_size_ }

/-- The entries pushed since the last reset. -/
def RevertableList.pushed (l : RevertableList) : List Nat := l.data_.take l.temporary_size_

/-- The permanent content of the list: what a reader of the offset table sees. -/
def RevertableList.items (l : RevertableList) : List Nat := l.data_.take l.permanent_size_

/-! ## ElementCacheMap -/

/-- Data members of `ElementCacheMap` used by field_value_cache.cc.
`eval_point_data_` is the range `[begin(), end())` of pending records;
`element_eval_points_map_` is `none` for `nullptr` and otherwise the `int`
array allocated by `init`; `eval_points_` is `none` for an empty shared pointer. -/
structure ElementCacheMap where
  /-- Slot to element index, `n_cached_elements` entries. -/
  elm_idx_ : List Nat
  /-- Flag set by `finish_elements_update`. -/
  ready_to_reading_ : Bool
  /-- Table of row indices, addressed by slot and local point. -/
  element_eval_points_map_ : Option (List Int)
  /-- Pending records. -/
  eval_point_data_ : List EvalPointData
  /-- Offsets of region segments in the slots. -/
  regions_starts_ : RevertableList
  /-- Offsets of elements in the sorted records. -/
  element_starts_ : RevertableList
  /-- Region index to position in `regions_starts_`. -/
  regions_to_map_ : UIntMap
  /-- Element index to slot. -/
  element_to_map_ : UIntMap
  /-- Shared evaluation points. -/
  eval_points_ : Option EvalPoints
  deriving DecidableEq

/-- The constructor `ElementCacheMap::ElementCacheMap()`.  The constants
`n_cached_elements`, `regions_in_chunk` and `elements_in_chunk` are declared in
the absent header and are parameters here. -/
def ElementCacheMap.create (n_cached_elements regions_in_chunk elements_in_chunk : Nat) :
    ElementCacheMap :=
  { elm_idx_ := List.replicate n_cached_elements undef_elem_idx
    ready_to_reading_ := false
    element_eval_points_map_ := none
    eval_point_data_ := []
    regions_starts_ := RevertableList.create (2 * regions_in_chunk)
    element_starts_ := RevertableList.create (2 * elements_in_chunk)
    regions_to_map_ := []
    element_to_map_ := []
    eval_points_ := none }

/-- Modelled from the spec: `set_element_eval_point(i_elem_in_cache, i_eval_point, val)`
is declared in the absent header.  The spec describes a dense `[slot][local_point]`
table; `init` allocates it as one array of `n_cached_elements * max_size()` entries,
so entry `[slot][point]` is stored at `slot * max_size() + point`.  A point that is
not below `max_size()` or a position outside the array is outside the table. -/
def set_element_eval_point (m : ElementCacheMap) (i_elem_in_cache i_eval_point : Nat)
    (val : Int) : Except Fault ElementCacheMap :=
  match m.element_eval_points_map_, m.eval_points_ with
  | some tab, some ep =>
    if i_eval_point < ep.max_size ∧ i_elem_in_cache * ep.max_size + i_eval_point < tab.length then
      .ok { m with element_eval_points_map_ :=
                     some (tab.set (i_elem_in_cache * ep.max_size + i_eval_point) val) }
    else .error Fault.out_of_range
  | _, _ => .error Fault.null_pointer

/-- Modelled from the spec: the read access to entry `[slot][point]` of the table,
`none` outside of the table. -/
def element_eval_point (m : ElementCacheMap) (i_elem_in_cache i_eval_point : Nat) :
    Option Int :=
  match m.element_eval_points_map_, m.eval_points_ with
  | some tab, some ep =>
    if i_eval_point < ep.max_size then tab[i_elem_in_cache * ep.max_size + i_eval_point]?
    else none
  | _, _ => none

/-- The method `ElementCacheMap::clear_element_eval_points_map`.  The sentinel
`unused_point` is declared in the absent header and is a parameter. -/
def clear_element_eval_points_map (n_cached_elements : Nat) (unused_point : Int)
    (m : ElementCacheMap) : Except Fault ElementCacheMap :=
  match m.element_eval_points_map_ with
  | none => .error Fault.assertion_failed
  | some _ =>
    match m.eval_points_ with
    | none => .error Fault.null_pointer
    | some ep =>
      (List.range n_cached_elements).foldlM
        (fun m1 i_elm => (List.range ep.max_size).foldlM
          (fun m2 i_point => set_element_eval_point m2 i_elm i_point unused_point) m1) m

/-- The method `ElementCacheMap::init`.  The freshly allocated `int` array has
indeterminate content, given by `fresh`; `ep_data_size` is an `unsigned int`.  The call
`eval_point_data_.resize(ep_data_size)` reserves storage of the record container and
leaves the range of pending records as it is. -/
def init (n_cached_elements : Nat) (unused_point : Int) (fresh : Nat → Int)
    (m : ElementCacheMap) (eval_points : EvalPoints) : Except Fault ElementCacheMap :=
  let ep_data_size := (n_cached_elements * eval_points.max_size) % (UINT_MAX + 1)
  clear_element_eval_points_map n_cached_elements unused_point
    { m with eval_points_ := some eval_points
             element_eval_points_map_ := some ((List.range ep_data_size).map fresh) }

/-- The method `ElementCacheMap::start_elements_update`. -/
def start_elements_update (m : ElementCacheMap) : ElementCacheMap :=
  { m with ready_to_reading_ := false }

/-- The method `ElementCacheMap::finish_elements_update`. -/
def finish_elements_update (m : ElementCacheMap) : ElementCacheMap :=
  { m with ready_to_reading_ := true }

/-- The method `ElementCacheMap::cache_map_index`.  The method is `const`; the
returned pair holds the cache map after the call and the decorated accessor. -/
def cache_map_index (m : ElementCacheMap) (dh_cell : DHCellAccessor) :
    Except Fault (ElementCacheMap × DHCellAccessor) :=
  if m.ready_to_reading_ then
    match UIntMap.find m.element_to_map_ dh_cell.elm_idx with
    | some slot => .ok (m, { dh_cell with element_cache_index := slot })
    | none => .ok (m, { dh_cell with element_cache_index := undef_elem_idx })
  else .error Fault.assertion_failed

/-! ## prepare_elements_to_update -/

/-- Local variables of the loop of `prepare_elements_to_update` together with the object. -/
structure ScanState where
  /-- Region of the last started region segment. -/
  last_region_idx : Nat
  /-- Element of the last assigned slot. -/
  last_element_idx : Nat
  /-- Position in `eval_point_data_`. -/
  i_pos : Nat
  /-- Index to cache in the table `element_eval_points_map_`. -/
  points_in_cache : Nat
  /-- The cache map. -/
  map : ElementCacheMap

/-- Lines 76-78: the branch `new region`. -/
def new_region (s : ScanState) (it : EvalPointData) : ScanState :=
  { s with
    map := { s.map with
      regions_to_map_ :=
        UIntMap.assign s.map.regions_to_map_ it.i_reg_ s.map.regions_starts_.temporary_size
      regions_starts_ := s.map.regions_starts_.push_back s.map.element_starts_.temporary_size }
    last_region_idx := it.i_reg_ }

/-- Lines 80-83: the next free slot is given to the element of the record.  The write
`elm_idx_[element_to_map_.size()]` is outside of the vector when all slots are taken. -/
def assign_slot (s : ScanState) (it : EvalPointData) : Except Fault ScanState :=
  if UIntMap.size s.map.element_to_map_ < s.map.elm_idx_.length then
    .ok { s with
      map := { s.map with
        elm_idx_ := s.map.elm_idx_.set (UIntMap.size s.map.element_to_map_) it.i_element_
        element_to_map_ :=
          UIntMap.assign s.map.element_to_map_ it.i_element_ s.map.element_starts_.temporary_size
        element_starts_ := s.map.element_starts_.push_back s.i_pos }
      last_element_idx := it.i_element_ }
  else .error Fault.out_of_range

/-- Lines 75-83: the branch `new element`. -/
def new_element (s : ScanState) (it : EvalPointData) : Except Fault ScanState :=
  assign_slot (if it.i_reg_ ≠ s.last_region_idx then new_region s it else s) it

/-- Lines 85-86 and the loop increment: mark the point of the record and advance the counters. -/
def mark_point (s : ScanState) (it : EvalPointData) : Except Fault ScanState :=
  match UIntMap.find s.map.element_to_map_ it.i_element_ with
  | none => .error Fault.end_iterator
  | some slot =>
    match set_element_eval_point s.map slot it.i_eval_point_ (Int.ofNat s.points_in_cache) with
    | .error f => .error f
    | .ok m1 => .ok { s with map := m1, points_in_cache := s.points_in_cache + 1,
                             i_pos := s.i_pos + 1 }

/-- One iteration of the loop of lines 73-87. -/
def scan_step (s : ScanState) (it : EvalPointData) : Except Fault ScanState :=
  if it.i_element_ ≠ s.last_element_idx then
    match new_element s it with
    | .error f => .error f
    | .ok s1 => mark_point s1 it
  else mark_point s it

/-- The loop of lines 73-87 over the sorted records. -/
def scan_loop : ScanState → List EvalPointData → Except Fault ScanState
  | s, [] => .ok s
  | s, it :: rest =>
    match scan_step s it with
    | .error f => .error f
    | .ok s1 => scan_loop s1 rest

/-- Lines 60-71: the sorted records and the erased element data of the previous step. -/
def erase_previous (m : ElementCacheMap) : ElementCacheMap :=
  { m with
    eval_point_data_ := std_sort m.eval_point_data_
    regions_starts_ := m.regions_starts_.reset
    element_starts_ := m.element_starts_.reset
    regions_to_map_ := []
    element_to_map_ := []
    elm_idx_ := List.replicate m.elm_idx_.length undef_elem_idx }

/-- State of the loop before its first iteration (lines 61-64). -/
def scan_init (m : ElementCacheMap) : ScanState :=
  { last_region_idx := UINT_MAX, last_element_idx := UINT_MAX, i_pos := 0,
    points_in_cache := 0, map := erase_previous m }

/-- Lines 88-91: the closing entries of both offset tables. -/
def close_tables (s : ScanState) : ElementCacheMap :=
  { s.map with
    regions_starts_ :=
      (s.map.regions_starts_.push_back s.map.element_starts_.temporary_size).make_permanent
    element_starts_ := (s.map.element_starts_.push_back s.i_pos).make_permanent }

/-- The method `ElementCacheMap::prepare_elements_to_update`. -/
def prepare_elements_to_update (m : ElementCacheMap) : Except Fault ElementCacheMap :=
  match scan_loop (scan_init m) (std_sort m.eval_point_data_) with
  | .error f => .error f
  | .ok s => .ok (close_tables s)

/-! ## Loop invariants -/

/-- What one successful iteration does to the loop state -/
structure StepOk (s : ScanState) (it : EvalPointData) (s1 : ScanState) : Prop where
  i_pos : s1.i_pos = s.i_pos + 1
  points : s1.points_in_cache = s.points_in_cache + 1
  last_elem : s1.last_element_idx = it.i_element_
  last_reg : s1.last_region_idx =
    if it.i_element_ ≠ s.last_element_idx ∧ it.i_reg_ ≠ s.last_region_idx then it.i_reg_
    else s.last_region_idx
  room : it.i_element_ ≠ s.last_element_idx →
    UIntMap.size s.map.element_to_map_ < s.map.elm_idx_.length
  elm_idx : s1.map.elm_idx_ =
    if it.i_element_ ≠ s.last_element_idx then
      s.map.elm_idx_.set (UIntMap.size s.map.element_to_map_) it.i_element_
    else s.map.elm_idx_
  e2m : s1.map.element_to_map_ =
    if it.i_element_ ≠ s.last_element_idx then
      UIntMap.assign s.map.element_to_map_ it.i_element_ s.map.element_starts_.temporary_size_
    else s.map.element_to_map_
  es : s1.map.element_starts_ =
    if it.i_element_ ≠ s.last_element_idx then s.map.element_starts_.push_back s.i_pos
    else s.map.element_starts_
  rs : s1.map.regions_starts_ =
    if it.i_element_ ≠ s.last_element_idx ∧ it.i_reg_ ≠ s.last_region_idx then
      s.map.regions_starts_.push_back s.map.element_starts_.temporary_size_
    else s.map.regions_starts_
  r2m : s1.map.regions_to_map_ =
    if it.i_element_ ≠ s.last_element_idx ∧ it.i_reg_ ≠ s.last_region_idx then
      UIntMap.assign s.map.regions_to_map_ it.i_reg_ s.map.regions_starts_.temporary_size_
    else s.map.regions_to_map_
  ready : s1.map.ready_to_reading_ = s.map.ready_to_reading_
  data : s1.map.eval_point_data_ = s.map.eval_point_data_
  eval_points : s1.map.eval_points_ = s.map.eval_points_
  table : ∃ slot tab ep, UIntMap.find s1.map.element_to_map_ it.i_element_ = some slot ∧
    s.map.element_eval_points_map_ = some tab ∧ s.map.eval_points_ = some ep ∧
    it.i_eval_point_ < ep.max_size ∧ slot * ep.max_size + it.i_eval_point_ < tab.length ∧
    s1.map.element_eval_points_map_ =
      some (tab.set (slot * ep.max_size + it.i_eval_point_) (Int.ofNat s.points_in_cache))

/-- Invariant of the loop on the slot bookkeeping -/
structure SlotInv (n : Nat) (pre : List EvalPointData) (s : ScanState) : Prop where
  i_pos : s.i_pos = pre.length
  points : s.points_in_cache = pre.length
  last : ∀ r, pre.getLast? = some r → s.last_element_idx = r.i_element_
  mx : ∀ x ∈ pre, x.i_element_ ≤ s.last_element_idx
  len : s.map.elm_idx_.length = n
  es_wf : s.map.element_starts_.temporary_size_ ≤ s.map.element_starts_.data_.length
  es_size : s.map.element_starts_.temporary_size_ = UIntMap.size s.map.element_to_map_
  size_le : UIntMap.size s.map.element_to_map_ ≤ n
  slot_iff : ∀ e sl, UIntMap.find s.map.element_to_map_ e = some sl ↔
      (sl < UIntMap.size s.map.element_to_map_ ∧ s.map.elm_idx_[sl]? = some e)
  free : ∀ sl, UIntMap.size s.map.element_to_map_ ≤ sl → sl < n →
      s.map.elm_idx_[sl]? = some undef_elem_idx
  keys : ∀ e, (∃ sl, UIntMap.find s.map.element_to_map_ e = some sl) ↔
      ∃ r ∈ pre, r.i_element_ = e
  count : ((pre.map EvalPointData.i_element_).toFinset).card = UIntMap.size s.map.element_to_map_
  es_sorted : s.map.element_starts_.pushed.Sorted (· < ·)
  es_lt : ∀ x ∈ s.map.element_starts_.pushed, x < pre.length

/-- Invariant of the loop on the region offsets -/
structure RegInv (pre : List EvalPointData) (s : ScanState) : Prop where
  rs_wf : s.map.regions_starts_.temporary_size_ ≤ s.map.regions_starts_.data_.length
  rs_sorted : s.map.regions_starts_.pushed.Sorted (· < ·)
  rs_lt : ∀ x ∈ s.map.regions_starts_.pushed, x < UIntMap.size s.map.element_to_map_

/-- Invariant of the loop on the table of row indices -/
structure TableInv (m0 : ElementCacheMap) (pre : List EvalPointData) (s : ScanState) : Prop where
  eval_points : s.map.eval_points_ = m0.eval_points_
  entry : ∀ sl p,
    (element_eval_point s.map sl p = element_eval_point m0 sl p ∧
      ¬ ∃ r ∈ pre, UIntMap.find s.map.element_to_map_ r.i_element_ = some sl ∧
        r.i_eval_point_ = p) ∨
    (∃ i r, pre[i]? = some r ∧ UIntMap.find s.map.element_to_map_ r.i_element_ = some sl ∧
      r.i_eval_point_ = p ∧ element_eval_point s.map sl p = some (Int.ofNat i))

/-- Everything the loop invariants say about the state in which the loop ends -/
structure ScanEnd (m : ElementCacheMap) (sf : ScanState) : Prop where
  loop : scan_loop (scan_init m) (std_sort m.eval_point_data_) = .ok sf
  slot : SlotInv m.elm_idx_.length (std_sort m.eval_point_data_) sf
  reg : RegInv (std_sort m.eval_point_data_) sf
  table : TableInv (erase_previous m) (std_sort m.eval_point_data_) sf

/-- Invariant of the loop on adjacent records, for records whose element determines the region -/
structure AdjInv (pre : List EvalPointData) (s : ScanState) : Prop where
  start : pre = [] → s.last_region_idx = UINT_MAX ∧ s.map.regions_starts_.pushed = [] ∧
    s.map.element_starts_.temporary_size_ = 0
  last_reg : ∀ r, pre.getLast? = some r → s.last_region_idx = r.i_reg_
  last_slot : ∀ r, pre.getLast? = some r →
    UIntMap.find s.map.element_to_map_ r.i_element_ =
      some (UIntMap.size s.map.element_to_map_ - 1) ∧ 0 < UIntMap.size s.map.element_to_map_
  head : (∀ r, pre[0]? = some r → r.i_reg_ ≠ UINT_MAX) → pre ≠ [] →
    s.map.regions_starts_.pushed[0]? = some 0
  adj : ∀ i r1 r2 sl1 sl2, pre[i]? = some r1 → pre[i + 1]? = some r2 →
    UIntMap.find s.map.element_to_map_ r1.i_element_ = some sl1 →
    UIntMap.find s.map.element_to_map_ r2.i_element_ = some sl2 →
    (r1.i_reg_ ≠ r2.i_reg_ → sl2 = sl1 + 1 ∧ sl2 ∈ s.map.regions_starts_.pushed ∧
      s.map.element_starts_.pushed[sl2]? = some (i + 1)) ∧
    (r1.i_reg_ = r2.i_reg_ → sl1 ≤ sl2 ∧
      ∀ x ∈ s.map.regions_starts_.pushed, ¬ (sl1 < x ∧ x ≤ sl2))

/-- Two loop states that agree on everything a reader can see -/
structure Sim (a b : ElementCacheMap) (s t : ScanState) : Prop where
  last_region : s.last_region_idx = t.last_region_idx
  last_element : s.last_element_idx = t.last_element_idx
  i_pos : s.i_pos = t.i_pos
  points : s.points_in_cache = t.points_in_cache
  elm_idx : s.map.elm_idx_ = t.map.elm_idx_
  e2m : s.map.element_to_map_ = t.map.element_to_map_
  r2m : s.map.regions_to_map_ = t.map.regions_to_map_
  data : s.map.eval_point_data_ = t.map.eval_point_data_
  es_size : s.map.element_starts_.temporary_size_ = t.map.element_starts_.temporary_size_
  es_wf : s.map.element_starts_.temporary_size_ ≤ s.map.element_starts_.data_.length ∧
    t.map.element_starts_.temporary_size_ ≤ t.map.element_starts_.data_.length
  es_pushed : s.map.element_starts_.pushed = t.map.element_starts_.pushed
  rs_size : s.map.regions_starts_.temporary_size_ = t.map.regions_starts_.temporary_size_
  rs_wf : s.map.regions_starts_.temporary_size_ ≤ s.map.regions_starts_.data_.length ∧
    t.map.regions_starts_.temporary_size_ ≤ t.map.regions_starts_.data_.length
  rs_pushed : s.map.regions_starts_.pushed = t.map.regions_starts_.pushed
  eval_points : s.map.eval_points_ = t.map.eval_points_
  tab_len : s.map.element_eval_points_map_.map List.length =
    t.map.element_eval_points_map_.map List.length
  agree : ∀ sl p, element_eval_point a sl p = element_eval_point b sl p →
    element_eval_point s.map sl p = element_eval_point t.map sl p

/-- State of the loop from which every remaining iteration is defined -/
structure DefInv (n : Nat) (len : Nat) (ep : EvalPoints) (pre : List EvalPointData)
    (s : ScanState) : Prop where
  slot : SlotInv n pre s
  start : pre = [] → s.last_element_idx = UINT_MAX
  eval_points : s.map.eval_points_ = some ep
  table : ∃ tab, s.map.element_eval_points_map_ = some tab ∧ tab.length = len

/-- State of `clear_element_eval_points_map` after the rows below `i` and the points below
`j` of the row `i` were reset, starting from the map `m` with the table `tab` -/
structure ClearInv (u : Int) (m : ElementCacheMap) (tab : List Int) (ep : EvalPoints)
    (i j : Nat) (c : ElementCacheMap) : Prop where
  same : c = { m with element_eval_points_map_ := c.element_eval_points_map_ }
  table : ∃ tab1, c.element_eval_points_map_ = some tab1 ∧ tab1.length = tab.length
  rows : ∀ sl p, sl < i → p < ep.max_size → element_eval_point c sl p = some u
  row : ∀ p, p < j → p < ep.max_size → element_eval_point c i p = some u

/-- Invariant of the loop on the positions of the records of each slot -/
structure RangeInv (pre : List EvalPointData) (s : ScanState) : Prop where
  last_slot : ∀ r, pre.getLast? = some r →
    UIntMap.find s.map.element_to_map_ r.i_element_ =
      some (UIntMap.size s.map.element_to_map_ - 1) ∧ 0 < UIntMap.size s.map.element_to_map_
  range : ∀ i r sl, pre[i]? = some r →
    UIntMap.find s.map.element_to_map_ r.i_element_ = some sl →
    ∃ lo, s.map.element_starts_.pushed[sl]? = some lo ∧ lo ≤ i ∧
      ∀ hi, s.map.element_starts_.pushed[sl + 1]? = some hi → i < hi

/-- Two loop states of which the second has seen `d` records more: the positions pushed to
`element_starts_` from index `k` on are larger by `d`, everything else a reader can see
is the same -/
structure Shift (d k : Nat) (s t : ScanState) : Prop where
  last_region : s.last_region_idx = t.last_region_idx
  last_element : s.last_element_idx = t.last_element_idx
  i_pos : t.i_pos = s.i_pos + d
  points : t.points_in_cache = s.points_in_cache + d
  elm_idx : s.map.elm_idx_ = t.map.elm_idx_
  e2m : s.map.element_to_map_ = t.map.element_to_map_
  r2m : s.map.regions_to_map_ = t.map.regions_to_map_
  rs : s.map.regions_starts_ = t.map.regions_starts_
  es_size : s.map.element_starts_.temporary_size_ = t.map.element_starts_.temporary_size_
  es_wf : s.map.element_starts_.temporary_size_ ≤ s.map.element_starts_.data_.length ∧
    t.map.element_starts_.temporary_size_ ≤ t.map.element_starts_.data_.length
  k_le : k ≤ s.map.element_starts_.temporary_size_
  es_pushed : t.map.element_starts_.pushed =
    s.map.element_starts_.pushed.take k ++ (s.map.element_starts_.pushed.drop k).map (· + d)
  eval_points : s.map.eval_points_ = t.map.eval_points_
  tab_len : s.map.element_eval_points_map_.map List.length =
    t.map.element_eval_points_map_.map List.length

/-! ## Predicates used in the statements and proofs -/

/-- The region segments described by an offset table: the pairs of consecutive entries. -/
def segments (l : RevertableList) : List (Nat × Nat) := l.items.zip l.items.tail

/-- The record at sorted position `i + 1`, of element `e2`, starts a new region segment
after the record at position `i`, of element `e1`: the slot of `e2` lies behind the slot of
`e1`, it is the first slot of a segment of `regions_starts_`, and the records of `e2`
begin at position `i + 1`. -/
def new_segment_at (m : ElementCacheMap) (i : Nat) (e1 e2 : Nat) : Prop :=
  ∃ sl1 ∈ UIntMap.find m.element_to_map_ e1, ∃ sl2 ∈ UIntMap.find m.element_to_map_ e2,
    sl1 < sl2 ∧ sl2 ∈ m.regions_starts_.items.dropLast ∧
    m.element_starts_.items[sl2]? = some (i + 1)

instance new_segment_at.decidable (m : ElementCacheMap) (i e1 e2 : Nat) :
    Decidable (new_segment_at m i e1 e2) := by
  unfold new_segment_at; infer_instance

/-- The slots of the elements `e1` and `e2` fall between the same two consecutive entries
of `regions_starts_`. -/
def same_segment (m : ElementCacheMap) (e1 e2 : Nat) : Prop :=
  ∃ sl1 ∈ UIntMap.find m.element_to_map_ e1, ∃ sl2 ∈ UIntMap.find m.element_to_map_ e2,
    ∃ seg ∈ segments m.regions_starts_,
      seg.1 ≤ sl1 ∧ sl1 < seg.2 ∧ seg.1 ≤ sl2 ∧ sl2 < seg.2

instance same_segment.decidable (m : ElementCacheMap) (e1 e2 : Nat) :
    Decidable (same_segment m e1 e2) := by
  unfold same_segment; infer_instance

/-- The cache map left by the constructor (with `regions_in_chunk = 3` and
`elements_in_chunk = 10`) and by `init` with `unused_point = -1`, for `n` slots and
`ms` local points per element, holding the given pending records. -/
def fresh_map (n ms : Nat) (records : List EvalPointData) : ElementCacheMap :=
  { elm_idx_ := List.replicate n undef_elem_idx
    ready_to_reading_ := false
    element_eval_points_map_ := some (List.replicate (n * ms) (-1))
    eval_point_data_ := records
    regions_starts_ := RevertableList.create 6
    element_starts_ := RevertableList.create 20
    regions_to_map_ := []
    element_to_map_ := []
    eval_points_ := some ⟨ms⟩ }

/-- The calls of an update cycle that act on the cache map.
Modelled from the spec: the registration of requests (`add`, declared in the absent
header) is `add_records`, which appends to the pending records and allocates no slot. -/
inductive Call where
  /-- The call `start_elements_update()`. -/
  | start_elements_update
  /-- The call `finish_elements_update()`. -/
  | finish_elements_update
  /-- The call `prepare_elements_to_update()`. -/
  | prepare_elements_to_update
  /-- The call `clear_element_eval_points_map()`. -/
  | clear_element_eval_points_map (n_cached_elements : Nat) (unused_point : Int)
  /-- Registration of further requests. -/
  | add_records (records : List EvalPointData)
  deriving DecidableEq

/-- Effect of one call on the cache map. -/
def Call.run : Call → ElementCacheMap → Except Fault ElementCacheMap
  | .start_elements_update, m => .ok (FieldValueCache.start_elements_update m)
  | .finish_elements_update, m => .ok (FieldValueCache.finish_elements_update m)
  | .prepare_elements_to_update, m => FieldValueCache.prepare_elements_to_update m
  | .clear_element_eval_points_map n u, m => FieldValueCache.clear_element_eval_points_map n u m
  | .add_records rs, m => .ok { m with eval_point_data_ := m.eval_point_data_ ++ rs }

/-- Effect of a sequence of calls; the first fault ends the sequence. -/
def run_calls : List Call → ElementCacheMap → Except Fault ElementCacheMap
  | [], m => .ok m
  | c :: cs, m =>
    match c.run m with
    | .error f => .error f
    | .ok m1 => run_calls cs m1

/-- Sample requests: the elements 1 and 2 of region 1 and the element 3 of region 3. -/
def sample_records : List EvalPointData := [⟨3, 3, 1⟩, ⟨1, 2, 0⟩, ⟨1, 1, 0⟩]

/-- A cache map with four slots and two local points per element, as left by the
constructor and `init`, holding the sample requests. -/
def sample_map : ElementCacheMap := fresh_map 4 2 sample_records

/-- A cache map that went through a previous cycle on the element 7 and now holds the
sample requests. -/
def stale_map : ElementCacheMap :=
  match prepare_elements_to_update (fresh_map 4 2 [⟨1, 7, 1⟩]) with
  | .ok c => { start_elements_update c with eval_point_data_ := sample_records }
  | .error _ => sample_map

/-- The sample cache map after `prepare_elements_to_update` and `finish_elements_update`. -/
def sample_ready : ElementCacheMap :=
  match prepare_elements_to_update sample_map with
  | .ok m1 => finish_elements_update m1
  | .error _ => sample_map

/-- The cache map after `start_elements_update`, the registration of the sample requests
and `prepare_elements_to_update`, before `finish_elements_update`. -/
def sample_collecting : ElementCacheMap :=
  match prepare_elements_to_update sample_map with
  | .ok m1 => m1
  | .error _ => sample_map

/-- A cache map with one slot that holds requests for the two elements 1 and 2. -/
def over_capacity_map : ElementCacheMap := fresh_map 1 2 [⟨1, 1, 0⟩, ⟨1, 2, 0⟩]

end FieldValueCache

/-! ## Integral descriptors, VTK attributes, time marks and the factory -/

namespace EvalSubset

open FieldValueCache (Fault EvalPoints UINT_MAX)

/-- Modelled from the spec: the members of `BaseIntegral`, declared in eval_subset.hh which
is not among the sources: the shared evaluation points (`none` for an empty pointer) and
the dimension, as set by the constructor `BaseIntegral(eval_points, dim)`. -/
structure BaseIntegral where
  /-- Shared evaluation points. -/
  eval_points_ : Option EvalPoints
  /-- Dimension of the reference element. -/
  dim_ : Nat
  deriving DecidableEq

/-- Modelled from the spec: `BulkIntegral`, a `BaseIntegral` with the index of its subset. -/
structure BulkIntegral extends BaseIntegral where
  /-- Index of the subset of evaluation points. -/
  subset_index_ : Nat
  deriving DecidableEq

/-- Data members of `EdgeIntegral` set by its constructor. -/
structure EdgeIntegral extends BaseIntegral where
  /-- Index of the subset of evaluation points. -/
  subset_index_ : Nat
  /-- Number of permutations of a side. -/
  n_permutations_ : Nat
  /-- Number of sides of the element. -/
  n_sides_ : Nat
  /-- Table of permuted point indices: side, permutation, point. -/
  perm_indices_ : List (List (List Nat))
  deriving DecidableEq

/-- Data members of `CouplingIntegral`. -/
structure CouplingIntegral extends BaseIntegral where
  /-- The edge integral of the pair. -/
  edge_integral_ : EdgeIntegral
  /-- The bulk integral of the pair. -/
  bulk_integral_ : BulkIntegral
  deriving DecidableEq

/-- The constructor `EdgeIntegral::EdgeIntegral`.  `n_subsets` is the method
`EvalPoints::n_subsets` of the object behind `eval_points` at the time of the call (the
class is declared in an absent header); `fresh` gives the indeterminate content of the
allocated arrays; `n_sides_ = dim_ + 1` is computed in `unsigned int`. -/
def EdgeIntegral.create (eval_points : Option EvalPoints) (n_subsets : Nat → Nat)
    (dim n_permutations points_per_side : Nat) (fresh : Nat → Nat → Nat → Nat) :
    Except Fault EdgeIntegral :=
  match eval_points with
  | none => .error Fault.null_pointer
  | some ep =>
    let n_sides := (dim + 1) % (UINT_MAX + 1)
    .ok { eval_points_ := some ep
          dim_ := dim
          subset_index_ := n_subsets dim
          n_permutations_ := n_permutations
          n_sides_ := n_sides
          perm_indices_ := (List.range n_sides).map fun i_side =>
            (List.range n_permutations).map fun i_perm =>
              (List.range points_per_side).map fun i_point => fresh i_side i_perm i_point }

/-- The constructor `CouplingIntegral::CouplingIntegral`; an argument is `none` for an
empty shared pointer. -/
def CouplingIntegral.create (edge_integral : Option EdgeIntegral)
    (bulk_integral : Option BulkIntegral) : Except Fault CouplingIntegral :=
  match edge_integral with
  | none => .error Fault.null_pointer
  | some e =>
    match bulk_integral with
    | none => .error Fault.null_pointer
    | some b =>
      if e.dim_ = b.dim_ then
        .ok { eval_points_ := e.eval_points_, dim_ := e.dim_, edge_integral_ := e,
              bulk_integral_ := b }
      else .error Fault.assertion_failed

/-- An edge integral of dimension 2 on evaluation points with `max_size() = 6`, with two
permutations of two points per side. -/
def sample_edge : EdgeIntegral :=
  { eval_points_ := some ⟨6⟩, dim_ := 2, subset_index_ := 1, n_permutations_ := 2,
    n_sides_ := 3, perm_indices_ := List.replicate 3 (List.replicate 2 [0, 0]) }

/-- A bulk integral of dimension `dim` on the same evaluation points. -/
def sample_bulk (dim : Nat) : BulkIntegral :=
  { eval_points_ := some ⟨6⟩, dim_ := dim, subset_index_ := 0 }

end EvalSubset

namespace VtkReader

open FieldValueCache (Fault)

/-- The enumeration `VtkMeshReader::DataType` (declared in the absent header), with the
values named in `get_data_type`. -/
inductive DataType where
  | int8 | uint8 | int16 | uint16 | int32 | uint32 | int64 | uint64 | float32 | float64
  | undefined
  deriving DecidableEq

/-- The enumeration `VtkMeshReader::DataFormat` (declared in the absent header). -/
inductive DataFormat where
  | ascii | binary_uncompressed | binary_zlib
  deriving DecidableEq

/-- The static table `types` of `get_data_type`. -/
def types : List (String × DataType) :=
  [("Int8", DataType.int8), ("UInt8", DataType.uint8), ("Int16", DataType.int16),
   ("UInt16", DataType.uint16), ("Int32", DataType.int32), ("UInt32", DataType.uint32),
   ("Int64", DataType.int64), ("UInt64", DataType.uint64), ("Float32", DataType.float32),
   ("Float64", DataType.float64), ("", DataType.undefined)]

/-- The method `VtkMeshReader::get_data_type`.  `ASSERT(false).error(...)` raises the
assertion error, the `return` behind it is not reached. -/
def get_data_type (type_str : String) : Except Fault DataType :=
  match types.lookup type_str with
  | some t => .ok t
  | none => .error Fault.assertion_failed

/-- What `read_base_vtk_attributes` reads from the parsed XML document (pugixml, an
external library): `attribute(...).as_string()` of the node `VTKFile`, which is the
empty string for a missing attribute, and `attribute(...).as_uint()` of the node `Piece`. -/
structure VtkFile where
  /-- Attribute `header_type` of `VTKFile`. -/
  header_type : String
  /-- Attribute `compressor` of `VTKFile`. -/
  compressor : String
  /-- Attribute `NumberOfPoints` of `Piece`. -/
  number_of_points : Nat
  /-- Attribute `NumberOfCells` of `Piece`. -/
  number_of_cells : Nat
  deriving DecidableEq

/-- Data members of `VtkMeshReader` set by `read_base_vtk_attributes`. -/
structure VtkMeshReader where
  /-- Header type of appended data. -/
  header_type_ : DataType
  /-- Data format of the file. -/
  data_format_ : DataFormat
  /-- Number of nodes. -/
  n_nodes_ : Nat
  /-- Number of elements. -/
  n_elements_ : Nat
  deriving DecidableEq

/-- The method `VtkMeshReader::read_base_vtk_attributes`. -/
def read_base_vtk_attributes (_r : VtkMeshReader) (doc : VtkFile) :
    Except Fault VtkMeshReader :=
  match get_data_type doc.header_type with
  | .error f => .error f
  | .ok header_type =>
    .ok { header_type_ := header_type
          data_format_ :=
            if header_type = DataType.undefined then DataFormat.ascii
            else if doc.compressor = "vtkZLibDataCompressor" then DataFormat.binary_zlib
            else DataFormat.binary_uncompressed
          n_nodes_ := doc.number_of_points
          n_elements_ := doc.number_of_cells }

/-- A reader before the attributes are read. -/
def new_reader : VtkMeshReader := ⟨DataType.undefined, DataFormat.ascii, 0, 0⟩

end VtkReader

namespace TimeMarks

open FieldValueCache (Fault)

/-- Largest value of `TimeMark::Type` (`unsigned long int`, 64 bits). -/
def ULONG_MAX : Nat := 2 ^ 64 - 1

/-- The class `TimeMark`.  The time is a `double` that the methods embedded here never
read; it is a value of an arbitrary type `Time`. -/
structure TimeMark (Time : Type) where
  /-- Time of the mark. -/
  time_ : Time
  /-- Bitmap of the base types of the mark. -/
  mark_type_ : Nat

/-- The method `TimeMark::match_mask`: `( mask & (~mark_type_) ) == 0`. -/
def TimeMark.match_mask {Time : Type} (mark : TimeMark Time) (mask : Nat) : Bool :=
  (mask &&& (ULONG_MAX - mark.mark_type_)) == 0

/-- The method `TimeMark::add_to_type`: `mark_type_ |= type`. -/
def TimeMark.add_to_type {Time : Type} (mark : TimeMark Time) (type : Nat) : TimeMark Time :=
  { mark with mark_type_ := mark.mark_type_ ||| type }

/-- The class `TimeMarksIterator`: the vector of marks, the position of `it_` in it
(`marks_.begin()` is 0 and `marks_.end()` is the length) and the mask. -/
structure TimeMarksIterator (Time : Type) where
  /-- The marks iterated over. -/
  marks_ : List (TimeMark Time)
  /-- Position of the iterator. -/
  it_ : Nat
  /-- Mask of the marks to stop at. -/
  mask_ : Nat

/-- The loop of `operator++`: `while ( it_ != marks_.begin() && ! (++it_) -> match_mask(mask_) )`.
Incrementing into or behind `marks_.end()` and dereferencing there is undefined.  The
first argument bounds the number of iterations; `operator_inc` passes a bound that the
loop never reaches. -/
def inc_loop {Time : Type} (marks : List (TimeMark Time)) (mask : Nat) :
    Nat → Nat → Except Fault Nat
  | 0, _ => .error Fault.out_of_range
  | fuel + 1, it =>
    if it ≠ 0 then
      match marks[it + 1]? with
      | none => .error Fault.out_of_range
      | some mark =>
        if !mark.match_mask mask then inc_loop marks mask fuel (it + 1) else .ok (it + 1)
    else .ok it

/-- The method `TimeMarksIterator::operator++`. -/
def TimeMarksIterator.operator_inc {Time : Type} (self : TimeMarksIterator Time) :
    Except Fault (TimeMarksIterator Time) :=
  match inc_loop self.marks_ self.mask_ (self.marks_.length + 1) self.it_ with
  | .error f => .error f
  | .ok it => .ok { self with it_ := it }

/-- The method `TimeMarks::begin`: an iterator at `marks_.begin()` with the mask
`TimeMark::every_type`, a constant defined in an absent source file. -/
def begin {Time : Type} (every_type : Nat) (marks : List (TimeMark Time)) :
    TimeMarksIterator Time :=
  { marks_ := marks, it_ := 0, mask_ := every_type }

/-- The loop of `operator--`: `while ( it_ != marks_.end() && ! (--it_) -> match_mask(mask_) )`.
Decrementing `marks_.begin()` is undefined.  The first argument bounds the number of
iterations; `operator_dec` passes a bound that the loop never reaches. -/
def dec_loop {Time : Type} (marks : List (TimeMark Time)) (mask : Nat) :
    Nat → Nat → Except Fault Nat
  | 0, _ => .error Fault.out_of_range
  | fuel + 1, it =>
    if it ≠ marks.length then
      if it = 0 then .error Fault.out_of_range
      else
        match marks[it - 1]? with
        | none => .error Fault.out_of_range
        | some mark =>
          if !mark.match_mask mask then dec_loop marks mask fuel (it - 1) else .ok (it - 1)
    else .ok it

/-- The method `TimeMarksIterator::operator--`. -/
def TimeMarksIterator.operator_dec {Time : Type} (self : TimeMarksIterator Time) :
    Except Fault (TimeMarksIterator Time) :=
  match dec_loop self.marks_ self.mask_ (self.it_ + 1) self.it_ with
  | .error f => .error f
  | .ok it => .ok { self with it_ := it }

end TimeMarks

namespace InputFactory

/-- The exception thrown by `Factory::create`, with the name it was asked for. -/
inductive InputException where
  | ExcNotRegistredClass (key_name : String)
  deriving DecidableEq

/-- The class `Input::Factory<Type, Arguments...>`: the registry maps a class name to a
function from the arguments to (a shared pointer to) the created object.  `Arguments` is
the tuple of arguments and `Result` stands for `std::shared_ptr<Type>`. -/
structure Factory (Arguments Result : Type) where
  /-- The map `factory_registry_`, an association list with unique keys. -/
  factory_registry_ : List (String × (Arguments → Result))

/-- The call `factory_registry_.find(name)`. -/
def registry_find {Arguments Result : Type} :
    List (String × (Arguments → Result)) → String → Option (Arguments → Result)
  | [], _ => none
  | (k, f) :: rest, name => if k = name then some f else registry_find rest name

/-- The assignment `factory_registry_[class_name] = func_wrapper`. -/
def registry_assign {Arguments Result : Type} :
    List (String × (Arguments → Result)) → String → (Arguments → Result) →
      List (String × (Arguments → Result))
  | [], name, f => [(name, f)]
  | (k, g) :: rest, name, f =>
    if k = name then (name, f) :: rest else (k, g) :: registry_assign rest name f

/-- The static method `Factory::register_function`, acting on the single instance of the
factory; it returns 0. -/
def Factory.register_function {Arguments Result : Type} (factory : Factory Arguments Result)
    (class_name : String) (func : Arguments → Result) : Factory Arguments Result × Int :=
  ({ factory_registry_ := registry_assign factory.factory_registry_ class_name func }, 0)

/-- The method `Factory::create`. -/
def Factory.create {Arguments Result : Type} (factory : Factory Arguments Result)
    (name : String) (arguments : Arguments) : Except InputException Result :=
  match registry_find factory.factory_registry_ name with
  | some factory_function => .ok (factory_function arguments)
  | none => .error (InputException.ExcNotRegistredClass name)

/-- A sequence of registrations, in the order of the calls. -/
def register_all {Arguments Result : Type} (factory : Factory Arguments Result) :
    List (String × (Arguments → Result)) → Factory Arguments Result
  | [] => factory
  | (name, f) :: rest => register_all (factory.register_function name f).1 rest

/-- The function most recently registered under `name` in a sequence of registrations
(in the order of the calls), if there is one: the reading of the specification that
`create` is compared with. -/
def last_registered {Arguments Result : Type} :
    List (String × (Arguments → Result)) → String → Option (Arguments → Result)
  | [], _ => none
  | (k, f) :: rest, name =>
    match last_registered rest name with
    | some g => some g
    | none => if k = name then some f else none

/-- The factory function of the test class `DescendantA` (arguments `n_comp` and `time`,
here both integers): the created object is represented by the name of its class and the
arguments of its constructor. -/
def create_instance_a (arguments : Int × Int) : String × Int × Int := ("DescendantA", arguments)

/-- A factory function of a second class. -/
def create_instance_b (arguments : Int × Int) : String × Int × Int := ("DescendantB", arguments)

end InputFactory

/-! ## Mesh: element IDs and element lists of nodes -/

namespace FlowMesh

/-- Ways in which a method of `Mesh` ends without returning. -/
inductive Failure where
  /-- An index outside of the container it is applied to (undefined behaviour). -/
  | out_of_range
  /-- The call `xprintf(UsrErr, ...)`: the user error is reported and the call does not
  return (the function is declared in an absent header). -/
  | user_error (message : String)
  deriving DecidableEq

/-- The part of `Element` read by the methods embedded here: the result of `dim()`. -/
structure Element where
  /-- Dimension of the element. -/
  dim : Nat
  deriving DecidableEq

/-- Data members of `Mesh` used by the methods embedded here.  `element_ids_` gives the
element ID by index in `element_vec_`: the result of `elem_index(idx)`, a method declared
in the absent header mesh.h. -/
structure Mesh where
  /-- Bulk elements followed by boundary elements. -/
  element_vec_ : List Element
  /-- ID of the element at each index; negative for boundary elements created by the mesh. -/
  element_ids_ : List Int
  /-- Number of bulk elements, the result of `n_elements()`. -/
  bulk_size_ : Nat
  /-- Number of boundary elements, the result of `n_elements(true)`. -/
  boundary_size_ : Nat
  /-- For each node the indices of the elements that use it. -/
  node_elements_ : List (List Nat)
  deriving DecidableEq

/-- The call `this->elem_index(idx)`. -/
def elem_index (mesh : Mesh) (idx : Nat) : Except Failure Int :=
  match mesh.element_ids_[idx]? with
  | some id => .ok id
  | none => .error Failure.out_of_range

/-- The first loop of `elements_id_maps` (lines 690-694) over the indices `idxs`: state
is `last_id` and the vector written through `map_it`, which runs in step with `idx`. -/
def bulk_id_loop (mesh : Mesh) : List Nat → Int → List Int → Except Failure (List Int)
  | [], _, ids => .ok ids
  | idx :: rest, last_id, ids =>
    match elem_index mesh idx with
    | .error f => .error f
    | .ok id =>
      if last_id ≥ id then .error (Failure.user_error "Element IDs in non-increasing order")
      else bulk_id_loop mesh rest id (ids.set idx id)

/-- The second loop of `elements_id_maps` (lines 699-709) over the indices `idxs`; `pos` is
the position of `map_it` in the vector. -/
def boundary_id_loop (mesh : Mesh) :
    List Nat → Nat → Int → List Int → Except Failure (List Int)
  | [], _, _, ids => .ok ids
  | idx :: rest, pos, last_id, ids =>
    match elem_index mesh idx with
    | .error f => .error f
    | .ok id =>
      if id < 0 then boundary_id_loop mesh rest (pos + 1) (-1) (ids.set pos (-1))
      else if last_id ≥ id then
        .error (Failure.user_error "Element IDs in non-increasing order")
      else boundary_id_loop mesh rest (pos + 1) id (ids.set pos id)

/-- The call `v.resize(n)` of a vector of `IdxInt`: new entries are zero. -/
def resize (v : List Int) (n : Nat) : List Int :=
  v.take n ++ List.replicate (n - v.length) 0

/-- The method `Mesh::elements_id_maps`; the result holds `bulk_elements_id` and
`boundary_elements_id` after the call. -/
def elements_id_maps (mesh : Mesh) (bulk_elements_id boundary_elements_id : List Int) :
    Except Failure (List Int × List Int) :=
  if bulk_elements_id.length = 0 then
    match bulk_id_loop mesh (List.range mesh.bulk_size_) (-1)
        (resize bulk_elements_id mesh.bulk_size_) with
    | .error f => .error f
    | .ok bulk =>
      match boundary_id_loop mesh
          (List.range' (mesh.element_vec_.length - mesh.boundary_size_) mesh.boundary_size_)
          0 (-1) (resize boundary_elements_id mesh.boundary_size_) with
      | .error f => .error f
      | .ok boundary => .ok (bulk, boundary)
  else .ok (bulk_elements_id, boundary_elements_id)

/-- The scan of `std::set_intersection` with the first range at `a :: as`: `rec_as` is the
intersection of `as` with a range. -/
def set_intersection_aux (a : Nat) (rec_as : List Nat → List Nat) : List Nat → List Nat
  | [] => []
  | b :: bs =>
    if a < b then rec_as (b :: bs)
    else if b < a then set_intersection_aux a rec_as bs
    else a :: rec_as bs

/-- The call `std::set_intersection` on two ascending ranges (standard library): the merge
scan that copies the values found in both.  The result is what is written from the output
iterator on; the scan reads an entry before it writes at or before its position, so the
calls that write into their first range give the same values. -/
def set_intersection : List Nat → List Nat → List Nat
  | [] => fun _ => []
  | a :: as => set_intersection_aux a (set_intersection as)

/-- The access `node_elements_[node]`. -/
def node_elements_at (mesh : Mesh) (node : Nat) : Except Failure (List Nat) :=
  match mesh.node_elements_[node]? with
  | some l => .ok l
  | none => .error Failure.out_of_range

/-- The loop of lines 327-333: the list is intersected with the list of each node from
`it2` on. -/
def intersect_loop (mesh : Mesh) : List Nat → List Nat → Except Failure (List Nat)
  | [], intersection_element_list => .ok intersection_element_list
  | node :: rest, intersection_element_list =>
    match node_elements_at mesh node with
    | .error f => .error f
    | .ok l => intersect_loop mesh rest (set_intersection intersection_element_list l)

/-- The method `Mesh::intersect_element_lists`; the result is `intersection_element_list`
after the call.  The loop starts at `it2`, which still points to the second node. -/
def intersect_element_lists (mesh : Mesh) (nodes_list : List Nat) :
    Except Failure (List Nat) :=
  match nodes_list with
  | [] => .ok []
  | [node] => node_elements_at mesh node
  | node1 :: node2 :: rest =>
    match node_elements_at mesh node1 with
    | .error f => .error f
    | .ok l1 =>
      match node_elements_at mesh node2 with
      | .error f => .error f
      | .ok l2 => intersect_loop mesh (node2 :: rest) (set_intersection l1 l2)

/-- The value of `dim-1` in `unsigned int`. -/
def lower_dim (dim : Nat) : Nat := (dim + FieldValueCache.UINT_MAX) % (FieldValueCache.UINT_MAX + 1)

/-- The test `element_vec_[ele].dim() == d`, false for an index outside of `element_vec_`. -/
def has_dim (mesh : Mesh) (d : Nat) (ele : Nat) : Bool :=
  match mesh.element_vec_[ele]? with
  | some element => decide (element.dim = d)
  | none => false

/-- The loop of `find_lower_dim_element` (lines 343-352): `kept` are the entries written
through `e_dest`. -/
def find_lower_dim_loop (mesh : Mesh) (dim : Nat) :
    List Nat → List Nat → Bool → Nat → Except Failure (List Nat × Bool × Nat)
  | [], kept, is_neighbour, element_idx => .ok (kept, is_neighbour, element_idx)
  | ele :: rest, kept, is_neighbour, element_idx =>
    match mesh.element_vec_[ele]? with
    | none => .error Failure.out_of_range
    | some element =>
      if element.dim = dim then
        find_lower_dim_loop mesh dim rest (kept ++ [ele]) is_neighbour element_idx
      else if element.dim = lower_dim dim then
        if is_neighbour then
          .error (Failure.user_error "Too matching elements in the same mesh")
        else find_lower_dim_loop mesh dim rest kept true ele
      else find_lower_dim_loop mesh dim rest kept is_neighbour element_idx

/-- The method `Mesh::find_lower_dim_element`; the result holds `element_list` after the
call, the returned value and `element_idx` after the call. -/
def find_lower_dim_element (mesh : Mesh) (element_list : List Nat) (dim : Nat)
    (element_idx : Nat) : Except Failure (List Nat × Bool × Nat) :=
  find_lower_dim_loop mesh dim element_list [] false element_idx

/-- The IDs of the bulk elements in index order. -/
def bulk_ids (mesh : Mesh) : List Int := mesh.element_ids_.take mesh.bulk_size_

/-- The IDs of the boundary elements in index order. -/
def boundary_ids (mesh : Mesh) : List Int :=
  (mesh.element_ids_.drop (mesh.element_vec_.length - mesh.boundary_size_)).take
    mesh.boundary_size_

/-- The value stored in `boundary_elements_id` for a boundary element with the given ID. -/
def stored_id (id : Int) : Int := if id < 0 then -1 else id

/-- The order required of two consecutive boundary IDs: the later one is negative or
larger than the earlier one. -/
def boundary_order (a b : Int) : Prop := b < 0 ∨ a < b

instance boundary_order.decidable : DecidableRel boundary_order :=
  fun a b => inferInstanceAs (Decidable (b < 0 ∨ a < b))

/-- A mesh with two bulk elements of dimension 2 (IDs 1 and 2) and three boundary elements
of dimension 1 (IDs 3, -1 and 2, the second one created by the mesh), on three nodes. -/
def sample_mesh : Mesh :=
  { element_vec_ := [⟨2⟩, ⟨2⟩, ⟨1⟩, ⟨1⟩, ⟨1⟩]
    element_ids_ := [1, 2, 3, -1, 2]
    bulk_size_ := 2
    boundary_size_ := 3
    node_elements_ := [[0, 1, 2], [1, 2, 4], [0, 1, 2, 3, 4]] }

/-- The sample mesh with the boundary IDs 5, 3 and -1. -/
def unordered_boundary_mesh : Mesh :=
  { sample_mesh with element_ids_ := [1, 2, 5, 3, -1] }

end FlowMesh

/-! ## Input list of a multifield -/

namespace MultiFieldInput

/-- A record of the input tree as far as `opt_val` with a key of array type reads it (the
accessor library `Input` is not among the sources): the keys that have a value, each with
the items of its array.  `Item` is the type of the array items, which are not read. -/
abbrev InputRecord (Item : Type) := List (String × List Item)

/-- The call `rec.opt_val(key, mf_array)`: the array stored under the key, `none` when the
record does not define the key (the call returns false). -/
def opt_val {Item : Type} : InputRecord Item → String → Option (List Item)
  | [], _ => none
  | (k, v) :: rest, key => if k = key then some v else opt_val rest key

/-- The exception thrown by `set_input_list`, with the values attached to it. -/
inductive MultiFieldException where
  | Exc_InvalidMultiFieldSize (multi_field_name : String) (size expected_size : Nat)
  deriving DecidableEq

/-- Data members of `MultiField` (and of its base `FieldCommon`) used by `set_input_list`. -/
structure MultiField (Item : Type) where
  /-- Result of `flags().match(FieldFlag::declare_input)`. -/
  declare_input : Bool
  /-- Result of `input_name()`. -/
  input_name : String
  /-- The member `shared_->comp_names_`. -/
  comp_names_ : List String
  /-- The member `full_input_list_`. -/
  full_input_list_ : List (InputRecord Item)
  /-- The member `shared_->input_list_`. -/
  input_list_ : List (InputRecord Item)

/-- The loop of `set_input_list` (lines 167-177) over the records of the list. -/
def check_sizes {Item : Type} (input_name : String) (comp_size : Nat) :
    List (InputRecord Item) → Except MultiFieldException Unit
  | [] => .ok ()
  | it :: rest =>
    match opt_val it input_name with
    | some mf_array =>
      if mf_array.length ≠ 1 ∧ mf_array.length ≠ comp_size then
        .error (MultiFieldException.Exc_InvalidMultiFieldSize input_name mf_array.length
          comp_size)
      else check_sizes input_name comp_size rest
    | none => check_sizes input_name comp_size rest

/-- The method `MultiField::set_input_list`. -/
def MultiField.set_input_list {Item : Type} (self : MultiField Item)
    (list : List (InputRecord Item)) : Except MultiFieldException (MultiField Item) :=
  if !self.declare_input then .ok self
  else
    match check_sizes self.input_name self.comp_names_.length list with
    | .error e => .error e
    | .ok _ => .ok { self with full_input_list_ := list, input_list_ := list }

/-- A multifield `conc` with two components and the input flag set. -/
def sample_field : MultiField Nat :=
  { declare_input := true, input_name := "conc", comp_names_ := ["A", "B"],
    full_input_list_ := [], input_list_ := [] }

end MultiFieldInput

/-! ## Update of the DOF values after reactions -/

namespace Transport

open FieldValueCache (Fault)

/-- A cell of the DOF handler as far as `update_after_reactions` reads it. -/
structure DHCell where
  /-- Result of `cell.dim()`. -/
  dim : Nat
  /-- The global indices written by `cell.get_dof_indices`. -/
  dof_indices : List Int

/-- The data read and written by `update_after_reactions`, in exact arithmetic: the values
of type `double` are rational numbers.  The local solution array of a substance is a map
from positions to values. -/
structure TransportDG where
  /-- The cells of `feo->dh()->own_range()`, in the order of the iteration. -/
  own_range : List DHCell
  /-- Result of `feo->fe<dim>()->n_dofs()` for the dimensions 1, 2 and 3. -/
  fe_n_dofs : Nat → Nat
  /-- Result of `feo->dh()->distr()->begin()`. -/
  distr_begin : Int
  /-- Result of `Model::n_substances()`. -/
  n_substances : Nat
  /-- The arrays `ls[sbi]->get_solution_array()`. -/
  solution_array : Nat → Int → ℚ
  /-- The member `solution_elem_`, by substance and cell. -/
  solution_elem_ : Nat → Nat → ℚ

/-- The `switch` on `cell.dim()`: `n_dofs` stays uninitialised for other dimensions. -/
def cell_n_dofs (self : TransportDG) (cell : DHCell) : Except Fault Nat :=
  if cell.dim = 1 ∨ cell.dim = 2 ∨ cell.dim = 3 then .ok (self.fe_n_dofs cell.dim)
  else .error Fault.out_of_range

/-- Position in the local solution array of the `j`-th DOF of a cell:
`dof_indices[j]-feo->dh()->distr()->begin()`.  The vector `dof_indices(n_dofs)` is zero
where `get_dof_indices` did not write. -/
def dof_position (self : TransportDG) (cell : DHCell) (j : Nat) : Int :=
  cell.dof_indices.getD j 0 - self.distr_begin

/-- The body of the loop over the substances (lines 1744-1751) for one substance and one
cell: the average of the DOF values, then the shift of every DOF value. -/
def shift_cell (self : TransportDG) (cell : DHCell) (n_dofs i_cell sbi : Nat)
    (array : Int → ℚ) : Int → ℚ :=
  let old_average :=
    ((List.range n_dofs).foldl (fun sum j => sum + array (dof_position self cell j)) 0) /
      (n_dofs : ℚ)
  (List.range n_dofs).foldl
    (fun a j => Function.update a (dof_position self cell j)
      (a (dof_position self cell j) + (self.solution_elem_ sbi i_cell - old_average)))
    array

/-- The loop over the own cells (lines 1722-1753); `i_cell` counts the cells. -/
def update_cells (self : TransportDG) :
    List DHCell → Nat → (Nat → Int → ℚ) → Except Fault (Nat → Int → ℚ)
  | [], _, arrays => .ok arrays
  | cell :: rest, i_cell, arrays =>
    match cell_n_dofs self cell with
    | .error f => .error f
    | .ok n_dofs =>
      update_cells self rest (i_cell + 1)
        (fun sbi => if sbi < self.n_substances
          then shift_cell self cell n_dofs i_cell sbi (arrays sbi) else arrays sbi)

/-- The method `TransportDG::update_after_reactions`, without the final products
`MatMult` into `mass_vec`, which do not write to the solution. -/
def update_after_reactions (self : TransportDG) (solution_changed : Bool) :
    Except Fault TransportDG :=
  if solution_changed then
    match update_cells self self.own_range 0 self.solution_array with
    | .error f => .error f
    | .ok arrays => .ok { self with solution_array := arrays }
  else .ok self

/-- The positions in the local solution array of the DOFs of a cell, for the number of
DOFs that `update_after_reactions` takes from the finite element of the cell's dimension. -/
def cell_positions (self : TransportDG) (cell : DHCell) : List Int :=
  (List.range (self.fe_n_dofs cell.dim)).map (dof_position self cell)

/-- The arithmetic mean of the values of an array at the given positions. -/
def mean_at (array : Int → ℚ) (positions : List Int) : ℚ :=
  (positions.map array).sum / (positions.length : ℚ)

/-- A discretisation with a cell of dimension 1 on the positions 0 and 1 and a cell of
dimension 2 on the positions 2, 3 and 4, one substance, the value `p` at every position
`p` and the element value 10 on every cell. -/
def sample_transport : TransportDG :=
  { own_range := [⟨1, [0, 1]⟩, ⟨2, [2, 3, 4]⟩]
    fe_n_dofs := fun dim => dim + 1
    distr_begin := 0
    n_substances := 1
    solution_array := fun _ p => (p : ℚ)
    solution_elem_ := fun _ _ => 10 }

end Transport

namespace FieldValueCache

/-! ## Lemmas about the embedding -/

theorem set_element_eval_point_ok {m m1 : ElementCacheMap} {sl p : Nat} {v : Int}
    (h : set_element_eval_point m sl p v = .ok m1) :
    ∃ tab ep, m.element_eval_points_map_ = some tab ∧ m.eval_points_ = some ep ∧
      p < ep.max_size ∧ sl * ep.max_size + p < tab.length ∧
      m1 = { m with element_eval_points_map_ := some (tab.set (sl * ep.max_size + p) v) } := by
  unfold set_element_eval_point at h
  split at h
  · rename_i tab ep htab hep
    split at h
    · rename_i hc
      injection h with h
      exact ⟨tab, ep, htab, hep, hc.1, hc.2, h.symm⟩
    · cases h
  · cases h

theorem mark_point_ok {s s1 : ScanState} {it : EvalPointData}
    (h : mark_point s it = .ok s1) :
    ∃ slot tab ep, UIntMap.find s.map.element_to_map_ it.i_element_ = some slot ∧
      s.map.element_eval_points_map_ = some tab ∧ s.map.eval_points_ = some ep ∧
      it.i_eval_point_ < ep.max_size ∧ slot * ep.max_size + it.i_eval_point_ < tab.length ∧
      s1 = { s with
        map := { s.map with
          element_eval_points_map_ := some
            (tab.set (slot * ep.max_size + it.i_eval_point_) (Int.ofNat s.points_in_cache)) }
        points_in_cache := s.points_in_cache + 1
        i_pos := s.i_pos + 1 } := by
  unfold mark_point at h
  split at h
  · cases h
  · rename_i slot hslot
    split at h
    · cases h
    · rename_i m1 hm1
      obtain ⟨tab, ep, htab, hep, hp, hidx, rfl⟩ := set_element_eval_point_ok hm1
      injection h with h
      exact ⟨slot, tab, ep, hslot, htab, hep, hp, hidx, h.symm⟩

theorem assign_slot_ok {s s1 : ScanState} {it : EvalPointData}
    (h : assign_slot s it = .ok s1) :
    UIntMap.size s.map.element_to_map_ < s.map.elm_idx_.length ∧
    s1 = { s with
      map := { s.map with
        elm_idx_ := s.map.elm_idx_.set (UIntMap.size s.map.element_to_map_) it.i_element_
        element_to_map_ :=
          UIntMap.assign s.map.element_to_map_ it.i_element_ s.map.element_starts_.temporary_size_
        element_starts_ := s.map.element_starts_.push_back s.i_pos }
      last_element_idx := it.i_element_ } := by
  unfold assign_slot at h
  split at h
  · rename_i hc
    injection h with h
    exact ⟨hc, h.symm⟩
  · cases h

theorem scan_step_ok {s s1 : ScanState} {it : EvalPointData}
    (h : scan_step s it = .ok s1) : StepOk s it s1 := by
  unfold scan_step at h
  by_cases hn : it.i_element_ ≠ s.last_element_idx
  · rw [if_pos hn] at h
    split at h
    · cases h
    · rename_i s0 hs0
      unfold new_element at hs0
      obtain ⟨hroom, rfl⟩ := assign_slot_ok hs0
      obtain ⟨slot, tab, ep, hslot, htab, hep, hp, hidx, rfl⟩ := mark_point_ok h
      by_cases hr : it.i_reg_ ≠ s.last_region_idx
      · simp only [hr, if_true, new_region, not_false_eq_true] at hroom hslot htab hep hidx ⊢
        constructor <;> simp_all [RevertableList.temporary_size, new_region]
      · simp only [hr, if_false] at hroom hslot htab hep hidx ⊢
        constructor <;> simp_all [RevertableList.temporary_size]
  · rw [if_neg hn] at h
    obtain ⟨slot, tab, ep, hslot, htab, hep, hp, hidx, rfl⟩ := mark_point_ok h
    have hn1 : it.i_element_ = s.last_element_idx := not_not.mp hn
    constructor <;> simp_all

theorem UIntMap.find_assign (m : UIntMap) (k v k1 : Nat) :
    UIntMap.find (UIntMap.assign m k v) k1 = if k = k1 then some v else UIntMap.find m k1 := by
  induction m with
  | nil => simp [UIntMap.assign, UIntMap.find]
  | cons kv m ih =>
    obtain ⟨k0, v0⟩ := kv
    by_cases h0 : k0 = k
    · subst h0
      simp only [UIntMap.assign, if_true, UIntMap.find]
      by_cases h1 : k0 = k1 <;> simp [h1]
    · simp only [UIntMap.assign, if_neg h0, UIntMap.find, ih]
      by_cases h1 : k0 = k1
      · have : ¬ k = k1 := fun h => h0 (h1.trans h.symm)
        simp [h1, this]
      · simp [h1]

theorem UIntMap.size_assign_new (m : UIntMap) (k v : Nat) (h : UIntMap.find m k = none) :
    UIntMap.size (UIntMap.assign m k v) = UIntMap.size m + 1 := by
  induction m with
  | nil => simp [UIntMap.assign, UIntMap.size]
  | cons kv m ih =>
    obtain ⟨k0, v0⟩ := kv
    by_cases h0 : k0 = k
    · simp [UIntMap.find, h0] at h
    · simp only [UIntMap.find, if_neg h0] at h
      have := ih h
      simp only [UIntMap.size] at this ⊢
      simp [UIntMap.assign, h0, this]

theorem RevertableList.pushed_push_back (l : RevertableList) (t : Nat)
    (h : l.temporary_size_ ≤ l.data_.length) :
    (l.push_back t).pushed = l.pushed ++ [t] ∧
      (l.push_back t).temporary_size_ ≤ (l.push_back t).data_.length := by
  unfold RevertableList.push_back RevertableList.pushed
  by_cases hlt : l.temporary_size_ < l.data_.length
  · simp only [hlt, if_true, List.length_set]
    refine ⟨?_, hlt⟩
    rw [List.take_succ, List.set_take, List.set_eq_of_length_le (by simp)]
    simp [hlt]
  · have heq : l.temporary_size_ = l.data_.length := by omega
    simp only [hlt, if_false, List.length_append, List.length_singleton]
    refine ⟨?_, by omega⟩
    rw [heq, List.take_length, List.take_of_length_le (by simp)]

theorem RevertableList.length_pushed (l : RevertableList)
    (h : l.temporary_size_ ≤ l.data_.length) : l.pushed.length = l.temporary_size_ := by
  simp [RevertableList.pushed, h]

theorem RevertableList.items_make_permanent (l : RevertableList) :
    l.make_permanent.items = l.pushed := rfl

theorem EvalPointData.le_iff (a b : EvalPointData) :
    EvalPointData.le a b ↔ a.i_element_ < b.i_element_ ∨ (a.i_element_ = b.i_element_ ∧
      (a.i_reg_ < b.i_reg_ ∨ (a.i_reg_ = b.i_reg_ ∧ a.i_eval_point_ ≤ b.i_eval_point_))) := by
  unfold EvalPointData.le EvalPointData.lt
  by_cases h1 : b.i_element_ = a.i_element_
  · by_cases h2 : b.i_reg_ = a.i_reg_
    · rw [if_pos h1, if_pos h2, decide_eq_false_iff_not]; omega
    · rw [if_pos h1, if_neg h2, decide_eq_false_iff_not]; omega
  · rw [if_neg h1, decide_eq_false_iff_not]; omega

theorem EvalPointData.le_total (a b : EvalPointData) :
    EvalPointData.le a b ∨ EvalPointData.le b a := by
  rw [EvalPointData.le_iff, EvalPointData.le_iff]; omega

theorem EvalPointData.le_trans {a b c : EvalPointData}
    (hab : EvalPointData.le a b) (hbc : EvalPointData.le b c) : EvalPointData.le a c := by
  rw [EvalPointData.le_iff] at *; omega

theorem EvalPointData.le_element {a b : EvalPointData} (h : EvalPointData.le a b) :
    a.i_element_ ≤ b.i_element_ := by
  rw [EvalPointData.le_iff] at h; omega

theorem std_sort_sorted (l : List EvalPointData) : (std_sort l).Sorted EvalPointData.le := by
  haveI : IsTotal EvalPointData EvalPointData.le := ⟨EvalPointData.le_total⟩
  haveI : IsTrans EvalPointData EvalPointData.le := ⟨fun _ _ _ => EvalPointData.le_trans⟩
  exact List.sorted_insertionSort _ l

theorem std_sort_perm (l : List EvalPointData) : (std_sort l).Perm l :=
  List.perm_insertionSort _ l

theorem scan_loop_induction (P : List EvalPointData → ScanState → Prop) (L : List EvalPointData)
    (hstep : ∀ pre it rest s s1, pre ++ it :: rest = L → P pre s → scan_step s it = .ok s1 →
      P (pre ++ [it]) s1) :
    ∀ (rest pre : List EvalPointData) (s sf : ScanState), pre ++ rest = L → P pre s →
      scan_loop s rest = .ok sf → P L sf := by
  intro rest
  induction rest with
  | nil =>
    intro pre s sf hL hP h
    simp only [scan_loop] at h
    injection h with h
    subst h
    simpa [← hL] using hP
  | cons it rest ih =>
    intro pre s sf hL hP h
    simp only [scan_loop] at h
    split at h
    · cases h
    · rename_i s1 hs1
      exact ih (pre ++ [it]) s1 sf (by simpa using hL) (hstep pre it rest s s1 hL hP hs1) h

theorem sorted_le_of_append {L pre rest : List EvalPointData} {it : EvalPointData}
    (hs : L.Sorted EvalPointData.le) (hL : pre ++ it :: rest = L) :
    ∀ x ∈ pre, x.i_element_ ≤ it.i_element_ := by
  intro x hx
  subst hL
  have := List.pairwise_append.mp hs
  exact EvalPointData.le_element (this.2.2 x hx it (List.mem_cons_self _ _))

theorem getLast?_mem {α : Type} {l : List α} {a : α} (h : l.getLast? = some a) : a ∈ l :=
  List.mem_of_getLast?_eq_some h

theorem step_not_key {n : Nat} {L pre rest : List EvalPointData} {it : EvalPointData}
    {s : ScanState} (hs : L.Sorted EvalPointData.le) (hL : pre ++ it :: rest = L)
    (hI : SlotInv n pre s) (hn : it.i_element_ ≠ s.last_element_idx) :
    UIntMap.find s.map.element_to_map_ it.i_element_ = none := by
  cases hf : UIntMap.find s.map.element_to_map_ it.i_element_ with
  | none => rfl
  | some sl =>
    exfalso
    obtain ⟨r, hr, hre⟩ := (hI.keys it.i_element_).mp ⟨sl, hf⟩
    have h1 := hI.mx r hr
    have hne : pre ≠ [] := List.ne_nil_of_mem hr
    obtain ⟨l, hl⟩ : ∃ l, pre.getLast? = some l := by
      cases hg : pre.getLast? with
      | none => exact absurd (List.getLast?_eq_none_iff.mp hg) hne
      | some l => exact ⟨l, rfl⟩
    have h2 := hI.last l hl
    have h3 := sorted_le_of_append hs hL l (getLast?_mem hl)
    omega

theorem slot_inv_step {n : Nat} {L pre rest : List EvalPointData} {it : EvalPointData}
    {s s1 : ScanState} (hs : L.Sorted EvalPointData.le) (hL : pre ++ it :: rest = L)
    (hI : SlotInv n pre s) (h : scan_step s it = .ok s1) : SlotInv n (pre ++ [it]) s1 := by
  have hok := scan_step_ok h
  have hmx := sorted_le_of_append hs hL
  by_cases hn : it.i_element_ ≠ s.last_element_idx
  · have hnone := step_not_key hs hL hI hn
    have hroom := hok.room hn
    have hsz : UIntMap.size s1.map.element_to_map_ = UIntMap.size s.map.element_to_map_ + 1 := by
      rw [hok.e2m, if_pos hn]; exact UIntMap.size_assign_new _ _ _ hnone
    have hfind : ∀ e, UIntMap.find s1.map.element_to_map_ e =
        if it.i_element_ = e then some (UIntMap.size s.map.element_to_map_)
        else UIntMap.find s.map.element_to_map_ e := by
      intro e; rw [hok.e2m, if_pos hn, UIntMap.find_assign, hI.es_size]
    have helm : s1.map.elm_idx_ =
        s.map.elm_idx_.set (UIntMap.size s.map.element_to_map_) it.i_element_ := by
      rw [hok.elm_idx, if_pos hn]
    have hes := RevertableList.pushed_push_back s.map.element_starts_ s.i_pos hI.es_wf
    have hes1 : s1.map.element_starts_ = s.map.element_starts_.push_back s.i_pos := by
      rw [hok.es, if_pos hn]
    have hnotin : it.i_element_ ∉ (pre.map EvalPointData.i_element_).toFinset := by
      intro hmem
      simp only [List.mem_toFinset, List.mem_map] at hmem
      obtain ⟨r, hr, hre⟩ := hmem
      obtain ⟨sl, hsl⟩ := (hI.keys it.i_element_).mpr ⟨r, hr, hre⟩
      rw [hnone] at hsl; cases hsl
    constructor
    · simp [hok.i_pos, hI.i_pos]
    · simp [hok.points, hI.points]
    · intro r hr
      simp at hr
      rw [hok.last_elem, hr]
    · intro x hx
      rw [hok.last_elem]
      rcases List.mem_append.mp hx with hx | hx
      · exact hmx x hx
      · simp at hx; rw [hx]
    · rw [helm, List.length_set]; exact hI.len
    · rw [hes1]; exact hes.2
    · rw [hes1, hsz]; simp [RevertableList.push_back, hI.es_size]
    · rw [hsz]; have := hI.len; omega
    · intro e sl
      rw [hfind, hsz, helm]
      by_cases he : it.i_element_ = e
      · rw [if_pos he]
        constructor
        · intro h1
          injection h1 with h1
          subst h1
          refine ⟨Nat.lt_succ_self _, ?_⟩
          rw [List.getElem?_set_self hroom, he]
        · rintro ⟨h1, h2⟩
          by_cases hsl : sl = UIntMap.size s.map.element_to_map_
          · rw [hsl]
          · exfalso
            rw [List.getElem?_set_ne (Ne.symm hsl)] at h2
            have := (hI.slot_iff e sl).mpr ⟨by omega, h2⟩
            rw [← he, hnone] at this; cases this
      · rw [if_neg he, hI.slot_iff]
        constructor
        · rintro ⟨h1, h2⟩
          refine ⟨by omega, ?_⟩
          rw [List.getElem?_set_ne (by omega)]; exact h2
        · rintro ⟨h1, h2⟩
          by_cases hsl : sl = UIntMap.size s.map.element_to_map_
          · exfalso
            rw [hsl, List.getElem?_set_self hroom] at h2
            injection h2 with h2
            exact he h2
          · rw [List.getElem?_set_ne (Ne.symm hsl)] at h2
            exact ⟨by omega, h2⟩
    · intro sl h1 h2
      rw [hsz] at h1
      rw [helm, List.getElem?_set_ne (by omega)]
      exact hI.free sl (by omega) h2
    · intro e
      simp only [hfind, List.mem_append, List.mem_singleton]
      by_cases he : it.i_element_ = e
      · simp only [if_pos he]
        constructor
        · intro _; exact ⟨it, Or.inr rfl, he⟩
        · intro _; exact ⟨_, rfl⟩
      · simp only [if_neg he, hI.keys]
        constructor
        · rintro ⟨r, hr, hre⟩; exact ⟨r, Or.inl hr, hre⟩
        · rintro ⟨r, hr | hr, hre⟩
          · exact ⟨r, hr, hre⟩
          · subst hr; exact absurd hre he
    · rw [hsz, ← hI.count]
      simp only [List.map_append, List.map_cons, List.map_nil, List.toFinset_append,
        List.toFinset_cons, List.toFinset_nil, insert_emptyc_eq]
      rw [Finset.union_comm, ← Finset.insert_eq, Finset.card_insert_of_not_mem hnotin]
    · rw [hes1, hes.1]
      refine List.pairwise_append.mpr ⟨hI.es_sorted, List.pairwise_singleton _ _, ?_⟩
      intro x hx y hy
      simp at hy
      rw [hy, hI.i_pos]
      exact hI.es_lt x hx
    · intro x hx
      rw [hes1, hes.1] at hx
      simp only [List.length_append, List.length_singleton]
      rcases List.mem_append.mp hx with hx | hx
      · have := hI.es_lt x hx; omega
      · simp at hx; rw [hx, hI.i_pos]; omega
  · have he : it.i_element_ = s.last_element_idx := not_not.mp hn
    have he2m : s1.map.element_to_map_ = s.map.element_to_map_ := by rw [hok.e2m, if_neg hn]
    have helm : s1.map.elm_idx_ = s.map.elm_idx_ := by rw [hok.elm_idx, if_neg hn]
    have hes1 : s1.map.element_starts_ = s.map.element_starts_ := by rw [hok.es, if_neg hn]
    obtain ⟨slot, tab, ep, hslot, -⟩ := hok.table
    rw [he2m] at hslot
    obtain ⟨r0, hr0, hr0e⟩ := (hI.keys it.i_element_).mp ⟨slot, hslot⟩
    constructor
    · simp [hok.i_pos, hI.i_pos]
    · simp [hok.points, hI.points]
    · intro r hr
      simp at hr
      rw [hok.last_elem, hr]
    · intro x hx
      rw [hok.last_elem]
      rcases List.mem_append.mp hx with hx | hx
      · exact hmx x hx
      · simp at hx; rw [hx]
    · rw [helm]; exact hI.len
    · rw [hes1]; exact hI.es_wf
    · rw [hes1, he2m]; exact hI.es_size
    · rw [he2m]; exact hI.size_le
    · rw [he2m, helm]; exact hI.slot_iff
    · rw [he2m, helm]; exact hI.free
    · intro e
      rw [he2m, hI.keys]
      simp only [List.mem_append, List.mem_singleton]
      constructor
      · rintro ⟨r, hr, hre⟩; exact ⟨r, Or.inl hr, hre⟩
      · rintro ⟨r, hr | hr, hre⟩
        · exact ⟨r, hr, hre⟩
        · subst hr; exact ⟨r0, hr0, hr0e.trans hre⟩
    · rw [he2m, ← hI.count]
      congr 1
      ext e
      simp only [List.mem_toFinset, List.mem_map, List.mem_append, List.mem_singleton]
      constructor
      · rintro ⟨r, hr | hr, hre⟩
        · exact ⟨r, hr, hre⟩
        · subst hr; exact ⟨r0, hr0, hr0e.trans hre⟩
      · rintro ⟨r, hr, hre⟩; exact ⟨r, Or.inl hr, hre⟩
    · rw [hes1]; exact hI.es_sorted
    · intro x hx
      rw [hes1] at hx
      have := hI.es_lt x hx
      simp only [List.length_append, List.length_singleton]; omega

theorem step_size {n : Nat} {L pre rest : List EvalPointData} {it : EvalPointData}
    {s s1 : ScanState} (hs : L.Sorted EvalPointData.le) (hL : pre ++ it :: rest = L)
    (hI : SlotInv n pre s) (h : scan_step s it = .ok s1) :
    UIntMap.size s1.map.element_to_map_ =
      if it.i_element_ ≠ s.last_element_idx then UIntMap.size s.map.element_to_map_ + 1
      else UIntMap.size s.map.element_to_map_ := by
  have hok := scan_step_ok h
  by_cases hn : it.i_element_ ≠ s.last_element_idx
  · rw [if_pos hn, hok.e2m, if_pos hn]
    exact UIntMap.size_assign_new _ _ _ (step_not_key hs hL hI hn)
  · rw [if_neg hn, hok.e2m, if_neg hn]

theorem step_find_stable {n : Nat} {L pre rest : List EvalPointData} {it : EvalPointData}
    {s s1 : ScanState} (hs : L.Sorted EvalPointData.le) (hL : pre ++ it :: rest = L)
    (hI : SlotInv n pre s) (h : scan_step s it = .ok s1) :
    ∀ r ∈ pre, UIntMap.find s1.map.element_to_map_ r.i_element_ =
      UIntMap.find s.map.element_to_map_ r.i_element_ := by
  intro r hr
  have hok := scan_step_ok h
  by_cases hn : it.i_element_ ≠ s.last_element_idx
  · rw [hok.e2m, if_pos hn, UIntMap.find_assign]
    have hnone := step_not_key hs hL hI hn
    obtain ⟨sl, hsl⟩ := (hI.keys r.i_element_).mpr ⟨r, hr, rfl⟩
    have hne : ¬ it.i_element_ = r.i_element_ := by
      intro he; rw [he, hsl] at hnone; cases hnone
    rw [if_neg hne]
  · rw [hok.e2m, if_neg hn]

theorem reg_inv_step {n : Nat} {L pre rest : List EvalPointData} {it : EvalPointData}
    {s s1 : ScanState} (hs : L.Sorted EvalPointData.le) (hL : pre ++ it :: rest = L)
    (hI : SlotInv n pre s) (hR : RegInv pre s) (h : scan_step s it = .ok s1) :
    RegInv (pre ++ [it]) s1 := by
  have hok := scan_step_ok h
  have hsz := step_size hs hL hI h
  by_cases hc : it.i_element_ ≠ s.last_element_idx ∧ it.i_reg_ ≠ s.last_region_idx
  · have hrs : s1.map.regions_starts_ =
        s.map.regions_starts_.push_back s.map.element_starts_.temporary_size_ := by
      rw [hok.rs, if_pos hc]
    have hp := RevertableList.pushed_push_back s.map.regions_starts_
      s.map.element_starts_.temporary_size_ hR.rs_wf
    rw [if_pos hc.1] at hsz
    constructor
    · rw [hrs]; exact hp.2
    · rw [hrs, hp.1]
      refine List.pairwise_append.mpr ⟨hR.rs_sorted, List.pairwise_singleton _ _, ?_⟩
      intro x hx y hy
      simp at hy
      rw [hy, hI.es_size]
      exact hR.rs_lt x hx
    · intro x hx
      rw [hrs, hp.1] at hx
      rw [hsz]
      rcases List.mem_append.mp hx with hx | hx
      · have := hR.rs_lt x hx; omega
      · simp at hx; rw [hx, hI.es_size]; omega
  · have hrs : s1.map.regions_starts_ = s.map.regions_starts_ := by
      rw [hok.rs, if_neg hc]
    constructor
    · rw [hrs]; exact hR.rs_wf
    · rw [hrs]; exact hR.rs_sorted
    · intro x hx
      rw [hrs] at hx
      have := hR.rs_lt x hx
      rw [hsz]; split <;> omega

theorem flat_index_inj {ms sl p sl1 p1 : Nat} (hp : p < ms) (hp1 : p1 < ms)
    (h : sl * ms + p = sl1 * ms + p1) : sl = sl1 ∧ p = p1 := by
  have h1 : (sl * ms + p) / ms = sl := by
    rw [Nat.add_comm, Nat.add_mul_div_right _ _ (by omega), Nat.div_eq_of_lt hp, Nat.zero_add]
  have h2 : (sl1 * ms + p1) / ms = sl1 := by
    rw [Nat.add_comm, Nat.add_mul_div_right _ _ (by omega), Nat.div_eq_of_lt hp1, Nat.zero_add]
  have h3 : sl = sl1 := by rw [← h1, ← h2, h]
  subst h3
  exact ⟨rfl, by omega⟩

theorem element_eval_point_set {m m1 : ElementCacheMap} {tab : List Int} {ep : EvalPoints}
    {slot pt : Nat} {v : Int} (htab : m.element_eval_points_map_ = some tab)
    (hep : m.eval_points_ = some ep) (hp : pt < ep.max_size)
    (hidx : slot * ep.max_size + pt < tab.length)
    (h1 : m1.element_eval_points_map_ = some (tab.set (slot * ep.max_size + pt) v))
    (h2 : m1.eval_points_ = m.eval_points_) (sl p : Nat) :
    element_eval_point m1 sl p =
      if sl = slot ∧ p = pt then some v else element_eval_point m sl p := by
  unfold element_eval_point
  rw [h1, h2, hep, htab]
  simp only
  by_cases hq : p < ep.max_size
  · simp only [if_pos hq]
    by_cases hc : sl = slot ∧ p = pt
    · rw [if_pos hc, hc.1, hc.2, List.getElem?_set_self hidx]
    · rw [if_neg hc, List.getElem?_set_ne]
      intro he
      exact hc ((flat_index_inj hp hq he).imp Eq.symm Eq.symm)
  · simp only [if_neg hq]
    have : ¬ (sl = slot ∧ p = pt) := by
      rintro ⟨-, h⟩; rw [h] at hq; exact hq hp
    rw [if_neg this]

theorem table_inv_step {n : Nat} {m0 : ElementCacheMap} {L pre rest : List EvalPointData}
    {it : EvalPointData} {s s1 : ScanState} (hs : L.Sorted EvalPointData.le)
    (hL : pre ++ it :: rest = L) (hI : SlotInv n pre s) (hT : TableInv m0 pre s)
    (h : scan_step s it = .ok s1) : TableInv m0 (pre ++ [it]) s1 := by
  have hok := scan_step_ok h
  have hst := step_find_stable hs hL hI h
  obtain ⟨slot, tab, ep, hslot, htab, hep, hp, hidx, htab1⟩ := hok.table
  have hset := element_eval_point_set htab hep hp hidx htab1 hok.eval_points
  constructor
  · rw [hok.eval_points]; exact hT.eval_points
  · intro sl p
    by_cases hc : sl = slot ∧ p = it.i_eval_point_
    · right
      refine ⟨pre.length, it, by simp, ?_, hc.2.symm, ?_⟩
      · rw [hc.1]; exact hslot
      · rw [hset, if_pos hc, hI.points]
    · rcases hT.entry sl p with ⟨h1, h2⟩ | ⟨i, r, hi, hf, hpt, hv⟩
      · left
        refine ⟨by rw [hset, if_neg hc]; exact h1, ?_⟩
        rintro ⟨r, hr, hf, hpt⟩
        rcases List.mem_append.mp hr with hr | hr
        · exact h2 ⟨r, hr, by rw [← hst r hr]; exact hf, hpt⟩
        · simp at hr
          subst hr
          rw [hslot] at hf
          injection hf with hf
          exact hc ⟨hf.symm, hpt.symm⟩
      · right
        have hr : r ∈ pre := List.getElem?_mem hi
        refine ⟨i, r, ?_, by rw [hst r hr]; exact hf, hpt, by rw [hset, if_neg hc]; exact hv⟩
        rw [List.getElem?_append_left (by
          exact (List.getElem?_eq_some_iff.mp hi).1)]
        exact hi

theorem slot_inv_base (m : ElementCacheMap) : SlotInv m.elm_idx_.length [] (scan_init m) := by
  constructor <;>
    simp [scan_init, erase_previous, RevertableList.reset, RevertableList.pushed, UIntMap.size,
      UIntMap.find]
  intro sl h
  rw [List.getElem?_replicate, if_pos h]

theorem reg_inv_base (m : ElementCacheMap) : RegInv [] (scan_init m) := by
  constructor <;>
    simp [scan_init, erase_previous, RevertableList.reset, RevertableList.pushed]

theorem table_inv_base (m : ElementCacheMap) : TableInv (erase_previous m) [] (scan_init m) := by
  constructor
  · rfl
  · intro sl p
    left
    exact ⟨rfl, by simp⟩

theorem scan_end {m : ElementCacheMap} {sf : ScanState}
    (h : scan_loop (scan_init m) (std_sort m.eval_point_data_) = .ok sf) : ScanEnd m sf := by
  have hs := std_sort_sorted m.eval_point_data_
  have := scan_loop_induction
    (fun pre s => SlotInv m.elm_idx_.length pre s ∧ RegInv pre s ∧
      TableInv (erase_previous m) pre s)
    (std_sort m.eval_point_data_)
    (fun pre it rest s s1 hL hP hstep =>
      ⟨slot_inv_step hs hL hP.1 hstep, reg_inv_step hs hL hP.1 hP.2.1 hstep,
        table_inv_step hs hL hP.1 hP.2.2 hstep⟩)
    (std_sort m.eval_point_data_) [] (scan_init m) sf rfl
    ⟨slot_inv_base m, reg_inv_base m, table_inv_base m⟩ h
  exact ⟨h, this.1, this.2.1, this.2.2⟩

theorem prepare_ok {m m1 : ElementCacheMap} (h : prepare_elements_to_update m = .ok m1) :
    ∃ sf, ScanEnd m sf ∧ m1 = close_tables sf := by
  unfold prepare_elements_to_update at h
  split at h
  · cases h
  · rename_i sf hsf
    injection h with h
    exact ⟨sf, scan_end hsf, h.symm⟩

theorem std_sort_mem (l : List EvalPointData) (r : EvalPointData) :
    r ∈ std_sort l ↔ r ∈ l := (std_sort_perm l).mem_iff

theorem std_sort_length (l : List EvalPointData) : (std_sort l).length = l.length :=
  (std_sort_perm l).length_eq

theorem std_sort_count (l : List EvalPointData) :
    ((std_sort l).map EvalPointData.i_element_).toFinset.card =
      (l.map EvalPointData.i_element_).dedup.length := by
  rw [List.card_toFinset]
  exact (((std_sort_perm l).map _).dedup).length_eq

theorem close_tables_rs {n : Nat} {pre : List EvalPointData} {sf : ScanState}
    (hI : SlotInv n pre sf) (hR : RegInv pre sf) :
    (close_tables sf).regions_starts_.items =
      sf.map.regions_starts_.pushed ++ [UIntMap.size sf.map.element_to_map_] := by
  simp only [close_tables, RevertableList.items_make_permanent, RevertableList.temporary_size]
  rw [(RevertableList.pushed_push_back _ _ hR.rs_wf).1, hI.es_size]

theorem close_tables_es {n : Nat} {pre : List EvalPointData} {sf : ScanState}
    (hI : SlotInv n pre sf) :
    (close_tables sf).element_starts_.items = sf.map.element_starts_.pushed ++ [pre.length] := by
  simp only [close_tables, RevertableList.items_make_permanent]
  rw [(RevertableList.pushed_push_back _ _ hI.es_wf).1, hI.i_pos]

theorem sorted_lt_le {l : List Nat} (h : l.Sorted (· < ·)) : l.Sorted (· ≤ ·) :=
  List.Pairwise.imp (fun hab => Nat.le_of_lt hab) h

theorem adj_inv_base (m : ElementCacheMap) : AdjInv [] (scan_init m) := by
  constructor <;>
    simp [scan_init, erase_previous, RevertableList.reset, RevertableList.pushed]

theorem getLast?_of_getElem? {α : Type} {l : List α} {i : Nat} {a : α}
    (h : l[i]? = some a) (hi : i + 1 = l.length) : l.getLast? = some a := by
  rw [List.getLast?_eq_getElem?]
  have : l.length - 1 = i := by omega
  rw [this, h]

theorem exists_getLast? {α : Type} {l : List α} (h : l ≠ []) : ∃ a, l.getLast? = some a := by
  cases hg : l.getLast? with
  | none => exact absurd (List.getLast?_eq_none_iff.mp hg) h
  | some a => exact ⟨a, rfl⟩

theorem adj_inv_step {n : Nat} {L pre rest : List EvalPointData} {it : EvalPointData}
    {s s1 : ScanState} (hs : L.Sorted EvalPointData.le) (hL : pre ++ it :: rest = L)
    (hF : ∀ a ∈ L, ∀ b ∈ L, a.i_element_ = b.i_element_ → a.i_reg_ = b.i_reg_)
    (hI : SlotInv n pre s) (hR : RegInv pre s) (hA : AdjInv pre s)
    (h : scan_step s it = .ok s1) : AdjInv (pre ++ [it]) s1 := by
  have hok := scan_step_ok h
  have hsz := step_size hs hL hI h
  have hst := step_find_stable hs hL hI h
  have hI1 : SlotInv n (pre ++ [it]) s1 := slot_inv_step hs hL hI h
  have hitL : it ∈ L := by rw [← hL]; simp
  have hpreL : ∀ r ∈ pre, r ∈ L := by intro r hr; rw [← hL]; simp [hr]
  -- the table access of the step shows that the element of the record has a slot
  obtain ⟨slot, -, -, hslot, -⟩ := hok.table
  -- when the element is not new, the processed records are not empty
  have hold : it.i_element_ = s.last_element_idx → ∃ l, pre.getLast? = some l ∧
      l.i_element_ = it.i_element_ ∧ l.i_reg_ = it.i_reg_ := by
    intro he
    have he2m : s1.map.element_to_map_ = s.map.element_to_map_ := by
      rw [hok.e2m, if_neg (not_not.mpr he)]
    rw [he2m] at hslot
    obtain ⟨r0, hr0, -⟩ := (hI.keys it.i_element_).mp ⟨slot, hslot⟩
    obtain ⟨l, hl⟩ := exists_getLast? (List.ne_nil_of_mem hr0)
    have hle : l.i_element_ = it.i_element_ := by rw [he, hI.last l hl]
    exact ⟨l, hl, hle, hF l (hpreL l (getLast?_mem hl)) it hitL hle⟩
  have hpush_rs := RevertableList.pushed_push_back s.map.regions_starts_
      s.map.element_starts_.temporary_size_ hR.rs_wf
  have hpush_es := RevertableList.pushed_push_back s.map.element_starts_ s.i_pos hI.es_wf
  have hrs_sub : ∀ x ∈ s.map.regions_starts_.pushed, x ∈ s1.map.regions_starts_.pushed := by
    intro x hx
    rw [hok.rs]
    split
    · rw [hpush_rs.1]; exact List.mem_append_left _ hx
    · exact hx
  have hrs_new : ∀ x ∈ s1.map.regions_starts_.pushed, x ∈ s.map.regions_starts_.pushed ∨
      x = UIntMap.size s.map.element_to_map_ := by
    intro x hx
    rw [hok.rs] at hx
    split at hx
    · rw [hpush_rs.1] at hx
      rcases List.mem_append.mp hx with hx | hx
      · exact Or.inl hx
      · simp at hx; right; rw [hx, hI.es_size]
    · exact Or.inl hx
  have hes_sub : ∀ (j v : Nat), s.map.element_starts_.pushed[j]? = some v →
      s1.map.element_starts_.pushed[j]? = some v := by
    intro j v hj
    rw [hok.es]
    split
    · rw [hpush_es.1, List.getElem?_append_left (List.getElem?_eq_some_iff.mp hj).1]; exact hj
    · exact hj
  constructor
  · intro hnil; simp at hnil
  · intro r hr
    simp at hr
    subst hr
    rw [hok.last_reg]
    by_cases hc : it.i_element_ ≠ s.last_element_idx ∧ it.i_reg_ ≠ s.last_region_idx
    · rw [if_pos hc]
    · rw [if_neg hc]
      by_cases hn : it.i_element_ = s.last_element_idx
      · obtain ⟨l, hl, -, hlr⟩ := hold hn
        rw [hA.last_reg l hl, hlr]
      · have : ¬ it.i_reg_ ≠ s.last_region_idx := fun h2 => hc ⟨hn, h2⟩
        exact (not_not.mp this).symm
  · intro r hr
    simp at hr
    subst hr
    by_cases hn : it.i_element_ = s.last_element_idx
    · obtain ⟨l, hl, hle, -⟩ := hold hn
      have := hA.last_slot l hl
      rw [hsz, if_neg (not_not.mpr hn), hok.e2m, if_neg (not_not.mpr hn), ← hle]
      exact this
    · rw [hsz, if_pos hn, hok.e2m, if_pos hn, UIntMap.find_assign, if_pos rfl, hI.es_size]
      exact ⟨by simp, by omega⟩
  · intro h0 _
    by_cases hnil : pre = []
    · subst hnil
      obtain ⟨hlr, hrs, hes⟩ := hA.start rfl
      have hreg : it.i_reg_ ≠ s.last_region_idx := by
        rw [hlr]; exact h0 it (by simp)
      have hn : it.i_element_ ≠ s.last_element_idx := by
        intro he
        obtain ⟨l, hl, -⟩ := hold he
        simp at hl
      rw [hok.rs, if_pos ⟨hn, hreg⟩, hpush_rs.1, hrs, hes]
      simp
    · have h0pre : ∀ r, pre[0]? = some r → r.i_reg_ ≠ UINT_MAX := by
        intro r hr
        apply h0 r
        rw [List.getElem?_append_left (List.getElem?_eq_some_iff.mp hr).1]; exact hr
      have := hA.head h0pre hnil
      have hsome : ∃ v, s.map.regions_starts_.pushed[0]? = some v := ⟨0, this⟩
      rw [hok.rs]
      split
      · rw [hpush_rs.1, List.getElem?_append_left (List.getElem?_eq_some_iff.mp this).1]
        exact this
      · exact this
  · intro i r1 r2 sl1 sl2 h1 h2 hf1 hf2
    have hi2 : i + 1 < (pre ++ [it]).length := (List.getElem?_eq_some_iff.mp h2).1
    simp only [List.length_append, List.length_singleton] at hi2
    by_cases hlast : i + 1 = pre.length
    · -- the pair made of the last processed record and the record of this step
      have h1p : pre[i]? = some r1 := by
        rw [List.getElem?_append_left (by omega)] at h1; exact h1
      have h2p : r2 = it := by
        rw [hlast, List.getElem?_append_right (Nat.le_refl _)] at h2
        simp at h2; exact h2.symm
      subst h2p
      have hl := getLast?_of_getElem? h1p hlast
      have hr1pre : r1 ∈ pre := List.getElem?_mem h1p
      have hsl1 := hA.last_slot r1 hl
      rw [hst r1 hr1pre, hsl1.1] at hf1
      injection hf1 with hf1
      have hsl2 := hI1.slot_iff r2.i_element_ sl2
      have hlast2 : (pre ++ [r2]).getLast? = some r2 := by simp
      have hregl := hA.last_reg r1 hl
      have helml := hI.last r1 hl
      by_cases hn : r2.i_element_ = s.last_element_idx
      · -- same element: same slot
        obtain ⟨l, hl2, hle, hlr⟩ := hold hn
        rw [hl] at hl2
        injection hl2 with hl2
        subst hl2
        have he2m : s1.map.element_to_map_ = s.map.element_to_map_ := by
          rw [hok.e2m, if_neg (not_not.mpr hn)]
        rw [he2m, ← hle, hsl1.1] at hf2
        injection hf2 with hf2
        refine ⟨fun hne => absurd hlr hne, fun _ => ⟨by omega, ?_⟩⟩
        intro x _ hx
        omega
      · have hf2b : sl2 = UIntMap.size s.map.element_to_map_ := by
          rw [hok.e2m, if_pos hn, UIntMap.find_assign, if_pos rfl, hI.es_size] at hf2
          injection hf2 with hf2
          exact hf2.symm
        constructor
        · intro hne
          have hreg : r2.i_reg_ ≠ s.last_region_idx := by
            rw [hregl]; exact fun h3 => hne h3.symm
          refine ⟨by omega, ?_, ?_⟩
          · rw [hok.rs, if_pos ⟨hn, hreg⟩, hpush_rs.1, hf2b, hI.es_size]
            simp
          · rw [hok.es, if_pos hn, hpush_es.1, hf2b, ← hI.es_size,
              ← RevertableList.length_pushed _ hI.es_wf,
              List.getElem?_append_right (Nat.le_refl _), hI.i_pos, hlast]
            simp
        · intro heq
          have hreg : ¬ (r2.i_element_ ≠ s.last_element_idx ∧ r2.i_reg_ ≠ s.last_region_idx) := by
            rintro ⟨-, h3⟩
            exact h3 (by rw [hregl, heq])
          refine ⟨by omega, ?_⟩
          intro x hx hx2
          rw [hok.rs, if_neg hreg] at hx
          have := hR.rs_lt x hx
          omega
    · -- a pair of records processed before
      have h1p : pre[i]? = some r1 := by
        rw [List.getElem?_append_left (by omega)] at h1; exact h1
      have h2p : pre[i + 1]? = some r2 := by
        rw [List.getElem?_append_left (by omega)] at h2; exact h2
      have hr1pre : r1 ∈ pre := List.getElem?_mem h1p
      have hr2pre : r2 ∈ pre := List.getElem?_mem h2p
      rw [hst r1 hr1pre] at hf1
      rw [hst r2 hr2pre] at hf2
      have := hA.adj i r1 r2 sl1 sl2 h1p h2p hf1 hf2
      constructor
      · intro hne
        obtain ⟨a, b, c⟩ := this.1 hne
        exact ⟨a, hrs_sub _ b, hes_sub _ _ c⟩
      · intro heq
        obtain ⟨a, b⟩ := this.2 heq
        refine ⟨a, ?_⟩
        intro x hx hx2
        rcases hrs_new x hx with hx | hx
        · exact b x hx hx2
        · have := ((hI.slot_iff _ _).mp hf2).1
          omega

theorem scan_loop_flags {L : List EvalPointData} {s sf : ScanState}
    (h : scan_loop s L = .ok sf) :
    sf.map.eval_point_data_ = s.map.eval_point_data_ ∧
      sf.map.ready_to_reading_ = s.map.ready_to_reading_ := by
  refine scan_loop_induction
    (fun _ t => t.map.eval_point_data_ = s.map.eval_point_data_ ∧
      t.map.ready_to_reading_ = s.map.ready_to_reading_) L ?_ L [] s sf rfl ⟨rfl, rfl⟩ h
  intro pre it rest t t1 _ hP hstep
  have hok := scan_step_ok hstep
  exact ⟨hok.data.trans hP.1, hok.ready.trans hP.2⟩

theorem prepare_data {m m1 : ElementCacheMap} (h : prepare_elements_to_update m = .ok m1) :
    m1.eval_point_data_ = std_sort m.eval_point_data_ ∧
      m1.ready_to_reading_ = m.ready_to_reading_ := by
  obtain ⟨sf, hE, rfl⟩ := prepare_ok h
  exact scan_loop_flags hE.loop

theorem adj_end {m : ElementCacheMap} {sf : ScanState}
    (hF : ∀ a ∈ m.eval_point_data_, ∀ b ∈ m.eval_point_data_,
      a.i_element_ = b.i_element_ → a.i_reg_ = b.i_reg_)
    (h : scan_loop (scan_init m) (std_sort m.eval_point_data_) = .ok sf) :
    AdjInv (std_sort m.eval_point_data_) sf := by
  have hs := std_sort_sorted m.eval_point_data_
  have hF1 : ∀ a ∈ std_sort m.eval_point_data_, ∀ b ∈ std_sort m.eval_point_data_,
      a.i_element_ = b.i_element_ → a.i_reg_ = b.i_reg_ := by
    intro a ha b hb
    exact hF a ((std_sort_mem _ _).mp ha) b ((std_sort_mem _ _).mp hb)
  have := scan_loop_induction
    (fun pre s => SlotInv m.elm_idx_.length pre s ∧ RegInv pre s ∧ AdjInv pre s)
    (std_sort m.eval_point_data_)
    (fun pre it rest s s1 hL hP hstep =>
      ⟨slot_inv_step hs hL hP.1 hstep, reg_inv_step hs hL hP.1 hP.2.1 hstep,
        adj_inv_step hs hL hF1 hP.1 hP.2.1 hP.2.2 hstep⟩)
    (std_sort m.eval_point_data_) [] (scan_init m) sf rfl
    ⟨slot_inv_base m, reg_inv_base m, adj_inv_base m⟩ h
  exact this.2.2

theorem scan_step_defined (s : ScanState) (it : EvalPointData) {tab : List Int}
    {ep : EvalPoints} {slot : Nat}
    (hroom : it.i_element_ ≠ s.last_element_idx →
      UIntMap.size s.map.element_to_map_ < s.map.elm_idx_.length)
    (hslot : UIntMap.find (if it.i_element_ ≠ s.last_element_idx then
        UIntMap.assign s.map.element_to_map_ it.i_element_ s.map.element_starts_.temporary_size_
      else s.map.element_to_map_) it.i_element_ = some slot)
    (htab : s.map.element_eval_points_map_ = some tab) (hep : s.map.eval_points_ = some ep)
    (hp : it.i_eval_point_ < ep.max_size)
    (hidx : slot * ep.max_size + it.i_eval_point_ < tab.length) :
    ∃ s1, scan_step s it = .ok s1 := by
  unfold scan_step
  by_cases hn : it.i_element_ ≠ s.last_element_idx
  · rw [if_pos hn] at hslot
    have hroom1 := hroom hn
    by_cases hr : it.i_reg_ ≠ s.last_region_idx
    · simp [hn, new_element, hr, assign_slot, new_region, hroom1, mark_point,
        RevertableList.temporary_size, hslot, set_element_eval_point, htab, hep, hp, hidx]
    · simp [hn, new_element, hr, assign_slot, hroom1, mark_point,
        RevertableList.temporary_size, hslot, set_element_eval_point, htab, hep, hp, hidx]
  · rw [if_neg hn] at hslot
    simp [hn, mark_point, hslot, set_element_eval_point, htab, hep, hp, hidx]

theorem sim_base (a b : ElementCacheMap) (hd : a.eval_point_data_ = b.eval_point_data_)
    (hn : a.elm_idx_.length = b.elm_idx_.length) (he : a.eval_points_ = b.eval_points_)
    (ht : a.element_eval_points_map_.map List.length =
      b.element_eval_points_map_.map List.length) :
    Sim a b (scan_init a) (scan_init b) := by
  constructor
  case agree => intro sl p h; exact h
  all_goals
    simp [scan_init, erase_previous, RevertableList.reset, RevertableList.pushed, hd, hn, he, ht]

theorem sim_step {a b : ElementCacheMap} {s t s1 : ScanState} {it : EvalPointData}
    (hS : Sim a b s t) (h : scan_step s it = .ok s1) :
    ∃ t1, scan_step t it = .ok t1 ∧ Sim a b s1 t1 := by
  have hok := scan_step_ok h
  obtain ⟨slot, tab, ep, hslot, htab, hep, hp, hidx, htab1⟩ := hok.table
  obtain ⟨tab2, htab2, hlen2⟩ : ∃ tab2, t.map.element_eval_points_map_ = some tab2 ∧
      tab2.length = tab.length := by
    have := hS.tab_len
    rw [htab] at this
    cases ht : t.map.element_eval_points_map_ with
    | none => rw [ht] at this; simp at this
    | some tab2 => rw [ht] at this; simp at this; exact ⟨tab2, rfl, this.symm⟩
  have hslot2 : UIntMap.find (if it.i_element_ ≠ t.last_element_idx then
        UIntMap.assign t.map.element_to_map_ it.i_element_ t.map.element_starts_.temporary_size_
      else t.map.element_to_map_) it.i_element_ = some slot := by
    rw [← hS.last_element, ← hS.e2m, ← hS.es_size, ← hok.e2m]; exact hslot
  obtain ⟨t1, ht1⟩ := scan_step_defined t it
    (by rw [← hS.last_element, ← hS.e2m, ← hS.elm_idx]; exact hok.room)
    hslot2 htab2 (hS.eval_points ▸ hep) hp (by rw [hlen2]; exact hidx)
  have hok2 := scan_step_ok ht1
  obtain ⟨slot2, tab3, ep3, hslot3, htab3, hep3, hp3, hidx3, htab4⟩ := hok2.table
  have he2m : s1.map.element_to_map_ = t1.map.element_to_map_ := by
    rw [hok.e2m, hok2.e2m, hS.last_element, hS.e2m, hS.es_size]
  have hsl : slot2 = slot := by
    rw [← he2m, hslot] at hslot3
    injection hslot3 with h3
    exact h3.symm
  subst hsl
  have hset1 := element_eval_point_set htab hep hp hidx htab1 hok.eval_points
  have hset2 := element_eval_point_set htab3 hep3 hp3 hidx3 htab4 hok2.eval_points
  have hpes1 := RevertableList.pushed_push_back s.map.element_starts_ s.i_pos hS.es_wf.1
  have hpes2 := RevertableList.pushed_push_back t.map.element_starts_ t.i_pos hS.es_wf.2
  have hprs1 := RevertableList.pushed_push_back s.map.regions_starts_
    s.map.element_starts_.temporary_size_ hS.rs_wf.1
  have hprs2 := RevertableList.pushed_push_back t.map.regions_starts_
    t.map.element_starts_.temporary_size_ hS.rs_wf.2
  refine ⟨t1, ht1, ?_⟩
  constructor
  · rw [hok.last_reg, hok2.last_reg, hS.last_element, hS.last_region]
  · rw [hok.last_elem, hok2.last_elem]
  · rw [hok.i_pos, hok2.i_pos, hS.i_pos]
  · rw [hok.points, hok2.points, hS.points]
  · rw [hok.elm_idx, hok2.elm_idx, hS.last_element, hS.elm_idx, hS.e2m]
  · exact he2m
  · rw [hok.r2m, hok2.r2m, hS.last_element, hS.last_region, hS.r2m, hS.rs_size]
  · rw [hok.data, hok2.data, hS.data]
  · rw [hok.es, hok2.es, ← hS.last_element]
    split
    · simp [RevertableList.push_back, hS.es_size]
    · exact hS.es_size
  · rw [hok.es, hok2.es, ← hS.last_element]
    split
    · exact ⟨hpes1.2, hpes2.2⟩
    · exact hS.es_wf
  · rw [hok.es, hok2.es, ← hS.last_element]
    split
    · rw [hpes1.1, hpes2.1, hS.es_pushed, hS.i_pos]
    · exact hS.es_pushed
  · rw [hok.rs, hok2.rs, ← hS.last_element, ← hS.last_region]
    split
    · simp [RevertableList.push_back, hS.rs_size]
    · exact hS.rs_size
  · rw [hok.rs, hok2.rs, ← hS.last_element, ← hS.last_region]
    split
    · exact ⟨hprs1.2, hprs2.2⟩
    · exact hS.rs_wf
  · rw [hok.rs, hok2.rs, ← hS.last_element, ← hS.last_region]
    split
    · rw [hprs1.1, hprs2.1, hS.rs_pushed, hS.es_size]
    · exact hS.rs_pushed
  · rw [hok.eval_points, hok2.eval_points, hS.eval_points]
  · rw [htab1, htab4]
    simp [hlen2, htab, htab3, htab2] 
    rw [htab2] at htab3
    injection htab3 with h5
    rw [← h5, hlen2]
  · intro sl p hab
    rw [hset1, hset2, hS.points]
    split
    · rfl
    · exact hS.agree sl p hab

theorem sim_loop {a b : ElementCacheMap} (L : List EvalPointData) :
    ∀ (s t sf : ScanState), Sim a b s t → scan_loop s L = .ok sf →
      ∃ tf, scan_loop t L = .ok tf ∧ Sim a b sf tf := by
  induction L with
  | nil =>
    intro s t sf hS h
    simp only [scan_loop] at h ⊢
    injection h with h
    subst h
    exact ⟨t, rfl, hS⟩
  | cons it rest ih =>
    intro s t sf hS h
    simp only [scan_loop] at h ⊢
    split at h
    · cases h
    · rename_i s1 hs1
      obtain ⟨t1, ht1, hS1⟩ := sim_step hS hs1
      rw [ht1]
      exact ih s1 t1 sf hS1 h

theorem foldlM_preserves {α β : Type} (P : β → Prop) (f : β → α → Except Fault β)
    (hf : ∀ b a b1, P b → f b a = .ok b1 → P b1) :
    ∀ (l : List α) (b b1 : β), P b → l.foldlM f b = .ok b1 → P b1 := by
  intro l
  induction l with
  | nil =>
    intro b b1 hb h
    simp only [List.foldlM, pure, Except.pure] at h
    injection h with h
    rw [← h]; exact hb
  | cons a l ih =>
    intro b b1 hb h
    simp only [List.foldlM, bind, Except.bind] at h
    split at h
    · cases h
    · rename_i b2 hb2
      exact ih b2 b1 (hf b a b2 hb hb2) h

theorem clear_ready {n : Nat} {u : Int} {m m1 : ElementCacheMap}
    (h : clear_element_eval_points_map n u m = .ok m1) :
    m1.ready_to_reading_ = m.ready_to_reading_ := by
  unfold clear_element_eval_points_map at h
  split at h
  · cases h
  · split at h
    · cases h
    · rename_i ep _
      refine foldlM_preserves (fun x => x.ready_to_reading_ = m.ready_to_reading_) _ ?_ _ m m1
        rfl h
      intro b a b1 hb hfold
      refine foldlM_preserves (fun x => x.ready_to_reading_ = m.ready_to_reading_) _ ?_ _ b b1
        hb hfold
      intro c p c1 hc hset
      obtain ⟨tab, ep1, -, -, -, -, rfl⟩ := set_element_eval_point_ok hset
      exact hc

theorem run_calls_ready (flag : Bool) (stop : Call)
    (hstop : ∀ c m m1, c ≠ stop → m.ready_to_reading_ = flag → c.run m = .ok m1 →
      m1.ready_to_reading_ = flag) :
    ∀ (cs : List Call) (m m1 : ElementCacheMap), stop ∉ cs → m.ready_to_reading_ = flag →
      run_calls cs m = .ok m1 → m1.ready_to_reading_ = flag := by
  intro cs
  induction cs with
  | nil =>
    intro m m1 _ hm h
    simp only [run_calls] at h
    injection h with h
    rw [← h]; exact hm
  | cons c cs ih =>
    intro m m1 hno hm h
    simp only [run_calls] at h
    split at h
    · cases h
    · rename_i m2 hm2
      have hc : c ≠ stop := fun hc => hno (by simp [hc])
      exact ih m2 m1 (fun hin => hno (List.mem_cons_of_mem _ hin)) (hstop c m m2 hc hm hm2) h

theorem call_keeps_ready (flag : Bool) (c : Call) (m m1 : ElementCacheMap)
    (hc : c ≠ Call.start_elements_update) (hc2 : c ≠ Call.finish_elements_update)
    (hm : m.ready_to_reading_ = flag) (h : c.run m = .ok m1) : m1.ready_to_reading_ = flag := by
  cases c with
  | start_elements_update => exact absurd rfl hc
  | finish_elements_update => exact absurd rfl hc2
  | prepare_elements_to_update =>
    simp only [Call.run] at h
    rw [(prepare_data h).2]; exact hm
  | clear_element_eval_points_map n u =>
    simp only [Call.run] at h
    rw [clear_ready h]; exact hm
  | add_records rs =>
    simp only [Call.run] at h
    injection h with h
    rw [← h]; exact hm

theorem flat_index_lt {n ms slot p len : Nat} (hs : slot < n) (hp : p < ms)
    (hlen : n * ms ≤ len) : slot * ms + p < len := by
  have h1 : slot * ms + p < (slot + 1) * ms := by rw [Nat.succ_mul]; omega
  have h2 : (slot + 1) * ms ≤ n * ms := Nat.mul_le_mul_right ms hs
  omega

theorem scan_loop_defined {n len : Nat} {ep : EvalPoints} {L : List EvalPointData}
    (hs : L.Sorted EvalPointData.le) (hlen : n * ep.max_size ≤ len)
    (hpts : ∀ r ∈ L, r.i_eval_point_ < ep.max_size)
    (hne : ∀ r ∈ L, r.i_element_ ≠ UINT_MAX)
    (hk : (L.map EvalPointData.i_element_).toFinset.card ≤ n) :
    ∀ (rest pre : List EvalPointData) (s : ScanState), pre ++ rest = L →
      DefInv n len ep pre s → ∃ sf, scan_loop s rest = .ok sf := by
  intro rest
  induction rest with
  | nil => intro pre s _ _; exact ⟨s, rfl⟩
  | cons it rest ih =>
    intro pre s hL hD
    have hI := hD.slot
    have hitL : it ∈ L := by rw [← hL]; simp
    obtain ⟨tab, htab, htablen⟩ := hD.table
    -- the slot of the element of the record, after a possible assignment
    have hslot : ∃ slot, UIntMap.find (if it.i_element_ ≠ s.last_element_idx then
          UIntMap.assign s.map.element_to_map_ it.i_element_
            s.map.element_starts_.temporary_size_
        else s.map.element_to_map_) it.i_element_ = some slot ∧
        (it.i_element_ ≠ s.last_element_idx →
          UIntMap.size s.map.element_to_map_ < n) ∧ slot < n := by
      by_cases hn : it.i_element_ ≠ s.last_element_idx
      · have hnone := step_not_key hs hL hI hn
        have hnotin : it.i_element_ ∉ (pre.map EvalPointData.i_element_).toFinset := by
          intro hmem
          simp only [List.mem_toFinset, List.mem_map] at hmem
          obtain ⟨r, hr, hre⟩ := hmem
          obtain ⟨sl, hsl⟩ := (hI.keys it.i_element_).mpr ⟨r, hr, hre⟩
          rw [hnone] at hsl; cases hsl
        have hsub : insert it.i_element_ (pre.map EvalPointData.i_element_).toFinset ⊆
            (L.map EvalPointData.i_element_).toFinset := by
          intro e he
          rw [← hL]
          simp only [Finset.mem_insert, List.mem_toFinset, List.mem_map] at he
          simp only [List.mem_toFinset, List.mem_map, List.mem_append, List.mem_cons]
          rcases he with he | ⟨r, hr, hre⟩
          · exact ⟨it, Or.inr (Or.inl rfl), he.symm⟩
          · exact ⟨r, Or.inl hr, hre⟩
        have hcard := Finset.card_le_card hsub
        rw [Finset.card_insert_of_not_mem hnotin, hI.count] at hcard
        have hroom : UIntMap.size s.map.element_to_map_ < n := by omega
        refine ⟨UIntMap.size s.map.element_to_map_, ?_, fun _ => hroom, hroom⟩
        rw [if_pos hn, UIntMap.find_assign, if_pos rfl, hI.es_size]
      · have he : it.i_element_ = s.last_element_idx := not_not.mp hn
        have hpre : pre ≠ [] := by
          intro hnil
          exact hne it hitL (he.trans (hD.start hnil))
        obtain ⟨l, hl⟩ := exists_getLast? hpre
        obtain ⟨sl, hsl⟩ := (hI.keys l.i_element_).mpr ⟨l, getLast?_mem hl, rfl⟩
        rw [← hI.last l hl, ← he] at hsl
        refine ⟨sl, by rw [if_neg hn]; exact hsl, fun h => absurd h hn, ?_⟩
        have := ((hI.slot_iff _ _).mp hsl).1
        have := hI.size_le
        omega
    obtain ⟨slot, hfind, hroom, hslotn⟩ := hslot
    have hp := hpts it hitL
    obtain ⟨s1, hs1⟩ := scan_step_defined s it (by rw [hI.len]; exact hroom) hfind htab
      hD.eval_points hp (by rw [htablen]; exact flat_index_lt hslotn hp hlen)
    have hok := scan_step_ok hs1
    have hD1 : DefInv n len ep (pre ++ [it]) s1 := by
      refine ⟨slot_inv_step hs hL hI hs1, by simp, by rw [hok.eval_points]; exact hD.eval_points, ?_⟩
      obtain ⟨slot2, tab2, ep2, -, htab2, -, -, -, htab3⟩ := hok.table
      rw [htab] at htab2
      injection htab2 with htab2
      subst htab2
      exact ⟨_, htab3, by rw [List.length_set]; exact htablen⟩
    obtain ⟨sf, hsf⟩ := ih (pre ++ [it]) s1 (by simpa using hL) hD1
    exact ⟨sf, by simp only [scan_loop, hs1]; exact hsf⟩

/-- The call completes when the table was allocated for all slots, every local point is
below `max_size()`, no element index is `UINT_MAX` and there are at most as many distinct
elements as slots. -/
theorem prepare_defined (m : ElementCacheMap) (tab : List Int) (ep : EvalPoints)
    (htab : m.element_eval_points_map_ = some tab) (hep : m.eval_points_ = some ep)
    (hlen : m.elm_idx_.length * ep.max_size ≤ tab.length)
    (hpts : ∀ r ∈ m.eval_point_data_, r.i_eval_point_ < ep.max_size)
    (hne : ∀ r ∈ m.eval_point_data_, r.i_element_ ≠ UINT_MAX)
    (hk : (m.eval_point_data_.map EvalPointData.i_element_).dedup.length ≤ m.elm_idx_.length) :
    ∃ m1, prepare_elements_to_update m = .ok m1 := by
  obtain ⟨sf, hsf⟩ := scan_loop_defined (std_sort_sorted m.eval_point_data_) hlen
    (fun r hr => hpts r ((std_sort_mem _ _).mp hr))
    (fun r hr => hne r ((std_sort_mem _ _).mp hr))
    (by rw [std_sort_count]; exact hk)
    (std_sort m.eval_point_data_) [] (scan_init m) rfl
    ⟨slot_inv_base m, fun _ => rfl, hep, tab, htab, rfl⟩
  exact ⟨close_tables sf, by unfold prepare_elements_to_update; rw [hsf]⟩

/-! ## The claims -/

/-- The sample cache maps are what the constructor and `init` produce. -/
theorem init_gives_fresh_map :
    init 4 (-1) (fun _ => 0) (ElementCacheMap.create 4 3 10) ⟨2⟩ = .ok (fresh_map 4 2 []) ∧
    init 3 (-1) (fun i => Int.ofNat i) (ElementCacheMap.create 3 3 10) ⟨2⟩ =
      .ok (fresh_map 3 2 []) :=
  ⟨rfl, rfl⟩

theorem fresh_map_unused (n ms : Nat) (records : List EvalPointData) (slot point : Nat)
    (v : Int) (h : element_eval_point (fresh_map n ms records) slot point = some v) :
    v = -1 := by
  unfold element_eval_point fresh_map at h
  simp only at h
  split at h
  · exact (List.mem_replicate.mp (List.getElem?_mem h)).2
  · cases h

/-- C1.  Whenever `prepare_elements_to_update` completes on a cache map with pending
records, the number `k` of distinct element indices among the records is at most the
number of slots (`n_cached_elements`, the length of `elm_idx_`), `element_to_map_` has
exactly `k` entries, it sends every registered element to a slot below `k` with
`elm_idx_[slot]` equal to that element, no two elements share a slot, only registered
elements have a slot, and `elm_idx_[s]` is `undef_elem_idx` for every slot `s >= k`. -/
theorem prepare_assigns_unique_slots (m m1 : ElementCacheMap)
    (h : prepare_elements_to_update m = .ok m1) :
    (m.eval_point_data_.map EvalPointData.i_element_).dedup.length ≤ m.elm_idx_.length ∧
    m1.elm_idx_.length = m.elm_idx_.length ∧
    UIntMap.size m1.element_to_map_ =
      (m.eval_point_data_.map EvalPointData.i_element_).dedup.length ∧
    (∀ r ∈ m.eval_point_data_, ∃ slot,
      UIntMap.find m1.element_to_map_ r.i_element_ = some slot ∧
      slot < (m.eval_point_data_.map EvalPointData.i_element_).dedup.length ∧
      m1.elm_idx_[slot]? = some r.i_element_) ∧
    (∀ e1 e2 slot, UIntMap.find m1.element_to_map_ e1 = some slot →
      UIntMap.find m1.element_to_map_ e2 = some slot → e1 = e2) ∧
    (∀ e slot, UIntMap.find m1.element_to_map_ e = some slot →
      ∃ r ∈ m.eval_point_data_, r.i_element_ = e) ∧
    (∀ slot, (m.eval_point_data_.map EvalPointData.i_element_).dedup.length ≤ slot →
      slot < m.elm_idx_.length → m1.elm_idx_[slot]? = some undef_elem_idx) := by
  obtain ⟨sf, hE, rfl⟩ := prepare_ok h
  have hI := hE.slot
  have hk := hI.count
  rw [std_sort_count] at hk
  simp only [close_tables]
  rw [hk]
  refine ⟨hI.size_le, hI.len, rfl, ?_, ?_, ?_, ?_⟩
  · intro r hr
    obtain ⟨sl, hsl⟩ := (hI.keys r.i_element_).mpr ⟨r, (std_sort_mem _ _).mpr hr, rfl⟩
    have := (hI.slot_iff _ _).mp hsl
    exact ⟨sl, hsl, this.1, this.2⟩
  · intro e1 e2 sl h1 h2
    have a := ((hI.slot_iff _ _).mp h1).2
    have b := ((hI.slot_iff _ _).mp h2).2
    rw [a] at b
    injection b
  · intro e sl he
    obtain ⟨r, hr, hre⟩ := (hI.keys e).mp ⟨sl, he⟩
    exact ⟨r, (std_sort_mem _ _).mp hr, hre⟩
  · intro sl h1 h2
    exact hI.free sl h1 h2

/-- Witness of C1 on the sample cache map: three distinct elements get the slots 0, 1, 2
of four, and the fourth slot stays undefined. -/
theorem prepare_assigns_unique_slots_witness :
    ∃ m1, prepare_elements_to_update sample_map = .ok m1 ∧
      UIntMap.size m1.element_to_map_ = 3 ∧
      (∀ r ∈ sample_map.eval_point_data_, ∃ slot,
        UIntMap.find m1.element_to_map_ r.i_element_ = some slot ∧ slot < 3 ∧
        m1.elm_idx_[slot]? = some r.i_element_) ∧
      (∀ slot, 3 ≤ slot → slot < 4 → m1.elm_idx_[slot]? = some undef_elem_idx) :=
  ⟨_, rfl, (prepare_assigns_unique_slots sample_map _ rfl).2.2.1,
    (prepare_assigns_unique_slots sample_map _ rfl).2.2.2.1,
    (prepare_assigns_unique_slots sample_map _ rfl).2.2.2.2.2.2⟩

/-- C2.  For every cell accessor and every cache map with `ready_to_reading_` true,
`cache_map_index` returns the unchanged cache map and the accessor whose element cache
index is `element_to_map_[elm_idx]` when the element is a key of `element_to_map_`
(registered in the current cycle) and `undef_elem_idx` otherwise; `undef_elem_idx` is
the maximal unsigned int `2^32 - 1`. -/
theorem cache_map_index_sets_slot (m : ElementCacheMap) (dh_cell : DHCellAccessor)
    (hready : m.ready_to_reading_ = true) :
    (∀ slot, UIntMap.find m.element_to_map_ dh_cell.elm_idx = some slot →
      cache_map_index m dh_cell = .ok (m, { dh_cell with element_cache_index := slot })) ∧
    (UIntMap.find m.element_to_map_ dh_cell.elm_idx = none →
      cache_map_index m dh_cell =
        .ok (m, { dh_cell with element_cache_index := undef_elem_idx })) ∧
    undef_elem_idx = 2 ^ 32 - 1 := by
  refine ⟨?_, ?_, by decide⟩
  · intro slot hs
    simp [cache_map_index, hready, hs]
  · intro hs
    simp [cache_map_index, hready, hs]

/-- Witness of C2 on the prepared sample cache map: the element 2 is found in slot 1,
the element 5 was not registered. -/
theorem cache_map_index_sets_slot_witness :
    sample_ready.ready_to_reading_ = true ∧
    cache_map_index sample_ready ⟨2, 0⟩ = .ok (sample_ready, ⟨2, 1⟩) ∧
    cache_map_index sample_ready ⟨5, 0⟩ = .ok (sample_ready, ⟨5, 4294967295⟩) :=
  ⟨rfl, (cache_map_index_sets_slot sample_ready ⟨2, 0⟩ rfl).1 1 rfl,
    (cache_map_index_sets_slot sample_ready ⟨5, 0⟩ rfl).2.1 rfl⟩

/-- C3.  Whenever `prepare_elements_to_update` completes, the entries of
`regions_starts_` and of `element_starts_` are non-decreasing, the last entry of
`regions_starts_` is the number of assigned slots, which is the number of distinct
elements of the pending records, and the last entry of `element_starts_` is the number
of pending records. -/
theorem prepare_offset_tables (m m1 : ElementCacheMap)
    (h : prepare_elements_to_update m = .ok m1) :
    m1.regions_starts_.items.Sorted (· ≤ ·) ∧ m1.element_starts_.items.Sorted (· ≤ ·) ∧
    m1.regions_starts_.items.getLast? = some (UIntMap.size m1.element_to_map_) ∧
    UIntMap.size m1.element_to_map_ =
      (m.eval_point_data_.map EvalPointData.i_element_).dedup.length ∧
    m1.element_starts_.items.getLast? = some m.eval_point_data_.length := by
  obtain ⟨sf, hE, rfl⟩ := prepare_ok h
  have hI := hE.slot
  have hR := hE.reg
  have hk := hI.count
  rw [std_sort_count] at hk
  rw [close_tables_rs hI hR, close_tables_es hI, std_sort_length]
  refine ⟨?_, ?_, by simp [close_tables], by simp only [close_tables]; exact hk.symm, by simp⟩
  · refine List.pairwise_append.mpr ⟨sorted_lt_le hR.rs_sorted, List.pairwise_singleton _ _, ?_⟩
    intro x hx y hy
    simp at hy
    have := hR.rs_lt x hx
    omega
  · refine List.pairwise_append.mpr ⟨sorted_lt_le hI.es_sorted, List.pairwise_singleton _ _, ?_⟩
    intro x hx y hy
    simp at hy
    have := hI.es_lt x hx
    rw [std_sort_length] at this
    omega

/-- Witness of C3 on the sample cache map: the offset tables are `[0, 2, 3]` and
`[0, 1, 2, 3]`. -/
theorem prepare_offset_tables_witness :
    ∃ m1, prepare_elements_to_update sample_map = .ok m1 ∧
      m1.regions_starts_.items = [0, 2, 3] ∧ m1.element_starts_.items = [0, 1, 2, 3] ∧
      m1.regions_starts_.items.Sorted (· ≤ ·) ∧ m1.element_starts_.items.Sorted (· ≤ ·) ∧
      m1.regions_starts_.items.getLast? = some (UIntMap.size m1.element_to_map_) ∧
      m1.element_starts_.items.getLast? = some 3 :=
  ⟨_, rfl, rfl, rfl, (prepare_offset_tables sample_map _ rfl).1,
    (prepare_offset_tables sample_map _ rfl).2.1, (prepare_offset_tables sample_map _ rfl).2.2.1,
    (prepare_offset_tables sample_map _ rfl).2.2.2.2⟩

/-- C4.  Whenever `prepare_elements_to_update` completes, for every pending record with
element `e` and local point `p` the table entry `[slot of e][p]` holds a row index that
is not negative (hence different from every negative sentinel `unused_point`) and
smaller than the number of pending records, and two pending records that differ in the
pair (element, point) get different row indices. -/
theorem prepare_marks_requested_points (m m1 : ElementCacheMap)
    (h : prepare_elements_to_update m = .ok m1) :
    (∀ r ∈ m.eval_point_data_, ∃ slot row,
      UIntMap.find m1.element_to_map_ r.i_element_ = some slot ∧
      element_eval_point m1 slot r.i_eval_point_ = some (Int.ofNat row) ∧
      row < m.eval_point_data_.length ∧
      ∀ unused_point : Int, unused_point < 0 → Int.ofNat row ≠ unused_point) ∧
    (∀ r1 ∈ m.eval_point_data_, ∀ r2 ∈ m.eval_point_data_, ∀ slot1 slot2,
      UIntMap.find m1.element_to_map_ r1.i_element_ = some slot1 →
      UIntMap.find m1.element_to_map_ r2.i_element_ = some slot2 →
      (r1.i_element_, r1.i_eval_point_) ≠ (r2.i_element_, r2.i_eval_point_) →
      element_eval_point m1 slot1 r1.i_eval_point_ ≠
        element_eval_point m1 slot2 r2.i_eval_point_) := by
  obtain ⟨sf, hE, rfl⟩ := prepare_ok h
  have hI := hE.slot
  have hT := hE.table
  have hrow : ∀ r ∈ m.eval_point_data_, ∀ slot,
      UIntMap.find sf.map.element_to_map_ r.i_element_ = some slot →
      ∃ i r0, (std_sort m.eval_point_data_)[i]? = some r0 ∧
        UIntMap.find sf.map.element_to_map_ r0.i_element_ = some slot ∧
        r0.i_eval_point_ = r.i_eval_point_ ∧
        element_eval_point sf.map slot r.i_eval_point_ = some (Int.ofNat i) := by
    intro r hr slot hslot
    rcases hT.entry slot r.i_eval_point_ with ⟨-, h2⟩ | h2
    · exact absurd ⟨r, (std_sort_mem _ _).mpr hr, hslot, rfl⟩ h2
    · exact h2
  have hacc : ∀ sl p, element_eval_point (close_tables sf) sl p =
      element_eval_point sf.map sl p := fun _ _ => rfl
  simp only [hacc]
  simp only [close_tables]
  constructor
  · intro r hr
    obtain ⟨sl, hsl⟩ := (hI.keys r.i_element_).mpr ⟨r, (std_sort_mem _ _).mpr hr, rfl⟩
    obtain ⟨i, r0, hi, -, -, hv⟩ := hrow r hr sl hsl
    refine ⟨sl, i, hsl, hv, ?_, ?_⟩
    · rw [← std_sort_length]; exact (List.getElem?_eq_some_iff.mp hi).1
    · intro u hu he
      have : (0 : Int) ≤ Int.ofNat i := Int.ofNat_nonneg i
      omega
  · intro r1 hr1 r2 hr2 sl1 sl2 h1 h2 hne heq
    obtain ⟨i1, a1, hi1, hf1, hp1, hv1⟩ := hrow r1 hr1 sl1 h1
    obtain ⟨i2, a2, hi2, hf2, hp2, hv2⟩ := hrow r2 hr2 sl2 h2
    rw [hv1, hv2] at heq
    have hi : i1 = i2 := by
      injection heq with heq
      exact Int.ofNat.inj heq
    subst hi
    rw [hi1] at hi2
    injection hi2 with hi2
    subst hi2
    rw [hf1] at hf2
    injection hf2 with hf2
    subst hf2
    have a := ((hI.slot_iff _ _).mp h1).2
    have b := ((hI.slot_iff _ _).mp h2).2
    rw [a] at b
    injection b with b
    apply hne
    rw [b, ← hp1, ← hp2]

/-- Witness of C4 on the sample cache map: each of the three records has a row index
below 3 in the table. -/
theorem prepare_marks_requested_points_witness :
    ∃ m1, prepare_elements_to_update sample_map = .ok m1 ∧
      element_eval_point m1 0 0 = some 0 ∧ element_eval_point m1 1 0 = some 1 ∧
      element_eval_point m1 2 1 = some 2 ∧
      (∀ r ∈ sample_map.eval_point_data_, ∃ slot row,
        UIntMap.find m1.element_to_map_ r.i_element_ = some slot ∧
        element_eval_point m1 slot r.i_eval_point_ = some (Int.ofNat row) ∧
        row < sample_map.eval_point_data_.length ∧
        ∀ unused_point : Int, unused_point < 0 → Int.ofNat row ≠ unused_point) :=
  ⟨_, rfl, rfl, rfl, rfl, (prepare_marks_requested_points sample_map _ rfl).1⟩

/-- C5.  If every entry of the table holds `unused_point` before the call, then, whenever
`prepare_elements_to_update` completes, every entry `[slot][point]` for which no pending
record has the element of that slot (`elm_idx_[slot]`) and that point still holds
`unused_point`. -/
theorem prepare_keeps_unrequested_unused (unused_point : Int) (m m1 : ElementCacheMap)
    (hclear : ∀ slot point v, element_eval_point m slot point = some v → v = unused_point)
    (h : prepare_elements_to_update m = .ok m1) :
    ∀ slot point v, element_eval_point m1 slot point = some v →
      (¬ ∃ r ∈ m.eval_point_data_, m1.elm_idx_[slot]? = some r.i_element_ ∧
        r.i_eval_point_ = point) →
      v = unused_point := by
  obtain ⟨sf, hE, rfl⟩ := prepare_ok h
  have hI := hE.slot
  have hT := hE.table
  intro sl p v hv hno
  have hacc : element_eval_point (close_tables sf) sl p = element_eval_point sf.map sl p := rfl
  rw [hacc] at hv
  rcases hT.entry sl p with ⟨h1, -⟩ | ⟨i, r, hi, hf, hp, -⟩
  · rw [h1] at hv
    exact hclear sl p v hv
  · exfalso
    apply hno
    exact ⟨r, (std_sort_mem _ _).mp (List.getElem?_mem hi), ((hI.slot_iff _ _).mp hf).2, hp⟩

/-- Witness of C5 on the sample cache map, whose table is all `-1` before the call. -/
theorem prepare_keeps_unrequested_unused_witness :
    ∃ m1, prepare_elements_to_update sample_map = .ok m1 ∧
      (∀ slot point v, element_eval_point sample_map slot point = some v → v = -1) ∧
      element_eval_point m1 0 1 = some (-1) ∧
      ∀ slot point v, element_eval_point m1 slot point = some v →
        (¬ ∃ r ∈ sample_map.eval_point_data_, m1.elm_idx_[slot]? = some r.i_element_ ∧
          r.i_eval_point_ = point) →
        v = -1 :=
  ⟨_, rfl, fresh_map_unused 4 2 sample_records, rfl,
    prepare_keeps_unrequested_unused (-1) sample_map _ (fresh_map_unused 4 2 sample_records) rfl⟩

/-- The role of the hypothesis of C6 that an element lies in one region.  The region test
of line 75 is nested in the element test of line 74: for the records
`(region 1, element 1)` and `(region 2, element 1)`, one element in two regions, which the
data model excludes, the call produces the single segment `[0, 1)` and the later record
starts no new segment. -/
theorem region_change_within_element_starts_no_segment :
    ∃ m1, prepare_elements_to_update (fresh_map 4 2 [⟨2, 1, 0⟩, ⟨1, 1, 0⟩]) = .ok m1 ∧
      m1.eval_point_data_[0]? = some ⟨1, 1, 0⟩ ∧ m1.eval_point_data_[1]? = some ⟨2, 1, 0⟩ ∧
      segments m1.regions_starts_ = [(0, 1)] ∧ ¬ new_segment_at m1 0 1 1 :=
  ⟨_, rfl, by decide⟩

/-- C6.  The region is a tag of the element, so all pending records of one element carry
the same region id.  Then, whenever `prepare_elements_to_update` completes, for any two
records that are adjacent in the sorted order and have different region ids the later
record starts a new segment of `regions_starts_`: its element has the slot following the slot of the earlier
record, that slot is the first slot of a segment, and the records of the element begin
at the position of the later record. -/
theorem new_region_starts_new_segment (m m1 : ElementCacheMap)
    (hF : ∀ a ∈ m.eval_point_data_, ∀ b ∈ m.eval_point_data_,
      a.i_element_ = b.i_element_ → a.i_reg_ = b.i_reg_)
    (h : prepare_elements_to_update m = .ok m1) :
    m1.eval_point_data_ = std_sort m.eval_point_data_ ∧
    ∀ i r1 r2, m1.eval_point_data_[i]? = some r1 → m1.eval_point_data_[i + 1]? = some r2 →
      r1.i_reg_ ≠ r2.i_reg_ → new_segment_at m1 i r1.i_element_ r2.i_element_ := by
  have hd := (prepare_data h).1
  refine ⟨hd, ?_⟩
  obtain ⟨sf, hE, rfl⟩ := prepare_ok h
  have hI := hE.slot
  have hA := adj_end hF hE.loop
  intro i r1 r2 h1 h2 hne
  rw [hd] at h1 h2
  obtain ⟨sl1, hsl1⟩ := (hI.keys r1.i_element_).mpr ⟨r1, List.getElem?_mem h1, rfl⟩
  obtain ⟨sl2, hsl2⟩ := (hI.keys r2.i_element_).mpr ⟨r2, List.getElem?_mem h2, rfl⟩
  obtain ⟨a, b, c⟩ := (hA.adj i r1 r2 sl1 sl2 h1 h2 hsl1 hsl2).1 hne
  refine ⟨sl1, hsl1, sl2, hsl2, by omega, ?_, ?_⟩
  · rw [close_tables_rs hI hE.reg, List.dropLast_concat]; exact b
  · rw [close_tables_es hI, List.getElem?_append_left (List.getElem?_eq_some_iff.mp c).1]
    exact c

/-- Witness of C6 on the sample cache map: the record of element 3
(region 3) follows the record of element 2 (region 1) and starts the segment `[2, 3)`. -/
theorem new_region_starts_new_segment_witness :
    ∃ m1, prepare_elements_to_update sample_map = .ok m1 ∧
      (∀ a ∈ sample_map.eval_point_data_, ∀ b ∈ sample_map.eval_point_data_,
        a.i_element_ = b.i_element_ → a.i_reg_ = b.i_reg_) ∧
      m1.eval_point_data_[1]? = some ⟨1, 2, 0⟩ ∧ m1.eval_point_data_[2]? = some ⟨3, 3, 1⟩ ∧
      segments m1.regions_starts_ = [(0, 2), (2, 3)] ∧ new_segment_at m1 1 2 3 :=
  ⟨_, rfl, by decide, rfl, rfl, rfl,
    (new_region_starts_new_segment sample_map _ (by decide) rfl).2 1 ⟨1, 2, 0⟩ ⟨3, 3, 1⟩
      rfl rfl (by decide)⟩

/-- The role of the hypothesis of C7 that an element lies in one region.  With the records
`(region 1, element 1)`, `(region 2, element 1)` and `(region 2, element 2)`, where the
element 1 lies in two regions, which the data model excludes, the last two are adjacent
in the sorted order and have the same region id, yet their slots 0 and 1 lie in the
different segments `[0, 1)` and `[1, 2)`. -/
theorem same_region_records_in_different_segments :
    ∃ m1, prepare_elements_to_update
        (fresh_map 4 2 [⟨2, 2, 0⟩, ⟨2, 1, 0⟩, ⟨1, 1, 0⟩]) = .ok m1 ∧
      m1.eval_point_data_[1]? = some ⟨2, 1, 0⟩ ∧ m1.eval_point_data_[2]? = some ⟨2, 2, 0⟩ ∧
      segments m1.regions_starts_ = [(0, 1), (1, 2)] ∧ ¬ same_segment m1 1 2 :=
  ⟨_, rfl, by decide⟩

/-- C9 as stated fails: a point marked by a previous cycle stays in the table.  After a
cycle on the record `(element 7, point 1)`, a second cycle on `(element 1, point 0)`
gives the element 1 the slot 0 and leaves the entry `[0][1]` at the row index 0 of the
previous cycle, while the same request on a cleared table leaves that entry at the
sentinel `-1`. -/
theorem stale_mark_survives_prepare :
    ∃ c1 c2 d, prepare_elements_to_update (fresh_map 3 2 [⟨1, 7, 1⟩]) = .ok c1 ∧
      prepare_elements_to_update
        { start_elements_update c1 with eval_point_data_ := [⟨1, 1, 0⟩] } = .ok c2 ∧
      prepare_elements_to_update (fresh_map 3 2 [⟨1, 1, 0⟩]) = .ok d ∧
      c2.element_to_map_ = d.element_to_map_ ∧
      element_eval_point c2 0 1 = some 0 ∧ element_eval_point d 0 1 = some (-1) :=
  ⟨_, _, _, rfl, rfl, rfl, by decide⟩

/-- C9, amended.  For two cache maps that hold the same pending records and have the
same number of slots, the same evaluation points and tables of the same size (and
otherwise differ arbitrarily in what a previous cycle left behind), if
`prepare_elements_to_update` completes on one it completes on the other, with the same
`element_to_map_`, `elm_idx_`, `regions_to_map_`, the same entries of both offset tables
and the same sorted records; the tables of row indices agree afterwards at every entry at
which they agreed before the call. -/
theorem prepare_cycle_isolation (a b a1 : ElementCacheMap)
    (hd : a.eval_point_data_ = b.eval_point_data_)
    (hn : a.elm_idx_.length = b.elm_idx_.length) (he : a.eval_points_ = b.eval_points_)
    (ht : a.element_eval_points_map_.map List.length =
      b.element_eval_points_map_.map List.length)
    (h : prepare_elements_to_update a = .ok a1) :
    ∃ b1, prepare_elements_to_update b = .ok b1 ∧
      a1.element_to_map_ = b1.element_to_map_ ∧ a1.elm_idx_ = b1.elm_idx_ ∧
      a1.regions_to_map_ = b1.regions_to_map_ ∧
      a1.regions_starts_.items = b1.regions_starts_.items ∧
      a1.element_starts_.items = b1.element_starts_.items ∧
      a1.eval_point_data_ = b1.eval_point_data_ ∧
      ∀ slot point, element_eval_point a slot point = element_eval_point b slot point →
        element_eval_point a1 slot point = element_eval_point b1 slot point := by
  obtain ⟨sf, hE, rfl⟩ := prepare_ok h
  obtain ⟨tf, htf, hS⟩ := sim_loop (std_sort a.eval_point_data_) _ _ sf
    (sim_base a b hd hn he ht) hE.loop
  refine ⟨close_tables tf, ?_, hS.e2m, hS.elm_idx, hS.r2m, ?_, ?_, hS.data, ?_⟩
  · unfold prepare_elements_to_update
    rw [← hd, htf]
  · simp only [close_tables, RevertableList.items_make_permanent, RevertableList.temporary_size]
    rw [(RevertableList.pushed_push_back _ _ hS.rs_wf.1).1,
      (RevertableList.pushed_push_back _ _ hS.rs_wf.2).1, hS.rs_pushed, hS.es_size]
  · simp only [close_tables, RevertableList.items_make_permanent]
    rw [(RevertableList.pushed_push_back _ _ hS.es_wf.1).1,
      (RevertableList.pushed_push_back _ _ hS.es_wf.2).1, hS.es_pushed, hS.i_pos]
  · intro sl p hab
    exact hS.agree sl p hab

/-- Witness of the amended C9: the cache map left by a previous cycle on the element 7
and the fresh cache map, both holding the sample requests. -/
theorem prepare_cycle_isolation_witness :
    stale_map.eval_point_data_ = sample_map.eval_point_data_ ∧
    stale_map.elm_idx_.length = sample_map.elm_idx_.length ∧
    stale_map.eval_points_ = sample_map.eval_points_ ∧
    stale_map.element_eval_points_map_.map List.length =
      sample_map.element_eval_points_map_.map List.length ∧
    stale_map.element_to_map_ ≠ sample_map.element_to_map_ ∧
    ∃ a1, prepare_elements_to_update stale_map = .ok a1 ∧
      ∃ b1, prepare_elements_to_update sample_map = .ok b1 ∧
        a1.element_to_map_ = b1.element_to_map_ ∧ a1.elm_idx_ = b1.elm_idx_ ∧
        a1.regions_to_map_ = b1.regions_to_map_ ∧
        a1.regions_starts_.items = b1.regions_starts_.items ∧
        a1.element_starts_.items = b1.element_starts_.items ∧
        a1.eval_point_data_ = b1.eval_point_data_ ∧
        ∀ slot point,
          element_eval_point stale_map slot point = element_eval_point sample_map slot point →
          element_eval_point a1 slot point = element_eval_point b1 slot point :=
  ⟨rfl, rfl, rfl, rfl, by decide, _, rfl,
    prepare_cycle_isolation stale_map sample_map _ rfl rfl rfl rfl rfl⟩

/-- C10.  `cache_map_index` fails its debug assertion if and only if `ready_to_reading_`
is false, and it fails in no other way; `start_elements_update` sets the flag to false
and `finish_elements_update` sets it to true; hence after `start_elements_update` and
any further calls other than `finish_elements_update` every lookup is rejected, and
after `finish_elements_update` and any further calls other than `start_elements_update`
every lookup is accepted and leaves the cache map unchanged. -/
theorem lookup_guarded_by_ready_flag :
    (∀ m dh_cell, cache_map_index m dh_cell = .error Fault.assertion_failed ↔
      m.ready_to_reading_ = false) ∧
    (∀ m dh_cell f, cache_map_index m dh_cell = .error f → f = Fault.assertion_failed) ∧
    (∀ m, (start_elements_update m).ready_to_reading_ = false) ∧
    (∀ m, (finish_elements_update m).ready_to_reading_ = true) ∧
    (∀ calls m m1 dh_cell, Call.finish_elements_update ∉ calls →
      run_calls (Call.start_elements_update :: calls) m = .ok m1 →
      cache_map_index m1 dh_cell = .error Fault.assertion_failed) ∧
    (∀ calls m m1 dh_cell, Call.start_elements_update ∉ calls →
      run_calls (Call.finish_elements_update :: calls) m = .ok m1 →
      ∃ cell1, cache_map_index m1 dh_cell = .ok (m1, cell1)) := by
  have hiff : ∀ m dh_cell, cache_map_index m dh_cell = .error Fault.assertion_failed ↔
      m.ready_to_reading_ = false := by
    intro m c
    unfold cache_map_index
    cases hr : m.ready_to_reading_ with
    | false => simp
    | true =>
      cases hf : UIntMap.find m.element_to_map_ c.elm_idx <;> simp
  refine ⟨hiff, ?_, fun _ => rfl, fun _ => rfl, ?_, ?_⟩
  · intro m c f h
    unfold cache_map_index at h
    cases hr : m.ready_to_reading_ with
    | false =>
      rw [hr] at h
      simp at h
      exact h.symm
    | true =>
      rw [hr] at h
      cases hf : UIntMap.find m.element_to_map_ c.elm_idx <;> rw [hf] at h <;> simp at h
  · intro calls m m1 c hno h
    apply (hiff m1 c).mpr
    simp only [run_calls, Call.run] at h
    refine run_calls_ready false Call.finish_elements_update ?_ calls _ m1 hno rfl h
    intro c0 x x1 hc0 hx hrun
    by_cases hs : c0 = Call.start_elements_update
    · subst hs
      simp only [Call.run] at hrun
      injection hrun with hrun
      rw [← hrun]; rfl
    · exact call_keeps_ready false c0 x x1 hs hc0 hx hrun
  · intro calls m m1 c hno h
    simp only [run_calls, Call.run] at h
    have hr : m1.ready_to_reading_ = true := by
      refine run_calls_ready true Call.start_elements_update ?_ calls _ m1 hno rfl h
      intro c0 x x1 hc0 hx hrun
      by_cases hs : c0 = Call.finish_elements_update
      · subst hs
        simp only [Call.run] at hrun
        injection hrun with hrun
        rw [← hrun]; rfl
      · exact call_keeps_ready true c0 x x1 hc0 hs hx hrun
    unfold cache_map_index
    rw [hr]
    cases hf : UIntMap.find m1.element_to_map_ c.elm_idx <;> simp

/-- Witness of C10: a lookup after `start_elements_update`, the registration of the
sample requests and `prepare_elements_to_update` is rejected; after the following
`finish_elements_update` it is accepted. -/
theorem lookup_guarded_by_ready_flag_witness :
    run_calls [Call.start_elements_update, Call.add_records sample_records,
        Call.prepare_elements_to_update] (fresh_map 4 2 []) = .ok sample_collecting ∧
      cache_map_index sample_collecting ⟨1, 0⟩ = .error Fault.assertion_failed ∧
      run_calls [Call.finish_elements_update] sample_collecting = .ok sample_ready ∧
      ∃ cell1, cache_map_index sample_ready ⟨1, 0⟩ = .ok (sample_ready, cell1) :=
  ⟨rfl,
    lookup_guarded_by_ready_flag.2.2.2.2.1
      [Call.add_records sample_records, Call.prepare_elements_to_update] (fresh_map 4 2 [])
      sample_collecting ⟨1, 0⟩ (by decide) rfl,
    rfl,
    lookup_guarded_by_ready_flag.2.2.2.2.2 [] sample_collecting sample_ready ⟨1, 0⟩
      (by decide) rfl⟩

/-! ## Lemmas on the reset of the table -/

theorem foldlM_range_total {β : Type} (f : β → Nat → Except Fault β) (P : Nat → β → Prop)
    (n : Nat) (b : β) (h0 : P 0 b)
    (hstep : ∀ i, i < n → ∀ c, P i c → ∃ c1, f c i = .ok c1 ∧ P (i + 1) c1) :
    ∃ b1, (List.range n).foldlM f b = .ok b1 ∧ P n b1 := by
  induction n with
  | zero => exact ⟨b, rfl, h0⟩
  | succ k ih =>
    obtain ⟨c, hc, hPc⟩ := ih (fun i hi c hP => hstep i (Nat.lt_succ_of_lt hi) c hP)
    obtain ⟨c1, hc1, hP1⟩ := hstep k (Nat.lt_succ_self k) c hPc
    refine ⟨c1, ?_, hP1⟩
    rw [List.range_succ, List.foldlM_append, hc]
    simp only [List.foldlM, bind, Except.bind, pure, Except.pure, hc1]

theorem foldlM_range_inv {β : Type} (f : β → Nat → Except Fault β) (P : Nat → β → Prop)
    (n : Nat) (b : β) (h0 : P 0 b)
    (hstep : ∀ i, i < n → ∀ c c1, P i c → f c i = .ok c1 → P (i + 1) c1) :
    ∀ b1, (List.range n).foldlM f b = .ok b1 → P n b1 := by
  induction n with
  | zero =>
    intro b1 h
    simp only [List.range_zero, List.foldlM, pure, Except.pure] at h
    injection h with h
    rw [← h]; exact h0
  | succ k ih =>
    intro b1 h
    rw [List.range_succ, List.foldlM_append] at h
    simp only [bind, Except.bind] at h
    split at h
    · cases h
    · rename_i c hc
      simp only [List.foldlM, bind, Except.bind, pure, Except.pure] at h
      split at h
      · cases h
      · rename_i c1 hc1
        injection h with h
        rw [← h]
        exact hstep k (Nat.lt_succ_self k) c c1
          (ih (fun i hi c c1 hP => hstep i (Nat.lt_succ_of_lt hi) c c1 hP) c hc) hc1

theorem clear_inv_point {u : Int} {m : ElementCacheMap} {tab : List Int} {ep : EvalPoints}
    {i j : Nat} {c c1 : ElementCacheMap} (hep : m.eval_points_ = some ep)
    (hI : ClearInv u m tab ep i j c) (h : set_element_eval_point c i j u = .ok c1) :
    ClearInv u m tab ep i (j + 1) c1 := by
  obtain ⟨tab1, ep1, htab1, hep1, hp, hidx, heq⟩ := set_element_eval_point_ok h
  have hcep : c.eval_points_ = some ep := by rw [hI.same]; exact hep
  rw [hcep] at hep1
  injection hep1 with hep1
  subst hep1
  have h1 : c1.element_eval_points_map_ = some (tab1.set (i * ep.max_size + j) u) := by
    rw [heq]
  have h2 : c1.eval_points_ = c.eval_points_ := by rw [heq]
  have hset := element_eval_point_set htab1 hcep hp hidx h1 h2
  obtain ⟨tab2, htab2, hlen2⟩ := hI.table
  rw [htab1] at htab2
  injection htab2 with htab2
  subst htab2
  constructor
  · rw [heq]
    simp only
    rw [hI.same]
  · exact ⟨_, h1, by rw [List.length_set]; exact hlen2⟩
  · intro sl p hsl hpp
    rw [hset]
    split
    · rfl
    · exact hI.rows sl p hsl hpp
  · intro p hpj hpp
    rw [hset]
    split
    · rfl
    · rename_i hne
      rcases Nat.lt_succ_iff_lt_or_eq.mp hpj with h3 | h3
      · exact hI.row p h3 hpp
      · exact absurd ⟨rfl, h3⟩ hne

theorem clear_inv_row {u : Int} {m : ElementCacheMap} {tab : List Int} {ep : EvalPoints}
    {i : Nat} {c : ElementCacheMap} (hI : ClearInv u m tab ep i ep.max_size c) :
    ClearInv u m tab ep (i + 1) 0 c := by
  refine ⟨hI.same, hI.table, ?_, fun p hp => absurd hp (Nat.not_lt_zero p)⟩
  intro sl p hsl hpp
  rcases Nat.lt_succ_iff_lt_or_eq.mp hsl with h1 | h1
  · exact hI.rows sl p h1 hpp
  · rw [h1]; exact hI.row p hpp hpp

theorem clear_inv_start {u : Int} {m : ElementCacheMap} {tab : List Int} {ep : EvalPoints}
    (htab : m.element_eval_points_map_ = some tab) : ClearInv u m tab ep 0 0 m :=
  ⟨rfl, ⟨tab, htab, rfl⟩, fun _ _ h => absurd h (Nat.not_lt_zero _),
    fun _ h => absurd h (Nat.not_lt_zero _)⟩

theorem clear_unfold {n : Nat} {u : Int} {m : ElementCacheMap} {tab : List Int}
    {ep : EvalPoints} (htab : m.element_eval_points_map_ = some tab)
    (hep : m.eval_points_ = some ep) :
    clear_element_eval_points_map n u m =
      (List.range n).foldlM
        (fun m1 i_elm => (List.range ep.max_size).foldlM
          (fun m2 i_point => set_element_eval_point m2 i_elm i_point u) m1) m := by
  unfold clear_element_eval_points_map
  rw [htab, hep]

theorem clear_post {n : Nat} {u : Int} {m m1 : ElementCacheMap} {tab : List Int}
    {ep : EvalPoints} (htab : m.element_eval_points_map_ = some tab)
    (hep : m.eval_points_ = some ep) (h : clear_element_eval_points_map n u m = .ok m1) :
    ClearInv u m tab ep n 0 m1 := by
  rw [clear_unfold htab hep] at h
  refine foldlM_range_inv _ (fun i c => ClearInv u m tab ep i 0 c) n m (clear_inv_start htab)
    ?_ m1 h
  intro i _ c c1 hI hrow
  apply clear_inv_row
  refine foldlM_range_inv _ (fun j d => ClearInv u m tab ep i j d) ep.max_size c hI ?_ c1 hrow
  intro j _ d d1 hJ hset
  exact clear_inv_point hep hJ hset

theorem clear_defined {n : Nat} {u : Int} {m : ElementCacheMap} {tab : List Int}
    {ep : EvalPoints} (htab : m.element_eval_points_map_ = some tab)
    (hep : m.eval_points_ = some ep) (hlen : n * ep.max_size ≤ tab.length) :
    ∃ m1, clear_element_eval_points_map n u m = .ok m1 := by
  rw [clear_unfold htab hep]
  obtain ⟨m1, h1, -⟩ := foldlM_range_total _ (fun i c => ClearInv u m tab ep i 0 c) n m
    (clear_inv_start htab) (by
      intro i hi c hI
      obtain ⟨c1, hc1, hI1⟩ := foldlM_range_total
        (fun m2 i_point => set_element_eval_point m2 i i_point u)
        (fun j d => ClearInv u m tab ep i j d) ep.max_size c hI (by
          intro j hj d hJ
          obtain ⟨tab1, htab1, hlen1⟩ := hJ.table
          have hdep : d.eval_points_ = some ep := by rw [hJ.same]; exact hep
          have hidx : i * ep.max_size + j < tab1.length := by
            rw [hlen1]; exact flat_index_lt hi hj hlen
          have hset : ∃ d1, set_element_eval_point d i j u = .ok d1 := by
            unfold set_element_eval_point
            rw [htab1, hdep]
            simp only [hj, hidx, and_self, if_true]
            exact ⟨_, rfl⟩
          obtain ⟨d1, hd1⟩ := hset
          exact ⟨d1, hd1, clear_inv_point hep hJ hd1⟩)
      exact ⟨c1, hc1, clear_inv_row hI1⟩)
  exact ⟨m1, h1⟩

theorem clear_entries {n : Nat} {u : Int} {m m1 : ElementCacheMap} {tab tab1 : List Int}
    {ep : EvalPoints} (hI : ClearInv u m tab ep n 0 m1) (hep : m.eval_points_ = some ep)
    (htab1 : m1.element_eval_points_map_ = some tab1) :
    tab1.length = tab.length ∧ ∀ idx, idx < n * ep.max_size → tab1[idx]? = some u := by
  obtain ⟨tab2, htab2, hlen2⟩ := hI.table
  rw [htab1] at htab2
  injection htab2 with htab2
  subst htab2
  refine ⟨hlen2, ?_⟩
  intro idx hidx
  have hms : 0 < ep.max_size := by
    rcases Nat.eq_zero_or_pos ep.max_size with h0 | h0
    · rw [h0] at hidx; simp at hidx
    · exact h0
  have hp : idx % ep.max_size < ep.max_size := Nat.mod_lt _ hms
  have hsl : idx / ep.max_size < n := by
    rw [Nat.div_lt_iff_lt_mul hms]; exact hidx
  have := hI.rows (idx / ep.max_size) (idx % ep.max_size) hsl hp
  unfold element_eval_point at this
  have hep1 : m1.eval_points_ = some ep := by rw [hI.same]; exact hep
  rw [htab1, hep1] at this
  simp only [hp, if_true] at this
  rw [Nat.div_add_mod' idx ep.max_size] at this
  exact this

/-! ## Lemmas on `init` and on the faults of the scan -/

theorem init_unfold (n : Nat) (u : Int) (fresh : Nat → Int) (m0 : ElementCacheMap)
    (ep : EvalPoints) :
    init n u fresh m0 ep = clear_element_eval_points_map n u
      { m0 with eval_points_ := some ep
                element_eval_points_map_ :=
                  some ((List.range ((n * ep.max_size) % (UINT_MAX + 1))).map fresh) } := rfl

theorem init_post {n : Nat} {u : Int} {fresh : Nat → Int} {m0 m : ElementCacheMap}
    {ep : EvalPoints} (h : init n u fresh m0 ep = .ok m) :
    ∃ tab, m = { m0 with eval_points_ := some ep, element_eval_points_map_ := some tab } ∧
      tab.length = n * ep.max_size ∧ ∀ x ∈ tab, x = u := by
  rw [init_unfold] at h
  have hI := @clear_post _ _ _ _ ((List.range ((n * ep.max_size) % (UINT_MAX + 1))).map fresh)
    ep rfl rfl h
  obtain ⟨tab1, htab1, hlen1⟩ := hI.table
  have hent := clear_entries hI rfl htab1
  simp only [List.length_map, List.length_range] at hlen1
  -- the last write of the loop shows that the product did not wrap
  have hsize : (n * ep.max_size) % (UINT_MAX + 1) = n * ep.max_size := by
    rcases Nat.eq_zero_or_pos (n * ep.max_size) with h0 | h0
    · rw [h0]; rfl
    · have hlast := hent.2 (n * ep.max_size - 1) (by omega)
      have hlt := (List.getElem?_eq_some_iff.mp hlast).1
      have hle := Nat.mod_le (n * ep.max_size) (UINT_MAX + 1)
      omega
  refine ⟨tab1, ?_, by rw [hlen1, hsize], ?_⟩
  · rw [hI.same, htab1]
  · intro x hx
    obtain ⟨idx, hidx⟩ := List.mem_iff_getElem?.mp hx
    have hlt := (List.getElem?_eq_some_iff.mp hidx).1
    have := hent.2 idx (by rw [← hsize, ← hlen1]; exact hlt)
    rw [hidx] at this
    injection this

theorem init_defined (n : Nat) (u : Int) (fresh : Nat → Int) (m0 : ElementCacheMap)
    (ep : EvalPoints) (hsize : n * ep.max_size < UINT_MAX + 1) :
    ∃ m, init n u fresh m0 ep = .ok m := by
  rw [init_unfold]
  refine @clear_defined _ _ _ ((List.range ((n * ep.max_size) % (UINT_MAX + 1))).map fresh)
    ep rfl rfl ?_
  simp only [List.length_map, List.length_range]
  rw [Nat.mod_eq_of_lt hsize]

theorem assign_slot_fault {t : ScanState} {it : EvalPointData} {f : Fault}
    (h : assign_slot t it = .error f) : f = Fault.out_of_range := by
  unfold assign_slot at h
  split at h
  · cases h
  · injection h with h; exact h.symm

theorem scan_step_fault {s : ScanState} {it : EvalPointData} {f : Fault}
    (h : scan_step s it = .error f) : f ≠ Fault.assertion_failed := by
  intro hf
  subst hf
  unfold scan_step at h
  have hmark : ∀ t, mark_point t it ≠ .error Fault.assertion_failed := by
    intro t ht
    unfold mark_point at ht
    split at ht
    · cases ht
    · split at ht
      · rename_i f1 hf1
        injection ht with ht
        subst ht
        unfold set_element_eval_point at hf1
        split at hf1
        · split at hf1 <;> cases hf1
        · cases hf1
      · cases ht
  split at h
  · split at h
    · rename_i f1 hf1
      injection h with h
      subst h
      unfold new_element at hf1
      cases assign_slot_fault hf1
    · exact hmark _ h
  · exact hmark _ h

theorem scan_loop_fault : ∀ (L : List EvalPointData) (s : ScanState) (f : Fault),
    scan_loop s L = .error f → f ≠ Fault.assertion_failed
  | [], s, f, h => by simp [scan_loop] at h
  | it :: rest, s, f, h => by
    simp only [scan_loop] at h
    split at h
    · rename_i f1 hf1
      injection h with h
      subst h
      exact scan_step_fault hf1
    · exact scan_loop_fault rest _ f h

theorem prepare_fault {m : ElementCacheMap} {f : Fault}
    (h : prepare_elements_to_update m = .error f) : f ≠ Fault.assertion_failed := by
  unfold prepare_elements_to_update at h
  split at h
  · rename_i f1 hf1
    injection h with h
    subst h
    exact scan_loop_fault _ _ _ hf1
  · cases h

theorem scan_step_no_room {s : ScanState} {it : EvalPointData}
    (hn : it.i_element_ ≠ s.last_element_idx)
    (hroom : ¬ UIntMap.size s.map.element_to_map_ < s.map.elm_idx_.length) :
    scan_step s it = .error Fault.out_of_range := by
  unfold scan_step
  rw [if_pos hn]
  have : new_element s it = .error Fault.out_of_range := by
    unfold new_element assign_slot
    by_cases hr : it.i_reg_ ≠ s.last_region_idx
    · rw [if_pos hr]
      simp only [new_region]
      rw [if_neg hroom]
    · rw [if_neg hr, if_neg hroom]
  rw [this]

theorem scan_loop_outcome {n len : Nat} {ep : EvalPoints} {L : List EvalPointData}
    (hs : L.Sorted EvalPointData.le) (hlen : n * ep.max_size ≤ len)
    (hpts : ∀ r ∈ L, r.i_eval_point_ < ep.max_size)
    (hne : ∀ r ∈ L, r.i_element_ ≠ UINT_MAX) :
    ∀ (rest pre : List EvalPointData) (s : ScanState), pre ++ rest = L →
      DefInv n len ep pre s →
      (∃ sf, scan_loop s rest = .ok sf) ∨ scan_loop s rest = .error Fault.out_of_range := by
  intro rest
  induction rest with
  | nil => intro pre s _ _; exact Or.inl ⟨s, rfl⟩
  | cons it rest ih =>
    intro pre s hL hD
    have hI := hD.slot
    have hitL : it ∈ L := by rw [← hL]; simp
    obtain ⟨tab, htab, htablen⟩ := hD.table
    by_cases hfull : it.i_element_ ≠ s.last_element_idx ∧
        ¬ UIntMap.size s.map.element_to_map_ < s.map.elm_idx_.length
    · right
      simp only [scan_loop, scan_step_no_room hfull.1 hfull.2]
    · have hroom : it.i_element_ ≠ s.last_element_idx →
          UIntMap.size s.map.element_to_map_ < s.map.elm_idx_.length := by
        intro hn
        by_contra hc
        exact hfull ⟨hn, hc⟩
      have hslot : ∃ slot, UIntMap.find (if it.i_element_ ≠ s.last_element_idx then
            UIntMap.assign s.map.element_to_map_ it.i_element_
              s.map.element_starts_.temporary_size_
          else s.map.element_to_map_) it.i_element_ = some slot ∧ slot < n := by
        by_cases hn : it.i_element_ ≠ s.last_element_idx
        · refine ⟨UIntMap.size s.map.element_to_map_, ?_, by rw [← hI.len]; exact hroom hn⟩
          rw [if_pos hn, UIntMap.find_assign, if_pos rfl, hI.es_size]
        · have he : it.i_element_ = s.last_element_idx := not_not.mp hn
          have hpre : pre ≠ [] := by
            intro hnil
            exact hne it hitL (he.trans (hD.start hnil))
          obtain ⟨l, hl⟩ := exists_getLast? hpre
          obtain ⟨sl, hsl⟩ := (hI.keys l.i_element_).mpr ⟨l, getLast?_mem hl, rfl⟩
          rw [← hI.last l hl, ← he] at hsl
          refine ⟨sl, by rw [if_neg hn]; exact hsl, ?_⟩
          have := ((hI.slot_iff _ _).mp hsl).1
          have := hI.size_le
          omega
      obtain ⟨slot, hfind, hslotn⟩ := hslot
      have hp := hpts it hitL
      obtain ⟨s1, hs1⟩ := scan_step_defined s it hroom hfind htab
        hD.eval_points hp (by rw [htablen]; exact flat_index_lt hslotn hp hlen)
      have hok := scan_step_ok hs1
      have hD1 : DefInv n len ep (pre ++ [it]) s1 := by
        refine ⟨slot_inv_step hs hL hI hs1, by simp,
          by rw [hok.eval_points]; exact hD.eval_points, ?_⟩
        obtain ⟨slot2, tab2, ep2, -, htab2, -, -, -, htab3⟩ := hok.table
        rw [htab] at htab2
        injection htab2 with htab2
        subst htab2
        exact ⟨_, htab3, by rw [List.length_set]; exact htablen⟩
      simp only [scan_loop, hs1]
      exact ih (pre ++ [it]) s1 (by simpa using hL) hD1

theorem prepare_size_le {m m1 : ElementCacheMap} (h : prepare_elements_to_update m = .ok m1) :
    (m.eval_point_data_.map EvalPointData.i_element_).dedup.length ≤ m.elm_idx_.length := by
  obtain ⟨sf, hE, -⟩ := prepare_ok h
  have hk := hE.slot.count
  rw [std_sort_count] at hk
  rw [hk]
  exact hE.slot.size_le

/-! ## Lemmas on the record ranges of the slots -/

theorem sorted_getElem?_lt {l : List Nat} (h : l.Sorted (· < ·)) {a b x y : Nat}
    (ha : l[a]? = some x) (hb : l[b]? = some y) (hab : a < b) : x < y := by
  obtain ⟨ha1, ha2⟩ := List.getElem?_eq_some_iff.mp ha
  obtain ⟨hb1, hb2⟩ := List.getElem?_eq_some_iff.mp hb
  have := List.pairwise_iff_getElem.mp h a b ha1 hb1 hab
  rw [ha2, hb2] at this
  exact this

theorem count_range {α : Type} (p : α → Bool) :
    ∀ (L : List α) (lo hi : Nat), lo ≤ hi → hi ≤ L.length →
      (∀ i x, L[i]? = some x → (p x = true ↔ lo ≤ i ∧ i < hi)) → L.countP p = hi - lo
  | [], lo, hi, hlo, hhi, _ => by
    simp at hhi
    simp [hhi]
  | a :: t, lo, hi, hlo, hhi, h => by
    have ha := h 0 a (by simp)
    have ht : ∀ i x, t[i]? = some x → (p x = true ↔ lo - 1 ≤ i ∧ i < hi - 1 ∧
        (lo = 0 → hi ≠ 0 ∨ False)) := by
      intro i x hx
      have := h (i + 1) x (by simpa using hx)
      rw [this]
      omega
    simp only [List.length_cons] at hhi
    rw [List.countP_cons]
    by_cases h0 : lo = 0
    · subst h0
      by_cases h1 : hi = 0
      · subst h1
        have hpa : ¬ p a = true := by rw [ha]; omega
        have := count_range p t 0 0 (Nat.le_refl 0) (Nat.zero_le _) (by
          intro i x hx
          rw [ht i x hx]; omega)
        simp [this, hpa]
      · have hpa : p a = true := by rw [ha]; omega
        have := count_range p t 0 (hi - 1) (Nat.zero_le _) (by omega) (by
          intro i x hx
          rw [ht i x hx]; omega)
        simp only [this, hpa, if_true]
        omega
    · have hpa : ¬ p a = true := by rw [ha]; omega
      have := count_range p t (lo - 1) (hi - 1) (by omega) (by omega) (by
        intro i x hx
        rw [ht i x hx]; omega)
      have hpa1 : p a = false := by simpa using hpa
      rw [this, hpa1]
      simp
      omega

theorem range_inv_base (m : ElementCacheMap) : RangeInv [] (scan_init m) := by
  constructor <;> simp

theorem range_inv_step {n : Nat} {L pre rest : List EvalPointData} {it : EvalPointData}
    {s s1 : ScanState} (hs : L.Sorted EvalPointData.le) (hL : pre ++ it :: rest = L)
    (hI : SlotInv n pre s) (hG : RangeInv pre s)
    (h : scan_step s it = .ok s1) : RangeInv (pre ++ [it]) s1 := by
  have hok := scan_step_ok h
  have hsz := step_size hs hL hI h
  have hst := step_find_stable hs hL hI h
  have hlenp := RevertableList.length_pushed _ hI.es_wf
  have hpush := RevertableList.pushed_push_back s.map.element_starts_ s.i_pos hI.es_wf
  obtain ⟨slot, -, -, hslot, -⟩ := hok.table
  -- when the element is not new, the last processed record has the same element
  have hold : it.i_element_ = s.last_element_idx → ∃ l, pre.getLast? = some l ∧
      l.i_element_ = it.i_element_ := by
    intro he
    have he2m : s1.map.element_to_map_ = s.map.element_to_map_ := by
      rw [hok.e2m, if_neg (not_not.mpr he)]
    rw [he2m] at hslot
    obtain ⟨r0, hr0, -⟩ := (hI.keys it.i_element_).mp ⟨slot, hslot⟩
    obtain ⟨l, hl⟩ := exists_getLast? (List.ne_nil_of_mem hr0)
    exact ⟨l, hl, by rw [he, hI.last l hl]⟩
  have hlast : UIntMap.find s1.map.element_to_map_ it.i_element_ =
      some (UIntMap.size s1.map.element_to_map_ - 1) ∧
      0 < UIntMap.size s1.map.element_to_map_ := by
    by_cases hn : it.i_element_ = s.last_element_idx
    · obtain ⟨l, hl, hle⟩ := hold hn
      have := hG.last_slot l hl
      rw [hsz, if_neg (not_not.mpr hn), hok.e2m, if_neg (not_not.mpr hn), ← hle]
      exact this
    · rw [hsz, if_pos hn, hok.e2m, if_pos hn, UIntMap.find_assign, if_pos rfl, hI.es_size]
      exact ⟨by simp, by omega⟩
  constructor
  · intro r hr
    simp at hr
    subst hr
    exact hlast
  · intro i r sl hi hf
    have hilt : i < (pre ++ [it]).length := (List.getElem?_eq_some_iff.mp hi).1
    simp only [List.length_append, List.length_singleton] at hilt
    by_cases hn : it.i_element_ = s.last_element_idx
    · -- no new slot: the starts are unchanged
      have hes : s1.map.element_starts_ = s.map.element_starts_ := by
        rw [hok.es, if_neg (not_not.mpr hn)]
      have he2m : s1.map.element_to_map_ = s.map.element_to_map_ := by
        rw [hok.e2m, if_neg (not_not.mpr hn)]
      rw [hes]
      by_cases hip : i < pre.length
      · rw [List.getElem?_append_left hip] at hi
        rw [he2m] at hf
        exact hG.range i r sl hi hf
      · have hieq : i = pre.length := by omega
        subst hieq
        rw [List.getElem?_append_right (Nat.le_refl _)] at hi
        simp at hi
        subst hi
        rw [hlast.1, he2m] at hf
        injection hf with hf
        have hsl : sl < s.map.element_starts_.pushed.length := by
          rw [hlenp, hI.es_size]
          have := hlast.2
          rw [he2m] at this
          omega
        refine ⟨s.map.element_starts_.pushed[sl], List.getElem?_eq_getElem hsl, ?_, ?_⟩
        · exact Nat.le_of_lt (hI.es_lt _ (List.getElem_mem hsl))
        · intro hi2 hhi2
          have := (List.getElem?_eq_some_iff.mp hhi2).1
          rw [hlenp, hI.es_size] at this
          omega
    · -- a new slot starts at the position of the record
      have hes : s1.map.element_starts_.pushed = s.map.element_starts_.pushed ++ [pre.length] := by
        rw [hok.es, if_pos hn, hpush.1, hI.i_pos]
      rw [hes]
      by_cases hip : i < pre.length
      · rw [List.getElem?_append_left hip] at hi
        rw [hst r (List.getElem?_mem hi)] at hf
        obtain ⟨lo, hlo, hle, hhi⟩ := hG.range i r sl hi hf
        refine ⟨lo, ?_, hle, ?_⟩
        · rw [List.getElem?_append_left (List.getElem?_eq_some_iff.mp hlo).1]; exact hlo
        · intro hi2 hhi2
          by_cases hin : sl + 1 < s.map.element_starts_.pushed.length
          · rw [List.getElem?_append_left hin] at hhi2
            exact hhi hi2 hhi2
          · have hslt := ((hI.slot_iff _ _).mp hf).1
            have heq : sl + 1 = s.map.element_starts_.pushed.length := by
              rw [hlenp, hI.es_size] at hin ⊢
              omega
            rw [heq, List.getElem?_append_right (Nat.le_refl _)] at hhi2
            simp at hhi2
            omega
      · have hieq : i = pre.length := by omega
        subst hieq
        rw [List.getElem?_append_right (Nat.le_refl _)] at hi
        simp at hi
        subst hi
        rw [hok.e2m, if_pos hn, UIntMap.find_assign, if_pos rfl, ← hlenp] at hf
        injection hf with hf
        subst hf
        refine ⟨pre.length, ?_, Nat.le_refl _, ?_⟩
        · rw [List.getElem?_append_right (Nat.le_refl _)]; simp
        · intro hi2 hhi2
          have := (List.getElem?_eq_some_iff.mp hhi2).1
          simp at this

theorem range_end {m : ElementCacheMap} {sf : ScanState}
    (h : scan_loop (scan_init m) (std_sort m.eval_point_data_) = .ok sf) :
    RangeInv (std_sort m.eval_point_data_) sf := by
  have hs := std_sort_sorted m.eval_point_data_
  have := scan_loop_induction
    (fun pre s => SlotInv m.elm_idx_.length pre s ∧ RangeInv pre s)
    (std_sort m.eval_point_data_)
    (fun pre it rest s s1 hL hP hstep =>
      ⟨slot_inv_step hs hL hP.1 hstep, range_inv_step hs hL hP.1 hP.2 hstep⟩)
    (std_sort m.eval_point_data_) [] (scan_init m) sf rfl
    ⟨slot_inv_base m, range_inv_base m⟩ h
  exact this.2

/-! ## Capacity, defined accesses, table reset and record ranges -/

/-- C11, amended.  If the pending records hold more distinct elements than `elm_idx_` has
slots (`n_cached_elements`), `prepare_elements_to_update` produces no state, and the failure
is never a failed assertion: the function has no capacity check.  With the table allocated
for the slots, the local points below `max_size()` and no element equal to
`undef_elem_idx`, the call ends in an access outside of a container, which is undefined
behaviour. -/
theorem prepare_over_capacity_undefined (m : ElementCacheMap)
    (hk : m.elm_idx_.length < (m.eval_point_data_.map EvalPointData.i_element_).dedup.length) :
    (∀ m1, prepare_elements_to_update m ≠ .ok m1) ∧
    prepare_elements_to_update m ≠ .error Fault.assertion_failed ∧
    (∀ tab ep, m.element_eval_points_map_ = some tab → m.eval_points_ = some ep →
      m.elm_idx_.length * ep.max_size ≤ tab.length →
      (∀ r ∈ m.eval_point_data_, r.i_eval_point_ < ep.max_size) →
      (∀ r ∈ m.eval_point_data_, r.i_element_ ≠ undef_elem_idx) →
      prepare_elements_to_update m = .error Fault.out_of_range) := by
  have hno : ∀ m1, prepare_elements_to_update m ≠ .ok m1 := by
    intro m1 h
    have := prepare_size_le h
    omega
  refine ⟨hno, fun h => prepare_fault h rfl, ?_⟩
  intro tab ep htab hep hlen hpts hne
  have hout := scan_loop_outcome (std_sort_sorted m.eval_point_data_) hlen
    (fun r hr => hpts r ((std_sort_mem _ _).mp hr))
    (fun r hr => hne r ((std_sort_mem _ _).mp hr))
    (std_sort m.eval_point_data_) [] (scan_init m) rfl
    ⟨slot_inv_base m, fun _ => rfl, hep, tab, htab, rfl⟩
  rcases hout with ⟨sf, hsf⟩ | herr
  · exfalso
    exact hno (close_tables sf) (by unfold prepare_elements_to_update; rw [hsf])
  · unfold prepare_elements_to_update
    rw [herr]

/-- Witness of C11 on a cache map with one slot and requests for two elements. -/
theorem prepare_over_capacity_undefined_witness :
    over_capacity_map.elm_idx_.length <
      (over_capacity_map.eval_point_data_.map EvalPointData.i_element_).dedup.length ∧
    (∀ m1, prepare_elements_to_update over_capacity_map ≠ .ok m1) ∧
    prepare_elements_to_update over_capacity_map = .error Fault.out_of_range :=
  ⟨by decide, (prepare_over_capacity_undefined over_capacity_map (by decide)).1,
    (prepare_over_capacity_undefined over_capacity_map (by decide)).2.2 _ _ rfl rfl
      (by decide) (by decide) (by decide)⟩

/-- Counterexample to C11 as stated: with one slot and requests for the elements 1 and 2
the call writes `elm_idx_[1]` behind the only slot; no assertion fails. -/
theorem over_capacity_is_no_assertion :
    prepare_elements_to_update (fresh_map 1 2 [⟨1, 1, 0⟩, ⟨1, 2, 0⟩]) =
      .error Fault.out_of_range ∧
    prepare_elements_to_update (fresh_map 1 2 [⟨1, 1, 0⟩, ⟨1, 2, 0⟩]) ≠
      .error Fault.assertion_failed :=
  ⟨rfl, fun h => by cases h⟩

/-- C12.  After `init`, if the pending records hold at most `n_cached_elements` distinct
elements, no element index equals `undef_elem_idx` and every local point index is below
`eval_points->max_size()`, then `prepare_elements_to_update` completes: every write to
`elm_idx_`, every lookup in `element_to_map_` and every write to the table of
`n_cached_elements * max_size()` entries is defined. -/
theorem prepare_accesses_defined (n : Nat) (unused_point : Int) (fresh : Nat → Int)
    (m0 m : ElementCacheMap) (ep : EvalPoints) (records : List EvalPointData)
    (hcap : m0.elm_idx_.length = n)
    (hinit : init n unused_point fresh m0 ep = .ok m)
    (hk : (records.map EvalPointData.i_element_).dedup.length ≤ n)
    (hne : ∀ r ∈ records, r.i_element_ ≠ undef_elem_idx)
    (hpts : ∀ r ∈ records, r.i_eval_point_ < ep.max_size) :
    ∃ m1, prepare_elements_to_update { m with eval_point_data_ := records } = .ok m1 := by
  obtain ⟨tab, hm, hlen, -⟩ := init_post hinit
  subst hm
  exact prepare_defined _ tab ep rfl rfl (by simp only; rw [hcap, hlen]) hpts hne
    (by simp only; rw [hcap]; exact hk)

/-- Witness of C12: `init` with four slots and two local points per element, then the
sample requests. -/
theorem prepare_accesses_defined_witness :
    init 4 (-1) (fun _ => 0) (ElementCacheMap.create 4 3 10) ⟨2⟩ = .ok (fresh_map 4 2 []) ∧
    (sample_records.map EvalPointData.i_element_).dedup.length ≤ 4 ∧
    ∃ m1, prepare_elements_to_update sample_map = .ok m1 :=
  ⟨rfl, by decide,
    prepare_accesses_defined 4 (-1) (fun _ => 0) (ElementCacheMap.create 4 3 10)
      (fresh_map 4 2 []) ⟨2⟩ sample_records rfl rfl (by decide) (by decide) (by decide)⟩

/-- C13.  Whenever `clear_element_eval_points_map` completes, every entry `[slot][point]`
with `slot < n_cached_elements` and `point < max_size()`, that is each of the first
`n_cached_elements * max_size()` entries of the table, holds `unused_point` and no other
member has changed; it completes when the table has that many entries.  Whenever `init`
completes, its result is the previous map with the given evaluation points and a table of
exactly `n_cached_elements * max_size()` entries, all equal to `unused_point`; it completes
when the product fits into `unsigned int`. -/
theorem clear_and_init_reset_table (n : Nat) (unused_point : Int) :
    (∀ m m1 tab ep, m.element_eval_points_map_ = some tab → m.eval_points_ = some ep →
      clear_element_eval_points_map n unused_point m = .ok m1 →
      (∀ slot point, slot < n → point < ep.max_size →
        element_eval_point m1 slot point = some unused_point) ∧
      m1 = { m with element_eval_points_map_ := m1.element_eval_points_map_ } ∧
      ∃ tab1, m1.element_eval_points_map_ = some tab1 ∧ tab1.length = tab.length ∧
        ∀ idx, idx < n * ep.max_size → tab1[idx]? = some unused_point) ∧
    (∀ m tab ep, m.element_eval_points_map_ = some tab → m.eval_points_ = some ep →
      n * ep.max_size ≤ tab.length →
      ∃ m1, clear_element_eval_points_map n unused_point m = .ok m1) ∧
    (∀ fresh m0 ep m, init n unused_point fresh m0 ep = .ok m →
      ∃ tab, m = { m0 with eval_points_ := some ep, element_eval_points_map_ := some tab } ∧
        tab.length = n * ep.max_size ∧ ∀ x ∈ tab, x = unused_point) ∧
    (∀ fresh m0 ep, n * ep.max_size < 2 ^ 32 →
      ∃ m, init n unused_point fresh m0 ep = .ok m) := by
  refine ⟨?_, ?_, ?_, ?_⟩
  · intro m m1 tab ep htab hep h
    have hI := clear_post htab hep h
    obtain ⟨tab1, htab1, hlen1⟩ := hI.table
    exact ⟨fun sl p hsl hp => hI.rows sl p hsl hp, hI.same, tab1, htab1,
      (clear_entries hI hep htab1).1, (clear_entries hI hep htab1).2⟩
  · intro m tab ep htab hep hlen
    exact clear_defined htab hep hlen
  · intro fresh m0 ep m h
    exact init_post h
  · intro fresh m0 ep hsize
    exact init_defined n unused_point fresh m0 ep hsize

/-- Witness of C13: `init` with four slots and two local points per element, and the reset
of the table of the sample cache map after a cycle. -/
theorem clear_and_init_reset_table_witness :
    (∃ m, init 4 (-1) (fun _ => 7) (ElementCacheMap.create 4 3 10) ⟨2⟩ = .ok m) ∧
    (∃ tab, fresh_map 4 2 [] =
        { ElementCacheMap.create 4 3 10 with
          eval_points_ := some ⟨2⟩, element_eval_points_map_ := some tab } ∧
      tab.length = 4 * 2 ∧ ∀ x ∈ tab, x = -1) ∧
    ∃ m1, clear_element_eval_points_map 4 (-1) sample_ready = .ok m1 ∧
      ∀ slot point, slot < 4 → point < 2 → element_eval_point m1 slot point = some (-1) :=
  ⟨(clear_and_init_reset_table 4 (-1)).2.2.2 (fun _ => 7) (ElementCacheMap.create 4 3 10) ⟨2⟩
      (by decide),
    (clear_and_init_reset_table 4 (-1)).2.2.1 (fun _ => 7) (ElementCacheMap.create 4 3 10) ⟨2⟩
      (fresh_map 4 2 []) rfl,
    ⟨_, rfl, ((clear_and_init_reset_table 4 (-1)).1 sample_ready _ _ ⟨2⟩ rfl rfl rfl).1⟩⟩

/-- C14.  Whenever `prepare_elements_to_update` completes, for every assigned slot `s` the
positions `i` of the sorted records with `element_starts_[s] <= i < element_starts_[s+1]`
are exactly the positions of the records of the element `elm_idx_[s]`; the difference
`element_starts_[s+1] - element_starts_[s]` is the number of pending records of that
element and is at least 1. -/
theorem element_starts_delimit_records (m m1 : ElementCacheMap)
    (h : prepare_elements_to_update m = .ok m1) :
    ∀ s, s < UIntMap.size m1.element_to_map_ →
      ∃ e lo hi, m1.elm_idx_[s]? = some e ∧ m1.element_starts_.items[s]? = some lo ∧
        m1.element_starts_.items[s + 1]? = some hi ∧ lo < hi ∧
        (∀ i r, m1.eval_point_data_[i]? = some r → (r.i_element_ = e ↔ lo ≤ i ∧ i < hi)) ∧
        hi - lo = m.eval_point_data_.countP (fun r => decide (r.i_element_ = e)) := by
  have hd := (prepare_data h).1
  obtain ⟨sf, hE, rfl⟩ := prepare_ok h
  have hI := hE.slot
  have hG := range_end hE.loop
  have hitems := close_tables_es hI
  have hlenp := RevertableList.length_pushed _ hI.es_wf
  rw [hI.es_size] at hlenp
  intro s hs
  change s < UIntMap.size sf.map.element_to_map_ at hs
  have hsn : s < sf.map.elm_idx_.length := by
    rw [hI.len]; exact Nat.lt_of_lt_of_le hs hI.size_le
  have he : sf.map.elm_idx_[s]? = some sf.map.elm_idx_[s] := List.getElem?_eq_getElem hsn
  have hfind := (hI.slot_iff sf.map.elm_idx_[s] s).mpr ⟨hs, he⟩
  have hslo : s < sf.map.element_starts_.pushed.length := by rw [hlenp]; exact hs
  have hget : ∀ j, j < sf.map.element_starts_.pushed.length →
      ∃ x, sf.map.element_starts_.pushed[j]? = some x :=
    fun j hj => ⟨_, List.getElem?_eq_getElem hj⟩
  obtain ⟨lo0, hlo⟩ := hget s hslo
  -- the entry that closes the range of the slot
  obtain ⟨hi, hhi, hhile, hnext⟩ : ∃ hi, (close_tables sf).element_starts_.items[s + 1]? = some hi ∧
      hi ≤ (std_sort m.eval_point_data_).length ∧
      (∀ x, sf.map.element_starts_.pushed[s + 1]? = some x → x = hi) ∧
      (s + 1 = UIntMap.size sf.map.element_to_map_ →
        hi = (std_sort m.eval_point_data_).length) := by
    rw [hitems]
    by_cases hin : s + 1 < sf.map.element_starts_.pushed.length
    · obtain ⟨x0, hx0⟩ := hget (s + 1) hin
      refine ⟨x0, ?_, ?_, ?_, ?_⟩
      · rw [List.getElem?_append_left hin]; exact hx0
      · exact Nat.le_of_lt (hI.es_lt _ (List.getElem?_mem hx0))
      · intro x hx
        rw [hx0] at hx
        injection hx with hx
        exact hx.symm
      · intro heq; rw [hlenp] at hin; omega
    · have heq : s + 1 = sf.map.element_starts_.pushed.length := by omega
      refine ⟨(std_sort m.eval_point_data_).length, ?_, Nat.le_refl _, ?_, fun _ => rfl⟩
      · rw [heq, List.getElem?_append_right (Nat.le_refl _)]; simp
      · intro x hx
        have := (List.getElem?_eq_some_iff.mp hx).1
        omega
  have hlohi : lo0 < hi := by
    by_cases hin : s + 1 < sf.map.element_starts_.pushed.length
    · obtain ⟨x0, hx0⟩ := hget (s + 1) hin
      rw [← hnext.1 _ hx0]
      exact sorted_getElem?_lt hI.es_sorted hlo hx0 (Nat.lt_succ_self s)
    · have := hnext.2 (by rw [← hlenp]; omega)
      rw [this]
      exact hI.es_lt _ (List.getElem?_mem hlo)
  have hiff : ∀ i r, (std_sort m.eval_point_data_)[i]? = some r →
      (r.i_element_ = sf.map.elm_idx_[s] ↔ lo0 ≤ i ∧ i < hi) := by
    intro i r hir
    have hilt := (List.getElem?_eq_some_iff.mp hir).1
    constructor
    · intro hre
      rw [← hre] at hfind
      obtain ⟨lo, hlo2, hle, hup⟩ := hG.range i r s hir hfind
      rw [hlo] at hlo2
      injection hlo2 with hlo2
      refine ⟨by rw [hlo2]; exact hle, ?_⟩
      by_cases hin : s + 1 < sf.map.element_starts_.pushed.length
      · obtain ⟨x0, hx0⟩ := hget (s + 1) hin
        have := hup _ hx0
        rw [hnext.1 _ hx0] at this
        exact this
      · rw [hnext.2 (by rw [← hlenp]; omega)]
        exact hilt
    · rintro ⟨h1, h2⟩
      obtain ⟨sl, hsl⟩ := (hI.keys r.i_element_).mpr ⟨r, List.getElem?_mem hir, rfl⟩
      obtain ⟨lo, hlo2, hle, hup⟩ := hG.range i r sl hir hsl
      have hslt := ((hI.slot_iff _ _).mp hsl).1
      have hsleq : sl = s := by
        rcases Nat.lt_trichotomy sl s with hlt | heq | hgt
        · exfalso
          have hin : sl + 1 < sf.map.element_starts_.pushed.length := by rw [hlenp]; omega
          obtain ⟨x0, hx0⟩ := hget (sl + 1) hin
          have h3 := hup _ hx0
          rcases Nat.lt_or_ge (sl + 1) s with h4 | h4
          · have := sorted_getElem?_lt hI.es_sorted hx0 hlo h4
            omega
          · have h5 : sl + 1 = s := by omega
            rw [h5, hlo] at hx0
            injection hx0 with hx0
            omega
        · exact heq
        · exfalso
          have hin : s + 1 < sf.map.element_starts_.pushed.length := by rw [hlenp]; omega
          obtain ⟨x0, hx0⟩ := hget (s + 1) hin
          have h3 := hnext.1 _ hx0
          rcases Nat.lt_or_ge (s + 1) sl with h4 | h4
          · have := sorted_getElem?_lt hI.es_sorted hx0 hlo2 h4
            omega
          · have h5 : s + 1 = sl := by omega
            rw [h5, hlo2] at hx0
            injection hx0 with hx0
            omega
      rw [hsleq] at hsl
      have := ((hI.slot_iff _ _).mp hsl).2
      rw [he] at this
      injection this with this
      exact this.symm
  refine ⟨sf.map.elm_idx_[s], lo0, hi, he, ?_, hhi, hlohi, ?_, ?_⟩
  · rw [hitems, List.getElem?_append_left hslo]; exact hlo
  · intro i r hir
    rw [hd] at hir
    exact hiff i r hir
  · rw [← (std_sort_perm m.eval_point_data_).countP_eq]
    symm
    apply count_range _ _ _ _ (Nat.le_of_lt hlohi) hhile
    intro i x hix
    rw [decide_eq_true_iff]
    exact hiff i x hix

/-- Witness of C14 on the sample cache map: the slots 0, 1, 2 hold the elements 1, 2, 3
with one record each. -/
theorem element_starts_delimit_records_witness :
    ∃ m1, prepare_elements_to_update sample_map = .ok m1 ∧
      m1.elm_idx_ = [1, 2, 3, undef_elem_idx] ∧ m1.element_starts_.items = [0, 1, 2, 3] ∧
      ∀ s, s < UIntMap.size m1.element_to_map_ →
        ∃ e lo hi, m1.elm_idx_[s]? = some e ∧ m1.element_starts_.items[s]? = some lo ∧
          m1.element_starts_.items[s + 1]? = some hi ∧ lo < hi ∧
          (∀ i r, m1.eval_point_data_[i]? = some r → (r.i_element_ = e ↔ lo ≤ i ∧ i < hi)) ∧
          hi - lo = sample_map.eval_point_data_.countP (fun r => decide (r.i_element_ = e)) :=
  ⟨_, rfl, rfl, rfl, element_starts_delimit_records sample_map _ rfl⟩

/-! ## Order of the requests, regions of three elements and repeated requests -/

theorem EvalPointData.le_antisymm {a b : EvalPointData}
    (hab : EvalPointData.le a b) (hba : EvalPointData.le b a) : a = b := by
  rw [EvalPointData.le_iff] at hab hba
  obtain ⟨r1, e1, p1⟩ := a
  obtain ⟨r2, e2, p2⟩ := b
  simp only [EvalPointData.mk.injEq] at *
  omega

theorem std_sort_unique {l l1 : List EvalPointData} (hp : l1.Perm l)
    (hs : l1.Sorted EvalPointData.le) : std_sort l = l1 := by
  haveI : IsAntisymm EvalPointData EvalPointData.le :=
    ⟨fun _ _ => EvalPointData.le_antisymm⟩
  exact List.eq_of_perm_of_sorted ((std_sort_perm l).trans hp.symm) (std_sort_sorted l) hs

theorem std_sort_of_perm {l1 l2 : List EvalPointData} (hp : l1.Perm l2) :
    std_sort l1 = std_sort l2 :=
  std_sort_unique ((std_sort_perm l2).trans hp.symm) (std_sort_sorted l2)

/-- C25.  For every prior state and every two lists of pending records that are
permutations of each other, `prepare_elements_to_update` gives the same result: it
completes on both or on none, and then `element_to_map_`, `elm_idx_`, `regions_to_map_`,
`regions_starts_`, `element_starts_`, the table of row indices and the sorted records are
identical. -/
theorem prepare_independent_of_order (m : ElementCacheMap) (l1 l2 : List EvalPointData)
    (hp : l1.Perm l2) :
    prepare_elements_to_update { m with eval_point_data_ := l1 } =
      prepare_elements_to_update { m with eval_point_data_ := l2 } ∧
    ∀ m1, prepare_elements_to_update { m with eval_point_data_ := l1 } = .ok m1 →
      ∃ m2, prepare_elements_to_update { m with eval_point_data_ := l2 } = .ok m2 ∧
        m2.element_to_map_ = m1.element_to_map_ ∧ m2.elm_idx_ = m1.elm_idx_ ∧
        m2.regions_to_map_ = m1.regions_to_map_ ∧
        m2.regions_starts_.items = m1.regions_starts_.items ∧
        m2.element_starts_.items = m1.element_starts_.items ∧
        m2.element_eval_points_map_ = m1.element_eval_points_map_ ∧
        m2.eval_point_data_ = m1.eval_point_data_ := by
  have heq : prepare_elements_to_update { m with eval_point_data_ := l1 } =
      prepare_elements_to_update { m with eval_point_data_ := l2 } := by
    unfold prepare_elements_to_update scan_init erase_previous
    simp only [std_sort_of_perm hp]
  refine ⟨heq, ?_⟩
  intro m1 h1
  exact ⟨m1, heq ▸ h1, rfl, rfl, rfl, rfl, rfl, rfl, rfl⟩

/-- Witness of C25: the sample requests in two orders. -/
theorem prepare_independent_of_order_witness :
    prepare_elements_to_update (fresh_map 4 2 [⟨3, 3, 1⟩, ⟨1, 2, 0⟩, ⟨1, 1, 0⟩]) =
      prepare_elements_to_update (fresh_map 4 2 [⟨1, 1, 0⟩, ⟨3, 3, 1⟩, ⟨1, 2, 0⟩]) :=
  (prepare_independent_of_order (fresh_map 4 2 []) [⟨3, 3, 1⟩, ⟨1, 2, 0⟩, ⟨1, 1, 0⟩]
    [⟨1, 1, 0⟩, ⟨3, 3, 1⟩, ⟨1, 2, 0⟩] (by decide)).1

theorem shift_base (a : ElementCacheMap) (l : List EvalPointData) :
    Shift 0 0 (scan_init a) (scan_init { a with eval_point_data_ := l }) := by
  constructor <;>
    simp [scan_init, erase_previous, RevertableList.reset, RevertableList.pushed]

theorem take_drop_push (sp : List Nat) (k d x : Nat) (hk : k ≤ sp.length) :
    (sp ++ [x]).take k ++ ((sp ++ [x]).drop k).map (· + d) =
      sp.take k ++ (sp.drop k).map (· + d) ++ [x + d] := by
  rw [List.take_append_of_le_length hk, List.drop_append_of_le_length hk]
  simp

theorem shift_step {d k : Nat} {s t s1 : ScanState} {it : EvalPointData}
    (hS : Shift d k s t) (h : scan_step s it = .ok s1) :
    ∃ t1, scan_step t it = .ok t1 ∧ Shift d k s1 t1 := by
  have hok := scan_step_ok h
  obtain ⟨slot, tab, ep, hslot, htab, hep, hp, hidx, htab1⟩ := hok.table
  obtain ⟨tab2, htab2, hlen2⟩ : ∃ tab2, t.map.element_eval_points_map_ = some tab2 ∧
      tab2.length = tab.length := by
    have := hS.tab_len
    rw [htab] at this
    cases ht : t.map.element_eval_points_map_ with
    | none => rw [ht] at this; simp at this
    | some tab2 => rw [ht] at this; simp at this; exact ⟨tab2, rfl, this.symm⟩
  have hslot2 : UIntMap.find (if it.i_element_ ≠ t.last_element_idx then
        UIntMap.assign t.map.element_to_map_ it.i_element_ t.map.element_starts_.temporary_size_
      else t.map.element_to_map_) it.i_element_ = some slot := by
    rw [← hS.last_element, ← hS.e2m, ← hS.es_size, ← hok.e2m]; exact hslot
  obtain ⟨t1, ht1⟩ := scan_step_defined t it
    (by rw [← hS.last_element, ← hS.e2m, ← hS.elm_idx]; exact hok.room)
    hslot2 htab2 (hS.eval_points ▸ hep) hp (by rw [hlen2]; exact hidx)
  have hok2 := scan_step_ok ht1
  obtain ⟨slot2, tab3, ep3, hslot3, htab3, hep3, hp3, hidx3, htab4⟩ := hok2.table
  have hpes1 := RevertableList.pushed_push_back s.map.element_starts_ s.i_pos hS.es_wf.1
  have hpes2 := RevertableList.pushed_push_back t.map.element_starts_ t.i_pos hS.es_wf.2
  have hlenp := RevertableList.length_pushed _ hS.es_wf.1
  refine ⟨t1, ht1, ?_⟩
  constructor
  · rw [hok.last_reg, hok2.last_reg, hS.last_element, hS.last_region]
  · rw [hok.last_elem, hok2.last_elem]
  · rw [hok.i_pos, hok2.i_pos, hS.i_pos]; omega
  · rw [hok.points, hok2.points, hS.points]; omega
  · rw [hok.elm_idx, hok2.elm_idx, hS.last_element, hS.elm_idx, hS.e2m]
  · rw [hok.e2m, hok2.e2m, hS.last_element, hS.e2m, hS.es_size]
  · rw [hok.r2m, hok2.r2m, hS.last_element, hS.last_region, hS.r2m, hS.rs]
  · rw [hok.rs, hok2.rs, hS.last_element, hS.last_region, hS.rs, hS.es_size]
  · rw [hok.es, hok2.es, ← hS.last_element]
    split
    · simp [RevertableList.push_back, hS.es_size]
    · exact hS.es_size
  · rw [hok.es, hok2.es, ← hS.last_element]
    split
    · exact ⟨hpes1.2, hpes2.2⟩
    · exact hS.es_wf
  · rw [hok.es]
    split
    · have := hS.k_le
      simp only [RevertableList.push_back]
      omega
    · exact hS.k_le
  · rw [hok.es, hok2.es, ← hS.last_element]
    split
    · rw [hpes1.1, hpes2.1, hS.es_pushed, hS.i_pos,
        take_drop_push _ _ _ _ (by rw [hlenp]; exact hS.k_le)]
    · exact hS.es_pushed
  · rw [hok.eval_points, hok2.eval_points, hS.eval_points]
  · rw [htab1, htab4]
    rw [htab2] at htab3
    injection htab3 with h5
    simp [← h5, hlen2]

theorem shift_loop {d k : Nat} (L : List EvalPointData) :
    ∀ (s t sf : ScanState), Shift d k s t → scan_loop s L = .ok sf →
      ∃ tf, scan_loop t L = .ok tf ∧ Shift d k sf tf := by
  induction L with
  | nil =>
    intro s t sf hS h
    simp only [scan_loop] at h ⊢
    injection h with h
    subst h
    exact ⟨t, rfl, hS⟩
  | cons it rest ih =>
    intro s t sf hS h
    simp only [scan_loop] at h ⊢
    split at h
    · cases h
    · rename_i s1 hs1
      obtain ⟨t1, ht1, hS1⟩ := shift_step hS hs1
      rw [ht1]
      exact ih s1 t1 sf hS1 h

theorem shift_duplicate {k : Nat} {s0 s t : ScanState} {r : EvalPointData}
    (h0 : scan_step s0 r = .ok s) (hS : Shift 0 k s t) :
    ∃ t1, scan_step t r = .ok t1 ∧ Shift 1 s.map.element_starts_.temporary_size_ s t1 := by
  have hok := scan_step_ok h0
  obtain ⟨slot, tab, ep, hslot, htab, hep, hp, hidx, htab1⟩ := hok.table
  have hlast : r.i_element_ = t.last_element_idx := by
    rw [← hS.last_element, hok.last_elem]
  obtain ⟨tab2, htab2, hlen2⟩ : ∃ tab2, t.map.element_eval_points_map_ = some tab2 ∧
      tab2.length = tab.length := by
    have := hS.tab_len
    rw [htab1] at this
    cases ht : t.map.element_eval_points_map_ with
    | none => rw [ht] at this; simp at this
    | some tab2 => rw [ht] at this; simp at this; exact ⟨tab2, rfl, this.symm⟩
  have hnn : ¬ r.i_element_ ≠ t.last_element_idx := fun hc => hc hlast
  have hnn2 : ¬ (r.i_element_ ≠ t.last_element_idx ∧ r.i_reg_ ≠ t.last_region_idx) :=
    fun hc => hc.1 hlast
  obtain ⟨t1, ht1⟩ := scan_step_defined t r (fun hc => absurd hlast hc)
    (by rw [if_neg hnn, ← hS.e2m]; exact hslot)
    htab2 (by rw [← hS.eval_points, hok.eval_points]; exact hep) hp
    (by rw [hlen2]; exact hidx)
  have hok2 := scan_step_ok ht1
  obtain ⟨slot2, tab3, ep3, hslot3, htab3, hep3, hp3, hidx3, htab4⟩ := hok2.table
  have hlenp := RevertableList.length_pushed _ hS.es_wf.1
  refine ⟨t1, ht1, ?_⟩
  constructor
  · rw [hok2.last_reg, if_neg hnn2]; exact hS.last_region
  · rw [hok2.last_elem, ← hok.last_elem]
  · rw [hok2.i_pos, hS.i_pos]
  · rw [hok2.points, hS.points]
  · rw [hok2.elm_idx, if_neg hnn]; exact hS.elm_idx
  · rw [hok2.e2m, if_neg hnn]; exact hS.e2m
  · rw [hok2.r2m, if_neg hnn2]; exact hS.r2m
  · rw [hok2.rs, if_neg hnn2]; exact hS.rs
  · rw [hok2.es, if_neg hnn]; exact hS.es_size
  · rw [hok2.es, if_neg hnn]; exact hS.es_wf
  · exact Nat.le_refl _
  · rw [hok2.es, if_neg hnn, hS.es_pushed, ← hlenp]
    simp
  · rw [hok2.eval_points]; exact hS.eval_points
  · rw [htab4, hS.tab_len, htab3]
    simp

theorem scan_loop_append : ∀ (X Y : List EvalPointData) (s sf : ScanState),
    scan_loop s (X ++ Y) = .ok sf ↔ ∃ s1, scan_loop s X = .ok s1 ∧ scan_loop s1 Y = .ok sf
  | [], Y, s, sf => by
    simp only [List.nil_append, scan_loop]
    constructor
    · intro h; exact ⟨s, rfl, h⟩
    · rintro ⟨s1, h1, h2⟩
      injection h1 with h1
      rw [h1]; exact h2
  | it :: X, Y, s, sf => by
    simp only [List.cons_append, scan_loop]
    cases hstep : scan_step s it with
    | error f =>
      simp only
      constructor
      · intro h; cases h
      · rintro ⟨s1, h1, _⟩; cases h1
    | ok s0 =>
      simp only
      exact scan_loop_append X Y s0 sf

theorem scan_inv_prefix {n : Nat} {L : List EvalPointData} (hs : L.Sorted EvalPointData.le) :
    ∀ (mid pre tail : List EvalPointData) (s s1 : ScanState), pre ++ mid ++ tail = L →
      SlotInv n pre s → RangeInv pre s → scan_loop s mid = .ok s1 →
      SlotInv n (pre ++ mid) s1 ∧ RangeInv (pre ++ mid) s1
  | [], pre, tail, s, s1, _, hI, hG, h => by
    simp only [scan_loop] at h
    injection h with h
    subst h
    simpa using ⟨hI, hG⟩
  | it :: mid, pre, tail, s, s1, hL, hI, hG, h => by
    simp only [scan_loop] at h
    split at h
    · cases h
    · rename_i s0 hs0
      have hL1 : pre ++ it :: (mid ++ tail) = L := by simpa using hL
      have hI0 := slot_inv_step hs hL1 hI hs0
      have hG0 := range_inv_step hs hL1 hI hG hs0
      have := scan_inv_prefix hs mid (pre ++ [it]) tail s0 s1 (by simpa using hL) hI0 hG0 h
      simpa using this

theorem find_stable_loop {n : Nat} {L : List EvalPointData} (hs : L.Sorted EvalPointData.le) :
    ∀ (rest pre : List EvalPointData) (s sf : ScanState), pre ++ rest = L →
      SlotInv n pre s → scan_loop s rest = .ok sf →
      ∀ x ∈ pre, UIntMap.find sf.map.element_to_map_ x.i_element_ =
        UIntMap.find s.map.element_to_map_ x.i_element_
  | [], pre, s, sf, _, _, h => by
    simp only [scan_loop] at h
    injection h with h
    subst h
    intro x _; rfl
  | it :: rest, pre, s, sf, hL, hI, h => by
    simp only [scan_loop] at h
    split at h
    · cases h
    · rename_i s0 hs0
      intro x hx
      have h1 := step_find_stable hs hL hI hs0 x hx
      have h2 := find_stable_loop hs rest (pre ++ [it]) s0 sf (by simpa using hL)
        (slot_inv_step hs hL hI hs0) h x (List.mem_append_left _ hx)
      rw [h2, h1]

theorem sorted_duplicate {A B : List EvalPointData} {r : EvalPointData}
    (hs : (A ++ r :: B).Sorted EvalPointData.le) :
    (A ++ r :: r :: B).Sorted EvalPointData.le := by
  have hp := List.pairwise_append.mp hs
  have hrr : EvalPointData.le r r := by rw [EvalPointData.le_iff]; omega
  refine List.pairwise_append.mpr ⟨hp.1, ?_, ?_⟩
  · refine List.Pairwise.cons ?_ hp.2.1
    intro x hx
    rcases List.mem_cons.1 hx with h | h
    · rw [h]; exact hrr
    · exact List.rel_of_pairwise_cons hp.2.1 h
  · intro x hx y hy
    rcases List.mem_cons.1 hy with h | h
    · rw [h]; exact hp.2.2 x hx r (List.mem_cons_self _ _)
    · exact hp.2.2 x hx y h

theorem std_sort_duplicate {l A B : List EvalPointData} {r : EvalPointData}
    (h : std_sort l = A ++ r :: B) : std_sort (l ++ [r]) = A ++ r :: r :: B := by
  apply std_sort_unique
  · have h1 : (A ++ r :: B).Perm l := h ▸ std_sort_perm l
    have h2 : (A ++ r :: r :: B).Perm (r :: (A ++ r :: B)) := List.perm_middle
    have h3 : (r :: (A ++ r :: B)).Perm (r :: l) := List.Perm.cons r h1
    have h4 : (r :: l).Perm (l ++ [r]) := (List.perm_append_singleton r l).symm
    exact (h2.trans h3).trans h4
  · exact sorted_duplicate (h ▸ std_sort_sorted l)

/-- C24, amended.  Repeated requests do not collapse.  For every list of pending records
and every record `r` in it: whenever `prepare_elements_to_update` completes on the list, it
completes on the list with a second copy of `r` added, with the same `regions_starts_`,
`regions_to_map_`, `element_to_map_` and `elm_idx_`, but with one cache point more: the
entries of `element_starts_` behind the slot of the element of `r` are larger by one, the
last entry is the number of records in both cases, and the two tables differ. -/
theorem duplicate_request_adds_cache_point (a a1 : ElementCacheMap) (r : EvalPointData)
    (hr : r ∈ a.eval_point_data_) (h : prepare_elements_to_update a = .ok a1) :
    ∃ b1 slot,
      prepare_elements_to_update { a with eval_point_data_ := a.eval_point_data_ ++ [r] } =
        .ok b1 ∧
      UIntMap.find a1.element_to_map_ r.i_element_ = some slot ∧
      b1.regions_starts_ = a1.regions_starts_ ∧
      b1.regions_to_map_ = a1.regions_to_map_ ∧
      b1.element_to_map_ = a1.element_to_map_ ∧
      b1.elm_idx_ = a1.elm_idx_ ∧
      b1.element_starts_.items =
        a1.element_starts_.items.take (slot + 1) ++
          (a1.element_starts_.items.drop (slot + 1)).map (· + 1) ∧
      a1.element_starts_.items.getLast? = some a.eval_point_data_.length ∧
      b1.element_starts_.items.getLast? = some (a.eval_point_data_.length + 1) ∧
      b1.element_starts_.items ≠ a1.element_starts_.items := by
  obtain ⟨sf, hE, rfl⟩ := prepare_ok h
  have hs := std_sort_sorted a.eval_point_data_
  have hrS : r ∈ std_sort a.eval_point_data_ := (std_sort_mem _ _).mpr hr
  obtain ⟨A, B, hAB⟩ := List.append_of_mem hrS
  have hloop := hE.loop
  rw [hAB] at hloop hs
  -- the first run, cut at the record and its successor
  obtain ⟨sA, hsA, hrest⟩ := (scan_loop_append A (r :: B) _ _).mp hloop
  simp only [scan_loop] at hrest
  cases hstep : scan_step sA r with
  | error f => rw [hstep] at hrest; cases hrest
  | ok s1 =>
    rw [hstep] at hrest
    simp only at hrest
    -- the second run
    obtain ⟨tA, htA, hSA⟩ := shift_loop A _ _ sA
      (shift_base a (a.eval_point_data_ ++ [r])) hsA
    obtain ⟨t1, ht1, hS1⟩ := shift_step hSA hstep
    obtain ⟨t2, ht2, hS2⟩ := shift_duplicate hstep hS1
    obtain ⟨tf, htf, hSf⟩ := shift_loop B _ _ sf hS2 hrest
    have hloop2 : scan_loop (scan_init { a with eval_point_data_ := a.eval_point_data_ ++ [r] })
        (A ++ r :: r :: B) = .ok tf := by
      rw [scan_loop_append]
      refine ⟨tA, htA, ?_⟩
      simp only [scan_loop, ht1, ht2]
      exact htf
    have hprep : prepare_elements_to_update
        { a with eval_point_data_ := a.eval_point_data_ ++ [r] } = .ok (close_tables tf) := by
      unfold prepare_elements_to_update
      simp only [std_sort_duplicate hAB, hloop2]
    -- the slot of the element of the record
    have hpre : scan_loop (scan_init a) (A ++ [r]) = .ok s1 := by
      rw [scan_loop_append]
      exact ⟨sA, hsA, by simp only [scan_loop, hstep]⟩
    have hinv := scan_inv_prefix hs (A ++ [r]) [] B (scan_init a) s1 (by simp)
      (slot_inv_base a) (range_inv_base a) hpre
    simp only [List.nil_append] at hinv
    obtain ⟨hI1, hG1⟩ := hinv
    obtain ⟨hslot1, hpos1⟩ := hG1.last_slot r (by simp)
    have hstable := find_stable_loop hs B (A ++ [r]) s1 sf (by simp) hI1 hrest r (by simp)
    have hK : s1.map.element_starts_.temporary_size_ =
        UIntMap.size s1.map.element_to_map_ - 1 + 1 := by
      rw [hI1.es_size]; omega
    rw [hK] at hSf
    -- the offset tables
    have hpa := RevertableList.pushed_push_back sf.map.element_starts_ sf.i_pos hSf.es_wf.1
    have hpb := RevertableList.pushed_push_back tf.map.element_starts_ tf.i_pos hSf.es_wf.2
    have hlenp := RevertableList.length_pushed _ hSf.es_wf.1
    have hia : (close_tables sf).element_starts_.items =
        sf.map.element_starts_.pushed ++ [sf.i_pos] := by
      simp only [close_tables, RevertableList.items_make_permanent]
      exact hpa.1
    have hib : (close_tables tf).element_starts_.items =
        (close_tables sf).element_starts_.items.take
            (UIntMap.size s1.map.element_to_map_ - 1 + 1) ++
          ((close_tables sf).element_starts_.items.drop
            (UIntMap.size s1.map.element_to_map_ - 1 + 1)).map (· + 1) := by
      rw [hia, take_drop_push _ _ _ _ (by rw [hlenp]; exact hSf.k_le), ← hSf.es_pushed,
        ← hSf.i_pos]
      simp only [close_tables, RevertableList.items_make_permanent]
      exact hpb.1
    have hlen : sf.i_pos = a.eval_point_data_.length := by
      rw [hE.slot.i_pos, std_sort_length]
    have hla : (close_tables sf).element_starts_.items.getLast? =
        some a.eval_point_data_.length := by
      rw [hia, hlen]; simp
    have hlb : (close_tables tf).element_starts_.items.getLast? =
        some (a.eval_point_data_.length + 1) := by
      have : (close_tables tf).element_starts_.items =
          tf.map.element_starts_.pushed ++ [tf.i_pos] := by
        simp only [close_tables, RevertableList.items_make_permanent]
        exact hpb.1
      rw [this, hSf.i_pos, hlen]; simp
    refine ⟨close_tables tf, UIntMap.size s1.map.element_to_map_ - 1, hprep, ?_, ?_,
      hSf.r2m.symm, hSf.e2m.symm, hSf.elm_idx.symm, hib, hla, hlb, ?_⟩
    · show UIntMap.find sf.map.element_to_map_ r.i_element_ = _
      rw [hstable, hslot1]
    · simp only [close_tables, RevertableList.temporary_size]
      rw [hSf.rs, hSf.es_size]
    · intro hc
      rw [hc, hla] at hlb
      injection hlb with hlb
      omega

/-- Witness of C24: a second request for the point 0 of the element 2 added to the sample
requests moves the offsets behind the slot 1 from `[0, 1, 2, 3]` to `[0, 1, 3, 4]`. -/
theorem duplicate_request_adds_cache_point_witness :
    ∃ a1 b1, prepare_elements_to_update sample_map = .ok a1 ∧
      prepare_elements_to_update
        { sample_map with eval_point_data_ := sample_records ++ [⟨1, 2, 0⟩] } = .ok b1 ∧
      a1.element_starts_.items = [0, 1, 2, 3] ∧ b1.element_starts_.items = [0, 1, 3, 4] ∧
      b1.regions_starts_ = a1.regions_starts_ ∧
      b1.element_starts_.items ≠ a1.element_starts_.items := by
  obtain ⟨b1, slot, h1, h2, h3, h4, h5, h6, h7, h8, h9, h10⟩ :=
    duplicate_request_adds_cache_point sample_map _ ⟨1, 2, 0⟩ (by decide) rfl
  refine ⟨_, _, rfl, rfl, rfl, rfl, ?_, ?_⟩
  · injection h1.symm.trans rfl with hb
    subst hb
    exact h3
  · injection h1.symm.trans rfl with hb
    subst hb
    exact h10

/-- Counterexample to C24 as stated: one request for the element 1 gives the offsets
`[0, 1]`, the same request twice gives `[0, 2]`, two cache points instead of one. -/
theorem duplicate_request_does_not_collapse :
    ∃ a1 b1, prepare_elements_to_update (fresh_map 4 2 [⟨1, 1, 0⟩]) = .ok a1 ∧
      prepare_elements_to_update (fresh_map 4 2 [⟨1, 1, 0⟩, ⟨1, 1, 0⟩]) = .ok b1 ∧
      a1.element_starts_.items = [0, 1] ∧ b1.element_starts_.items = [0, 2] ∧
      a1.element_starts_.items ≠ b1.element_starts_.items ∧
      a1.regions_starts_.items = [0, 1] ∧ b1.regions_starts_.items = [0, 1] :=
  ⟨_, _, rfl, rfl, rfl, rfl, by decide, rfl, rfl⟩

end FieldValueCache

/-! ## Integral descriptors -/

namespace EvalSubset

open FieldValueCache (Fault EvalPoints UINT_MAX)

/-- C15.  The constructor of `EdgeIntegral`, called with non-empty `eval_points` and with
`dim`, `n_permutations` and `points_per_side`, completes, keeps these evaluation points and
the dimension, takes `eval_points->n_subsets(dim)` at the time of the call as subset index,
has `n_sides_` equal to `dim + 1` (computed in `unsigned int`, the sum itself for every
`dim` below `UINT_MAX`) and a permutation table of `n_sides_` sides, each with
`n_permutations` arrays of `points_per_side` entries, which hold what the allocation
left there. -/
theorem edge_integral_constructor (ep : EvalPoints) (n_subsets : Nat → Nat)
    (dim n_permutations points_per_side : Nat) (fresh : Nat → Nat → Nat → Nat) :
    (∃ e, EdgeIntegral.create (some ep) n_subsets dim n_permutations points_per_side fresh
        = .ok e) ∧
    ∀ e, EdgeIntegral.create (some ep) n_subsets dim n_permutations points_per_side fresh
        = .ok e →
      e.eval_points_ = some ep ∧ e.dim_ = dim ∧ e.subset_index_ = n_subsets dim ∧
      e.n_permutations_ = n_permutations ∧
      e.n_sides_ = (dim + 1) % 2 ^ 32 ∧ (dim < UINT_MAX → e.n_sides_ = dim + 1) ∧
      e.perm_indices_.length = e.n_sides_ ∧
      (∀ side ∈ e.perm_indices_, side.length = n_permutations ∧
        ∀ perm ∈ side, perm.length = points_per_side) ∧
      (∀ i_side i_perm i_point, i_side < e.n_sides_ → i_perm < n_permutations →
        i_point < points_per_side →
        ∃ side perm, e.perm_indices_[i_side]? = some side ∧ side[i_perm]? = some perm ∧
          perm[i_point]? = some (fresh i_side i_perm i_point)) := by
  refine ⟨⟨_, rfl⟩, ?_⟩
  intro e he
  simp only [EdgeIntegral.create, Except.ok.injEq] at he
  subst he
  refine ⟨rfl, rfl, rfl, rfl, rfl, ?_, ?_, ?_, ?_⟩
  · intro h
    show (dim + 1) % (UINT_MAX + 1) = dim + 1
    exact Nat.mod_eq_of_lt (by omega)
  · simp
  · intro side hside
    simp only [List.mem_map, List.mem_range] at hside
    obtain ⟨i, _, rfl⟩ := hside
    refine ⟨by simp, ?_⟩
    intro perm hperm
    simp only [List.mem_map, List.mem_range] at hperm
    obtain ⟨j, _, rfl⟩ := hperm
    simp
  · intro i j k hi hj hk
    refine ⟨(List.range n_permutations).map fun i_perm =>
        (List.range points_per_side).map fun i_point => fresh i i_perm i_point,
      (List.range points_per_side).map fun i_point => fresh i j i_point, ?_, ?_, ?_⟩
    · show ((List.range ((dim + 1) % (UINT_MAX + 1))).map _)[i]? = _
      rw [List.getElem?_map, List.getElem?_range hi]
      rfl
    · rw [List.getElem?_map, List.getElem?_range hj]
      rfl
    · rw [List.getElem?_map, List.getElem?_range hk]
      rfl

/-- Witness of C15: dimension 2, two permutations of two points give three sides. -/
theorem edge_integral_constructor_witness :
    ∃ e, EdgeIntegral.create (some ⟨6⟩) (fun _ => 1) 2 2 2 (fun _ _ _ => 0) = .ok e ∧
      e = sample_edge ∧ e.subset_index_ = 1 ∧ e.n_sides_ = 3 ∧ e.perm_indices_.length = 3 :=
  ⟨_, rfl, rfl, rfl,
    ((edge_integral_constructor ⟨6⟩ (fun _ => 1) 2 2 2 (fun _ _ _ => 0)).2 _ rfl).2.2.2.2.2.1
      (by decide), rfl⟩

/-- C16.  The constructor of `CouplingIntegral`, called with an edge integral and a bulk
integral, fails its assertion if and only if their dimensions differ; when the dimensions
agree it completes, and whenever it completes the dimension and the evaluation points are
those of the edge integral, the two integrals are the arguments and the dimensions are
equal.  In particular it never completes for a bulk integral of lower dimension than the
edge integral. -/
theorem coupling_integral_requires_equal_dim (e : EdgeIntegral) (b : BulkIntegral) :
    (CouplingIntegral.create (some e) (some b) = .error Fault.assertion_failed ↔
      e.dim_ ≠ b.dim_) ∧
    (e.dim_ = b.dim_ →
      CouplingIntegral.create (some e) (some b) =
        .ok { eval_points_ := e.eval_points_, dim_ := e.dim_, edge_integral_ := e,
              bulk_integral_ := b }) ∧
    (∀ c, CouplingIntegral.create (some e) (some b) = .ok c →
      c.dim_ = e.dim_ ∧ c.eval_points_ = e.eval_points_ ∧ c.edge_integral_ = e ∧
        c.bulk_integral_ = b ∧ e.dim_ = b.dim_) ∧
    (b.dim_ < e.dim_ → ∀ c, CouplingIntegral.create (some e) (some b) ≠ .ok c) := by
  by_cases h : e.dim_ = b.dim_
  · have hc : CouplingIntegral.create (some e) (some b) =
        .ok { eval_points_ := e.eval_points_, dim_ := e.dim_, edge_integral_ := e,
              bulk_integral_ := b } := by
      simp [CouplingIntegral.create, h]
    refine ⟨?_, fun _ => hc, ?_, ?_⟩
    · rw [hc]; simp [h]
    · intro c hcc
      rw [hc] at hcc
      cases hcc
      exact ⟨rfl, rfl, rfl, rfl, h⟩
    · intro hlt; omega
  · have hc : CouplingIntegral.create (some e) (some b) = .error Fault.assertion_failed := by
      simp [CouplingIntegral.create, h]
    refine ⟨?_, fun h1 => absurd h1 h, ?_, ?_⟩
    · rw [hc]; simp [h]
    · intro c hcc
      rw [hc] at hcc
      cases hcc
    · intro _ c hcc
      rw [hc] at hcc
      cases hcc

/-- Witness of C16: an edge integral of dimension 2 with a bulk integral of dimension 1
fails the assertion, with a bulk integral of dimension 2 it gives the coupling integral. -/
theorem coupling_integral_requires_equal_dim_witness :
    CouplingIntegral.create (some sample_edge) (some (sample_bulk 1)) =
      .error Fault.assertion_failed ∧
    CouplingIntegral.create (some sample_edge) (some (sample_bulk 2)) =
      .ok { eval_points_ := some ⟨6⟩, dim_ := 2, edge_integral_ := sample_edge,
            bulk_integral_ := sample_bulk 2 } :=
  ⟨(coupling_integral_requires_equal_dim sample_edge (sample_bulk 1)).1.2 (by decide),
    (coupling_integral_requires_equal_dim sample_edge (sample_bulk 2)).2.1 rfl⟩

end EvalSubset

/-! ## Attributes of a VTK file -/

namespace VtkReader

open FieldValueCache (Fault)

theorem lookup_mem {β : Type} (l : List (String × β)) (s : String) (t : β)
    (h : l.lookup s = some t) : (s, t) ∈ l := by
  induction l with
  | nil => simp [List.lookup] at h
  | cons a rest ih =>
    obtain ⟨k, v⟩ := a
    by_cases hk : s = k
    · subst hk
      simp [List.lookup] at h
      subst h
      simp
    · have : (s == k) = false := by simpa using hk
      simp only [List.lookup, this] at h
      exact List.mem_cons_of_mem _ (ih h)

theorem lookup_none {β : Type} (l : List (String × β)) (s : String) :
    l.lookup s = none ↔ s ∉ l.map Prod.fst := by
  induction l with
  | nil => simp [List.lookup]
  | cons a rest ih =>
    obtain ⟨k, v⟩ := a
    by_cases hk : s = k
    · subst hk
      simp [List.lookup]
    · have : (s == k) = false := by simpa using hk
      simp only [List.lookup, this, List.map_cons, List.mem_cons, hk, false_or]
      exact ih

theorem get_data_type_undefined (s : String) (t : DataType) (h : get_data_type s = .ok t) :
    t = DataType.undefined ↔ s = "" := by
  unfold get_data_type at h
  cases hl : types.lookup s with
  | none => rw [hl] at h; cases h
  | some t1 =>
    rw [hl] at h
    cases h
    have hm := lookup_mem _ _ _ hl
    simp only [types, List.mem_cons, Prod.mk.injEq, List.mem_singleton, List.not_mem_nil,
      or_false] at hm
    rcases hm with h | h | h | h | h | h | h | h | h | h | h <;>
      (obtain ⟨h1, h2⟩ := h; subst h1; subst h2; decide)

/-- C17, amended.  `read_base_vtk_attributes` completes if and only if the attribute
`header_type` is empty or one of the ten type names known to `get_data_type`; for every
other value the assertion of `get_data_type` fails and no member is set.  Whenever it
completes, `data_format_` is `ascii` if and only if `header_type` is empty; otherwise it is
`binary_zlib` if and only if the attribute `compressor` equals `vtkZLibDataCompressor`
and `binary_uncompressed` for every other value of `compressor`; `n_nodes_` and
`n_elements_` are the attributes `NumberOfPoints` and `NumberOfCells`. -/
theorem read_base_vtk_attributes_format (r : VtkMeshReader) (doc : VtkFile) :
    ((∃ r1, read_base_vtk_attributes r doc = .ok r1) ↔
      doc.header_type ∈ types.map Prod.fst) ∧
    (doc.header_type ∉ types.map Prod.fst →
      read_base_vtk_attributes r doc = .error Fault.assertion_failed) ∧
    ∀ r1, read_base_vtk_attributes r doc = .ok r1 →
      (r1.data_format_ = DataFormat.ascii ↔ doc.header_type = "") ∧
      (doc.header_type ≠ "" →
        (r1.data_format_ = DataFormat.binary_zlib ↔
          doc.compressor = "vtkZLibDataCompressor") ∧
        (doc.compressor ≠ "vtkZLibDataCompressor" →
          r1.data_format_ = DataFormat.binary_uncompressed)) ∧
      r1.n_nodes_ = doc.number_of_points ∧ r1.n_elements_ = doc.number_of_cells := by
  cases hg : get_data_type doc.header_type with
  | error f =>
    have hl : types.lookup doc.header_type = none := by
      unfold get_data_type at hg
      cases hl : types.lookup doc.header_type with
      | none => rfl
      | some t => rw [hl] at hg; cases hg
    have hf : f = Fault.assertion_failed := by
      unfold get_data_type at hg
      rw [hl] at hg
      cases hg
      rfl
    subst hf
    have hr : read_base_vtk_attributes r doc = .error Fault.assertion_failed := by
      unfold read_base_vtk_attributes
      rw [hg]
    have hn := (lookup_none _ _).1 hl
    refine ⟨⟨?_, fun h => absurd h hn⟩, fun _ => hr, ?_⟩
    · rintro ⟨r1, h1⟩
      rw [hr] at h1
      cases h1
    · intro r1 h1
      rw [hr] at h1
      cases h1
  | ok t =>
    have hu := get_data_type_undefined _ _ hg
    have hl : types.lookup doc.header_type ≠ none := by
      unfold get_data_type at hg
      intro hl
      rw [hl] at hg
      cases hg
    have hin : doc.header_type ∈ types.map Prod.fst := by
      by_contra hc
      exact hl ((lookup_none _ _).2 hc)
    have hr : read_base_vtk_attributes r doc =
        .ok { header_type_ := t
              data_format_ :=
                if t = DataType.undefined then DataFormat.ascii
                else if doc.compressor = "vtkZLibDataCompressor" then DataFormat.binary_zlib
                else DataFormat.binary_uncompressed
              n_nodes_ := doc.number_of_points
              n_elements_ := doc.number_of_cells } := by
      unfold read_base_vtk_attributes
      rw [hg]
    refine ⟨⟨fun _ => hin, fun _ => ⟨_, hr⟩⟩, fun h => absurd hin h, ?_⟩
    intro r1 h1
    rw [hr] at h1
    cases h1
    refine ⟨?_, ?_, rfl, rfl⟩
    · by_cases ht : t = DataType.undefined
      · simp [ht, hu.1 ht]
      · have hne : doc.header_type ≠ "" := fun h => ht (hu.2 h)
        by_cases hc : doc.compressor = "vtkZLibDataCompressor" <;> simp [ht, hc, hne]
    · intro hne
      have ht : t ≠ DataType.undefined := fun h => hne (hu.1 h)
      by_cases hc : doc.compressor = "vtkZLibDataCompressor" <;> simp [ht, hc]

/-- Witness of C17: the header type `UInt64` is known, and the three formats on three
documents. -/
theorem read_base_vtk_attributes_format_witness :
    (∃ r1, read_base_vtk_attributes new_reader ⟨"UInt64", "vtkZLibDataCompressor", 8, 6⟩
      = .ok r1) ∧
    read_base_vtk_attributes new_reader ⟨"UInt64", "vtkZLibDataCompressor", 8, 6⟩ =
      .ok ⟨DataType.uint64, DataFormat.binary_zlib, 8, 6⟩ ∧
    read_base_vtk_attributes new_reader ⟨"UInt32", "", 8, 6⟩ =
      .ok ⟨DataType.uint32, DataFormat.binary_uncompressed, 8, 6⟩ ∧
    read_base_vtk_attributes new_reader ⟨"", "", 8, 6⟩ =
      .ok ⟨DataType.undefined, DataFormat.ascii, 8, 6⟩ :=
  ⟨(read_base_vtk_attributes_format new_reader ⟨"UInt64", "vtkZLibDataCompressor", 8, 6⟩).1.2
      (by decide), rfl, rfl, rfl⟩

/-- Counterexample to C17 as stated: the header type `uint32` is not empty and the
compressor is `vtkZLibDataCompressor`, but the call fails the assertion of
`get_data_type` (the known name is `UInt32`) and sets no `data_format_`. -/
theorem unsupported_header_type_sets_no_format :
    read_base_vtk_attributes ⟨DataType.undefined, DataFormat.ascii, 0, 0⟩
        ⟨"uint32", "vtkZLibDataCompressor", 8, 6⟩ = .error Fault.assertion_failed ∧
    ("uint32" : String) ≠ "" ∧
    ¬ ∃ r1, read_base_vtk_attributes ⟨DataType.undefined, DataFormat.ascii, 0, 0⟩
        ⟨"uint32", "vtkZLibDataCompressor", 8, 6⟩ = .ok r1 ∧
      r1.data_format_ = DataFormat.binary_zlib :=
  ⟨rfl, by decide, fun ⟨_, h, _⟩ => by cases h⟩

end VtkReader

/-! ## Time marks -/

namespace TimeMarks

open FieldValueCache (Fault)

theorem testBit_compl (t i : Nat) (ht : t < 2 ^ 64) :
    (ULONG_MAX - t).testBit i = (decide (i < 64) && !t.testBit i) := by
  have : ULONG_MAX - t = 2 ^ 64 - (t + 1) := by unfold ULONG_MAX; omega
  rw [this, Nat.testBit_two_pow_sub_succ ht]

theorem match_mask_iff {Time : Type} (mark : TimeMark Time) (mask : Nat)
    (ht : mark.mark_type_ < 2 ^ 64) (hm : mask < 2 ^ 64) :
    mark.match_mask mask = true ↔ mark.mark_type_ &&& mask = mask := by
  unfold TimeMark.match_mask
  rw [beq_iff_eq]
  have hbit : ∀ i, mask.testBit i = true → i < 64 := by
    intro i hi
    by_contra hc
    have : mask < 2 ^ i := lt_of_lt_of_le hm (Nat.pow_le_pow_right (by decide) (by omega))
    rw [Nat.testBit_lt_two_pow this] at hi
    cases hi
  constructor
  · intro h
    apply Nat.eq_of_testBit_eq
    intro i
    have hi : (mask &&& (ULONG_MAX - mark.mark_type_)).testBit i = false := by
      rw [h]; simp
    rw [Nat.testBit_and, testBit_compl _ _ ht] at hi
    rw [Nat.testBit_and]
    cases hmi : mask.testBit i with
    | false => simp
    | true =>
      have := hbit i hmi
      simp [hmi, this] at hi
      simp [hi]
  · intro h
    apply Nat.eq_of_testBit_eq
    intro i
    rw [Nat.testBit_and, testBit_compl _ _ ht]
    have hi : (mark.mark_type_ &&& mask).testBit i = mask.testBit i := by rw [h]
    rw [Nat.testBit_and] at hi
    cases hmi : mask.testBit i with
    | false => simp
    | true =>
      rw [hmi] at hi
      simp at hi
      simp [hi]

theorem inc_loop_finds {Time : Type} (marks : List (TimeMark Time)) (mask : Nat) (j : Nat)
    (mark : TimeMark Time) (hj : marks[j]? = some mark) (hmatch : mark.match_mask mask = true) :
    ∀ fuel it, j - it ≤ fuel → 0 < it → it < j →
      (∀ k other, it < k → k < j → marks[k]? = some other → other.match_mask mask = false) →
      inc_loop marks mask fuel it = .ok j := by
  intro fuel
  induction fuel with
  | zero => intro it h1 _ h3; omega
  | succ fuel ih =>
    intro it hfuel hpos hlt hskip
    unfold inc_loop
    rw [if_pos (by omega)]
    by_cases hnext : it + 1 = j
    · rw [hnext, hj]
      simp [hmatch]
    · have hlen : j < marks.length := (List.getElem?_eq_some_iff.1 hj).1
      have hlt1 : it + 1 < marks.length := by omega
      rw [List.getElem?_eq_getElem hlt1]
      have hno := hskip (it + 1) marks[it + 1] (by omega) (by omega)
        (List.getElem?_eq_getElem hlt1)
      simp only [hno, Bool.not_false, if_true]
      exact ih (it + 1) (by omega) (by omega) (by omega)
        (fun k other h1 h2 h3 => hskip k other (by omega) h2 h3)

/-- C18.  For a mark of type `t` and a mask `m` (values of `unsigned long`), `match_mask(m)`
is true if and only if `(t & m) == m`, that is if and only if `t` has a 1 on every bit
position where `m` has one.  After `add_to_type(x)` the mark matches `x` and matches every
mask it matched before; its time is unchanged. -/
theorem match_mask_is_bit_inclusion {Time : Type} (mark : TimeMark Time) (mask : Nat)
    (ht : mark.mark_type_ < 2 ^ 64) (hm : mask < 2 ^ 64) :
    (mark.match_mask mask = true ↔ mark.mark_type_ &&& mask = mask) ∧
    (mark.match_mask mask = true ↔
      ∀ i, mask.testBit i = true → mark.mark_type_.testBit i = true) ∧
    ∀ x, x < 2 ^ 64 →
      (mark.add_to_type x).mark_type_ < 2 ^ 64 ∧
      (mark.add_to_type x).time_ = mark.time_ ∧
      (mark.add_to_type x).match_mask x = true ∧
      (mark.match_mask mask = true → (mark.add_to_type x).match_mask mask = true) := by
  have hbits : ∀ (t m : Nat), (t &&& m = m ↔ ∀ i, m.testBit i = true → t.testBit i = true) := by
    intro t m
    constructor
    · intro h i hi
      have : (t &&& m).testBit i = true := by rw [h]; exact hi
      rw [Nat.testBit_and] at this
      simp at this
      exact this.1
    · intro h
      apply Nat.eq_of_testBit_eq
      intro i
      rw [Nat.testBit_and]
      cases hmi : m.testBit i with
      | false => simp
      | true => simp [h i hmi]
  refine ⟨match_mask_iff mark mask ht hm, ?_, ?_⟩
  · rw [match_mask_iff mark mask ht hm]
    exact hbits _ _
  · intro x hx
    have hlt : (mark.add_to_type x).mark_type_ < 2 ^ 64 := Nat.or_lt_two_pow ht hx
    refine ⟨hlt, rfl, ?_, ?_⟩
    · rw [match_mask_iff _ x hlt hx, hbits]
      intro i hi
      show (mark.mark_type_ ||| x).testBit i = true
      rw [Nat.testBit_or, hi]
      simp
    · intro h
      rw [match_mask_iff mark mask ht hm, hbits] at h
      rw [match_mask_iff _ mask hlt hm, hbits]
      intro i hi
      show (mark.mark_type_ ||| x).testBit i = true
      rw [Nat.testBit_or, h i hi]
      simp

/-- Witness of C18: the type 5 matches the mask 4 and not the mask 2; after
`add_to_type(2)` it matches both. -/
theorem match_mask_is_bit_inclusion_witness :
    (5 : Nat) < 2 ^ 64 ∧ (4 : Nat) < 2 ^ 64 ∧
    ((⟨0, 5⟩ : TimeMark Nat).match_mask 4 = true ↔ 5 &&& 4 = 4) ∧
    (⟨0, 5⟩ : TimeMark Nat).match_mask 4 = true ∧
    (⟨0, 5⟩ : TimeMark Nat).match_mask 2 = false ∧
    ((⟨0, 5⟩ : TimeMark Nat).add_to_type 2).match_mask 2 = true ∧
    ((⟨0, 5⟩ : TimeMark Nat).add_to_type 2).match_mask 4 = true :=
  ⟨by decide, by decide, (match_mask_is_bit_inclusion ⟨0, 5⟩ 4 (by decide) (by decide)).1,
    by decide, by decide,
    ((match_mask_is_bit_inclusion ⟨0, 5⟩ 4 (by decide) (by decide)).2.2 2 (by decide)).2.2.1,
    ((match_mask_is_bit_inclusion ⟨0, 5⟩ 4 (by decide) (by decide)).2.2 2 (by decide)).2.2.2
      (by decide)⟩

/-- C19, behaviour of the code.  An iterator at the first mark is not moved by
`operator++`, whatever the marks and the mask are: the loop condition
`it_ != marks_.begin()` is false at once.  This holds for the iterator returned by
`begin()`.  From every later position that has a later mark matching the mask,
`operator++` stops at the nearest such mark. -/
theorem operator_inc_stays_at_begin {Time : Type} (marks : List (TimeMark Time)) (mask : Nat) :
    TimeMarksIterator.operator_inc ⟨marks, 0, mask⟩ = .ok ⟨marks, 0, mask⟩ ∧
    (∀ every_type, (begin every_type marks).operator_inc = .ok (begin every_type marks)) ∧
    (∀ it j mark, 0 < it → it < j → marks[j]? = some mark → mark.match_mask mask = true →
      (∀ k other, it < k → k < j → marks[k]? = some other →
        other.match_mask mask = false) →
      TimeMarksIterator.operator_inc ⟨marks, it, mask⟩ = .ok ⟨marks, j, mask⟩) := by
  refine ⟨rfl, fun _ => rfl, ?_⟩
  intro it j mark hpos hlt hj hmatch hskip
  have hlen : j < marks.length := (List.getElem?_eq_some_iff.1 hj).1
  unfold TimeMarksIterator.operator_inc
  show (match inc_loop marks mask (marks.length + 1) it with
    | Except.error f => Except.error f
    | Except.ok it1 =>
      Except.ok ({ marks_ := marks, it_ := it1, mask_ := mask } : TimeMarksIterator Time)) = _
  rw [inc_loop_finds marks mask j mark hj hmatch (marks.length + 1) it (by omega) hpos hlt hskip]

/-- Evaluation of C19: with the marks of types 1, 1, 2, 1 and the mask 1, `operator++` at
the first mark stays there although the second mark matches; from the second mark it
skips the third and stops at the fourth. -/
theorem operator_inc_stays_at_begin_witness :
    (begin 0 [(⟨0, 1⟩ : TimeMark Nat), ⟨1, 1⟩]).operator_inc =
      .ok ⟨[⟨0, 1⟩, ⟨1, 1⟩], 0, 0⟩ ∧
    TimeMarksIterator.operator_inc ⟨[(⟨0, 1⟩ : TimeMark Nat), ⟨1, 1⟩, ⟨2, 2⟩, ⟨3, 1⟩], 0, 1⟩ =
      .ok ⟨[⟨0, 1⟩, ⟨1, 1⟩, ⟨2, 2⟩, ⟨3, 1⟩], 0, 1⟩ ∧
    (⟨1, 1⟩ : TimeMark Nat).match_mask 1 = true ∧
    TimeMarksIterator.operator_inc ⟨[(⟨0, 1⟩ : TimeMark Nat), ⟨1, 1⟩, ⟨2, 2⟩, ⟨3, 1⟩], 1, 1⟩ =
      .ok ⟨[⟨0, 1⟩, ⟨1, 1⟩, ⟨2, 2⟩, ⟨3, 1⟩], 3, 1⟩ :=
  ⟨((operator_inc_stays_at_begin [(⟨0, 1⟩ : TimeMark Nat), ⟨1, 1⟩] 0).2.1 0),
   (operator_inc_stays_at_begin [(⟨0, 1⟩ : TimeMark Nat), ⟨1, 1⟩, ⟨2, 2⟩, ⟨3, 1⟩] 1).1,
   by decide,
   (operator_inc_stays_at_begin [(⟨0, 1⟩ : TimeMark Nat), ⟨1, 1⟩, ⟨2, 2⟩, ⟨3, 1⟩] 1).2.2
     1 3 ⟨3, 1⟩ (by decide) (by decide) rfl (by decide)
     (fun k other h1 h2 h3 => by
       have hk : k = 2 := by omega
       subst hk
       cases h3
       decide)⟩

end TimeMarks

/-! ## The factory of input classes -/

namespace InputFactory

theorem registry_find_assign {A R : Type} (l : List (String × (A → R))) (name k : String)
    (f : A → R) :
    registry_find (registry_assign l name f) k =
      if name = k then some f else registry_find l k := by
  induction l with
  | nil =>
    simp [registry_assign, registry_find]
  | cons a rest ih =>
    obtain ⟨k1, g⟩ := a
    by_cases h1 : k1 = name
    · subst h1
      simp only [registry_assign, if_true, registry_find]
      by_cases h2 : k1 = k <;> simp [h2]
    · simp only [registry_assign, if_neg h1, registry_find, ih]
      by_cases h2 : k1 = k
      · subst h2
        have : ¬ name = k1 := fun h => h1 h.symm
        simp [this]
      · simp [h2]

theorem find_register_all {A R : Type} (regs : List (String × (A → R))) :
    ∀ (factory : Factory A R) (name : String),
      registry_find (register_all factory regs).factory_registry_ name =
        match last_registered regs name with
        | some f => some f
        | none => registry_find factory.factory_registry_ name := by
  induction regs with
  | nil => intro factory name; rfl
  | cons a rest ih =>
    intro factory name
    obtain ⟨k, f⟩ := a
    show registry_find (register_all (factory.register_function k f).1 rest).factory_registry_
      name = _
    rw [ih]
    show (match last_registered rest name with
      | some g => some g
      | none => registry_find (registry_assign factory.factory_registry_ k f) name) =
      match (match last_registered rest name with
        | some g => some g
        | none => if k = name then some f else none) with
      | some f => some f
      | none => registry_find factory.factory_registry_ name
    cases last_registered rest name with
    | some g => rfl
    | none =>
      simp only [registry_find_assign]
      by_cases h : k = name <;> simp [h]

theorem last_registered_none {A R : Type} (regs : List (String × (A → R))) (name : String) :
    last_registered regs name = none ↔ ∀ r ∈ regs, r.1 ≠ name := by
  induction regs with
  | nil => simp [last_registered]
  | cons a rest ih =>
    obtain ⟨k, f⟩ := a
    simp only [last_registered, List.mem_cons, forall_eq_or_imp]
    cases h : last_registered rest name with
    | some g =>
      rw [h] at ih
      constructor
      · intro hc; cases hc
      · intro hall
        exact absurd (ih.2 hall.2) (by simp)
    | none =>
      rw [h] at ih
      have hrest := ih.1 rfl
      by_cases hk : k = name
      · simp [hk]
      · simp only [if_neg hk, true_iff]
        exact ⟨hk, hrest⟩

/-- C20.  `create(name, arguments)` after `register_function(name, f)` returns
`f(arguments)`, also when another function was registered under `name` before; a
registration under another name does not change the result for `name`.  `create` throws
`ExcNotRegistredClass` if and only if the registry has no entry for `name`, and otherwise
returns the result of the registered function.  For a factory filled by a sequence of
registrations, `create` returns the result of the function most recently registered under
`name`, and throws if and only if no registration has this name. -/
theorem create_calls_last_registered {A R : Type} (factory : Factory A R) (name : String)
    (arguments : A) :
    (∀ f, (factory.register_function name f).1.create name arguments = .ok (f arguments)) ∧
    (∀ f g, ((factory.register_function name f).1.register_function name g).1.create name
      arguments = .ok (g arguments)) ∧
    (∀ other f, other ≠ name →
      (factory.register_function other f).1.create name arguments =
        factory.create name arguments) ∧
    (factory.create name arguments = .error (InputException.ExcNotRegistredClass name) ↔
      registry_find factory.factory_registry_ name = none) ∧
    ((∃ e, factory.create name arguments = .error e) ↔
      registry_find factory.factory_registry_ name = none) ∧
    (∀ f, registry_find factory.factory_registry_ name = some f →
      factory.create name arguments = .ok (f arguments)) ∧
    (∀ regs, (register_all ⟨[]⟩ regs : Factory A R).create name arguments =
      match last_registered regs name with
      | some f => .ok (f arguments)
      | none => .error (InputException.ExcNotRegistredClass name)) ∧
    (∀ regs, (register_all ⟨[]⟩ regs : Factory A R).create name arguments =
        .error (InputException.ExcNotRegistredClass name) ↔
      ∀ r ∈ regs, r.1 ≠ name) := by
  refine ⟨?_, ?_, ?_, ?_, ?_, ?_, ?_, ?_⟩
  · intro f
    simp [Factory.create, Factory.register_function, registry_find_assign]
  · intro f g
    simp [Factory.create, Factory.register_function, registry_find_assign]
  · intro other f h
    simp [Factory.create, Factory.register_function, registry_find_assign, h]
  · unfold Factory.create
    cases registry_find factory.factory_registry_ name <;> simp
  · unfold Factory.create
    cases registry_find factory.factory_registry_ name <;> simp
  · intro f h
    simp [Factory.create, h]
  · intro regs
    unfold Factory.create
    rw [find_register_all]
    cases last_registered regs name <;> rfl
  · intro regs
    unfold Factory.create
    rw [find_register_all, ← last_registered_none]
    cases last_registered regs name <;> simp [registry_find]

/-- Witness of C20: after registering `DescendantA` twice the second function is called;
the name `DescendantC` is not registered. -/
theorem create_calls_last_registered_witness :
    (register_all ⟨[]⟩ [("DescendantA", create_instance_a), ("DescendantB", create_instance_b),
        ("DescendantA", create_instance_b)]).create "DescendantA" (3, 1) =
      .ok ("DescendantB", 3, 1) ∧
    (register_all ⟨[]⟩ [("DescendantA", create_instance_a)]).create "DescendantA" (3, 1) =
      .ok ("DescendantA", 3, 1) ∧
    (register_all ⟨[]⟩ [("DescendantA", create_instance_a)]).create "DescendantC" (3, 1) =
      .error (InputException.ExcNotRegistredClass "DescendantC") :=
  ⟨(create_calls_last_registered ⟨[]⟩ "DescendantA" (3, 1)).2.2.2.2.2.2.1
      [("DescendantA", create_instance_a), ("DescendantB", create_instance_b),
        ("DescendantA", create_instance_b)],
    rfl,
    ((create_calls_last_registered ⟨[]⟩ "DescendantC" (3, 1)).2.2.2.2.2.2.2
      [("DescendantA", create_instance_a)]).2 (by decide)⟩

end InputFactory

/-! ## Time marks: the decrement -/

namespace TimeMarks

open FieldValueCache (Fault)

theorem dec_loop_finds {Time : Type} (marks : List (TimeMark Time)) (mask : Nat) (j : Nat)
    (mark : TimeMark Time) (hj : marks[j]? = some mark) (hmatch : mark.match_mask mask = true) :
    ∀ fuel it, it - j ≤ fuel → j < it → it < marks.length →
      (∀ k other, j < k → k < it → marks[k]? = some other → other.match_mask mask = false) →
      dec_loop marks mask fuel it = .ok j := by
  intro fuel
  induction fuel with
  | zero => intro it h1 h2 _; omega
  | succ fuel ih =>
    intro it hfuel hlt hlen hskip
    unfold dec_loop
    rw [if_pos (by omega), if_neg (by omega)]
    by_cases hprev : it - 1 = j
    · rw [hprev, hj]
      simp [hmatch]
    · have hlt1 : it - 1 < marks.length := by omega
      rw [List.getElem?_eq_getElem hlt1]
      have hno := hskip (it - 1) marks[it - 1] (by omega) (by omega)
        (List.getElem?_eq_getElem hlt1)
      simp only [hno, Bool.not_false, if_true]
      exact ih (it - 1) (by omega) (by omega) (by omega)
        (fun k other h1 h2 h3 => hskip k other h1 (by omega) h3)

/-- C28, behaviour of the code.  An iterator at `marks_.end()` is not moved by `operator--`,
whatever the marks and the mask are: the loop condition `it_ != marks_.end()` is false at
once.  From every position on a mark that has an earlier mark matching the mask,
`operator--` stops at the nearest such mark. -/
theorem operator_dec_stays_at_end {Time : Type} (marks : List (TimeMark Time)) (mask : Nat) :
    TimeMarksIterator.operator_dec ⟨marks, marks.length, mask⟩ =
      .ok ⟨marks, marks.length, mask⟩ ∧
    (∀ it j mark, j < it → it < marks.length → marks[j]? = some mark →
      mark.match_mask mask = true →
      (∀ k other, j < k → k < it → marks[k]? = some other →
        other.match_mask mask = false) →
      TimeMarksIterator.operator_dec ⟨marks, it, mask⟩ = .ok ⟨marks, j, mask⟩) := by
  constructor
  · unfold TimeMarksIterator.operator_dec
    show (match dec_loop marks mask (marks.length + 1) marks.length with
      | Except.error f => Except.error f
      | Except.ok it1 =>
        Except.ok ({ marks_ := marks, it_ := it1, mask_ := mask } : TimeMarksIterator Time)) = _
    have : dec_loop marks mask (marks.length + 1) marks.length = .ok marks.length := by
      unfold dec_loop
      simp
    rw [this]
  · intro it j mark hlt hlen hj hmatch hskip
    unfold TimeMarksIterator.operator_dec
    show (match dec_loop marks mask (it + 1) it with
      | Except.error f => Except.error f
      | Except.ok it1 =>
        Except.ok ({ marks_ := marks, it_ := it1, mask_ := mask } : TimeMarksIterator Time)) = _
    rw [dec_loop_finds marks mask j mark hj hmatch (it + 1) it (by omega) hlt hlen hskip]

/-- Evaluation of C28: with the marks of types 1, 2, 1 and the mask 1, `operator--` at
`marks_.end()` stays there although the last mark matches; from the last mark it skips
the second and stops at the first. -/
theorem operator_dec_stays_at_end_witness :
    TimeMarksIterator.operator_dec ⟨[(⟨0, 1⟩ : TimeMark Nat), ⟨1, 2⟩, ⟨2, 1⟩], 3, 1⟩ =
      .ok ⟨[⟨0, 1⟩, ⟨1, 2⟩, ⟨2, 1⟩], 3, 1⟩ ∧
    (⟨2, 1⟩ : TimeMark Nat).match_mask 1 = true ∧
    TimeMarksIterator.operator_dec ⟨[(⟨0, 1⟩ : TimeMark Nat), ⟨1, 2⟩, ⟨2, 1⟩], 2, 1⟩ =
      .ok ⟨[⟨0, 1⟩, ⟨1, 2⟩, ⟨2, 1⟩], 0, 1⟩ :=
  ⟨(operator_dec_stays_at_end [(⟨0, 1⟩ : TimeMark Nat), ⟨1, 2⟩, ⟨2, 1⟩] 1).1,
   by decide,
   (operator_dec_stays_at_end [(⟨0, 1⟩ : TimeMark Nat), ⟨1, 2⟩, ⟨2, 1⟩] 1).2
     2 0 ⟨0, 1⟩ (by decide) (by decide) rfl (by decide)
     (fun k other h1 h2 h3 => by
       have hk : k = 1 := by omega
       subst hk
       cases h3
       decide)⟩

end TimeMarks

/-! ## Mesh: elements of lower dimension -/

namespace FlowMesh

theorem lower_dim_ne (dim : Nat) : lower_dim dim ≠ dim := by
  unfold lower_dim FieldValueCache.UINT_MAX
  omega

theorem lower_dim_pred (dim : Nat) (h1 : 1 ≤ dim) (h2 : dim ≤ FieldValueCache.UINT_MAX) :
    lower_dim dim = dim - 1 := by
  unfold lower_dim
  unfold FieldValueCache.UINT_MAX at *
  omega

theorem find_lower_dim_loop_spec (mesh : Mesh) (dim : Nat) :
    ∀ (l kept : List Nat) (is_neighbour : Bool) (element_idx : Nat),
      (∀ e ∈ l, e < mesh.element_vec_.length) →
      find_lower_dim_loop mesh dim l kept is_neighbour element_idx =
        match l.filter (has_dim mesh (lower_dim dim)), is_neighbour with
        | [], _ => .ok (kept ++ l.filter (has_dim mesh dim), is_neighbour,
            element_idx)
        | [e], false => .ok (kept ++ l.filter (has_dim mesh dim), true, e)
        | _, _ => .error (Failure.user_error "Too matching elements in the same mesh")
  | [], kept, is_neighbour, element_idx, _ => by
    simp [find_lower_dim_loop]
  | ele :: rest, kept, is_neighbour, element_idx, hvalid => by
    have hlt : ele < mesh.element_vec_.length := hvalid ele (List.mem_cons_self _ _)
    have hrest : ∀ e ∈ rest, e < mesh.element_vec_.length :=
      fun e he => hvalid e (List.mem_cons_of_mem _ he)
    have hd : ∀ d, has_dim mesh d ele = decide (mesh.element_vec_[ele].dim = d) := by
      intro d
      unfold has_dim
      rw [List.getElem?_eq_getElem hlt]
    unfold find_lower_dim_loop
    rw [List.getElem?_eq_getElem hlt]
    simp only
    by_cases h1 : mesh.element_vec_[ele].dim = dim
    · have hnl : ¬ mesh.element_vec_[ele].dim = lower_dim dim := by
        rw [h1]; exact fun h => lower_dim_ne dim h.symm
      have hs : has_dim mesh dim ele = true := by rw [hd]; exact decide_eq_true h1
      have hl : has_dim mesh (lower_dim dim) ele = false := by
        rw [hd]; exact decide_eq_false hnl
      rw [if_pos h1, find_lower_dim_loop_spec mesh dim rest _ _ _ hrest]
      simp only [List.filter_cons, hs, hl, if_true, Bool.false_eq_true, if_false,
        List.append_assoc, List.singleton_append]
    · rw [if_neg h1]
      have hs : has_dim mesh dim ele = false := by rw [hd]; exact decide_eq_false h1
      by_cases h2 : mesh.element_vec_[ele].dim = lower_dim dim
      · rw [if_pos h2]
        have hl : has_dim mesh (lower_dim dim) ele = true := by
          rw [hd]; exact decide_eq_true h2
        cases is_neighbour with
        | true =>
          simp only [List.filter_cons, hs, hl, if_true, Bool.false_eq_true, if_false]
          cases rest.filter (has_dim mesh (lower_dim dim)) with
          | nil => simp only
          | cons a t => simp only
        | false =>
          simp only [Bool.false_eq_true, if_false]
          rw [find_lower_dim_loop_spec mesh dim rest _ _ _ hrest]
          simp only [List.filter_cons, hs, hl, if_true, Bool.false_eq_true, if_false]
          cases rest.filter (has_dim mesh (lower_dim dim)) with
          | nil => simp only
          | cons a t => simp only
      · rw [if_neg h2, find_lower_dim_loop_spec mesh dim rest _ _ _ hrest]
        have hl : has_dim mesh (lower_dim dim) ele = false := by
          rw [hd]; exact decide_eq_false h2
        simp only [List.filter_cons, hs, hl, Bool.false_eq_true, if_false]

/-- C27.  For a list of indices of elements of the mesh, `find_lower_dim_element` raises a
user error if and only if the list holds more than one element of the dimension `dim-1`
(computed in `unsigned int`).  Whenever it returns, `element_list` is its sublist, in the
same order, of the elements of dimension `dim`; the result is true if and only if the list
holds an element of dimension `dim-1`, and then `element_idx` is that element; with the
result false `element_idx` is unchanged.  It returns when the list holds at most one
element of dimension `dim-1`. -/
theorem find_lower_dim_element_spec (mesh : Mesh) (element_list : List Nat)
    (dim element_idx : Nat) (hvalid : ∀ e ∈ element_list, e < mesh.element_vec_.length) :
    ((∃ message, find_lower_dim_element mesh element_list dim element_idx =
        .error (Failure.user_error message)) ↔
      2 ≤ (element_list.filter (has_dim mesh (lower_dim dim))).length) ∧
    (∀ list1 result idx1, find_lower_dim_element mesh element_list dim element_idx =
        .ok (list1, result, idx1) →
      list1 = element_list.filter (has_dim mesh dim) ∧
      (result = true ↔ ∃ e ∈ element_list,
        has_dim mesh (lower_dim dim) e = true) ∧
      (result = true → idx1 ∈ element_list ∧
        has_dim mesh (lower_dim dim) idx1 = true) ∧
      (result = false → idx1 = element_idx)) ∧
    ((element_list.filter (has_dim mesh (lower_dim dim))).length ≤ 1 →
      ∃ r, find_lower_dim_element mesh element_list dim element_idx = .ok r) ∧
    (1 ≤ dim → dim < 2 ^ 32 → lower_dim dim = dim - 1) := by
  have hspec := find_lower_dim_loop_spec mesh dim element_list [] false element_idx hvalid
  have hfl : find_lower_dim_element mesh element_list dim element_idx =
      find_lower_dim_loop mesh dim element_list [] false element_idx := rfl
  rw [hfl, hspec]
  refine ⟨?_, ?_, ?_, fun h1 h2 => lower_dim_pred dim h1 (by
    unfold FieldValueCache.UINT_MAX; omega)⟩
  · cases hf : element_list.filter (has_dim mesh (lower_dim dim)) with
    | nil => simp
    | cons a t =>
      cases t with
      | nil => simp
      | cons b t => simp
  · intro list1 result idx1
    cases hf : element_list.filter (has_dim mesh (lower_dim dim)) with
    | nil =>
      simp only [List.nil_append, Except.ok.injEq, Prod.mk.injEq]
      rintro ⟨rfl, rfl, rfl⟩
      refine ⟨rfl, ?_, ?_, fun _ => rfl⟩
      · simp only [Bool.false_eq_true, false_iff]
        rintro ⟨e, he, hd⟩
        have : e ∈ element_list.filter (has_dim mesh (lower_dim dim)) := by
          rw [List.mem_filter]; exact ⟨he, hd⟩
        rw [hf] at this
        cases this
      · intro h; cases h
    | cons a t =>
      have ha : a ∈ element_list.filter (has_dim mesh (lower_dim dim)) := by
        rw [hf]; exact List.mem_cons_self _ _
      rw [List.mem_filter] at ha
      cases t with
      | nil =>
        simp only [List.nil_append, Except.ok.injEq, Prod.mk.injEq]
        rintro ⟨rfl, rfl, rfl⟩
        refine ⟨rfl, ?_, ?_, ?_⟩
        · simp only [true_iff]
          exact ⟨a, ha.1, ha.2⟩
        · intro _
          exact ⟨ha.1, ha.2⟩
        · intro h; cases h
      | cons b t =>
        intro h; cases h
  · intro hle
    cases hf : element_list.filter (has_dim mesh (lower_dim dim)) with
    | nil => exact ⟨_, rfl⟩
    | cons a t =>
      cases t with
      | nil => exact ⟨_, rfl⟩
      | cons b t =>
        rw [hf] at hle
        simp at hle

/-- Witness of C27 on the sample mesh: one, no and two elements of dimension 1. -/
theorem find_lower_dim_element_spec_witness :
    find_lower_dim_element sample_mesh [0, 1, 2] 2 77 = .ok ([0, 1], true, 2) ∧
    find_lower_dim_element sample_mesh [0, 1] 2 77 = .ok ([0, 1], false, 77) ∧
    (∃ message, find_lower_dim_element sample_mesh [0, 1, 2, 3] 2 77 =
      .error (Failure.user_error message)) :=
  ⟨rfl, rfl,
    (find_lower_dim_element_spec sample_mesh [0, 1, 2, 3] 2 77 (by decide)).1.2 (by decide)⟩

end FlowMesh

/-! ## Mesh: elements shared by nodes -/

namespace FlowMesh

theorem set_intersection_nil_right (l : List Nat) : set_intersection l [] = [] := by
  cases l <;> rfl

theorem set_intersection_cons (a b : Nat) (as bs : List Nat) :
    set_intersection (a :: as) (b :: bs) =
      if a < b then set_intersection as (b :: bs)
      else if b < a then set_intersection (a :: as) bs
      else a :: set_intersection as bs := rfl

theorem set_intersection_sublist : ∀ l1 l2 : List Nat, (set_intersection l1 l2).Sublist l1
  | [], l2 => by simp [set_intersection]
  | a :: as, l2 => by
    induction l2 with
    | nil => rw [set_intersection_nil_right]; exact List.nil_sublist _
    | cons b bs ih =>
      rw [set_intersection_cons]
      split
      · exact (set_intersection_sublist as (b :: bs)).cons a
      · split
        · exact ih
        · exact (set_intersection_sublist as bs).cons₂ a

theorem set_intersection_mem : ∀ l1 l2 : List Nat, l1.Sorted (· < ·) → l2.Sorted (· < ·) →
    ∀ x, x ∈ set_intersection l1 l2 ↔ x ∈ l1 ∧ x ∈ l2
  | [], l2, _, _, x => by simp [set_intersection]
  | a :: as, l2, h1, h2, x => by
    induction l2 with
    | nil => rw [set_intersection_nil_right]; simp
    | cons b bs ih =>
      have has : as.Sorted (· < ·) := h1.of_cons
      have hbs : bs.Sorted (· < ·) := h2.of_cons
      have ha : ∀ y ∈ as, a < y := fun y hy => List.rel_of_sorted_cons h1 y hy
      have hb : ∀ y ∈ bs, b < y := fun y hy => List.rel_of_sorted_cons h2 y hy
      rw [set_intersection_cons]
      split
      · rename_i hab
        rw [set_intersection_mem as (b :: bs) has h2 x]
        simp only [List.mem_cons]
        constructor
        · rintro ⟨hx, hx2⟩; exact ⟨Or.inr hx, hx2⟩
        · rintro ⟨hx | hx, hx2⟩
          · exfalso
            subst hx
            rcases hx2 with hx2 | hx2
            · omega
            · have := hb x hx2; omega
          · exact ⟨hx, hx2⟩
      · rename_i hab
        split
        · rename_i hba
          rw [ih hbs]
          simp only [List.mem_cons]
          constructor
          · rintro ⟨hx, hx2⟩; exact ⟨hx, Or.inr hx2⟩
          · rintro ⟨hx, hx2 | hx2⟩
            · exfalso
              subst hx2
              rcases hx with hx | hx
              · omega
              · have := ha x hx; omega
            · exact ⟨hx, hx2⟩
        · rename_i hba
          have hab1 : a = b := by omega
          subst hab1
          simp only [List.mem_cons]
          rw [set_intersection_mem as bs has hbs x]
          constructor
          · rintro (hx | ⟨hx, hx2⟩)
            · exact ⟨Or.inl hx, Or.inl hx⟩
            · exact ⟨Or.inr hx, Or.inr hx2⟩
          · rintro ⟨hx | hx, hx2 | hx2⟩
            · exact Or.inl hx
            · exact Or.inl hx
            · exact Or.inl hx2
            · exact Or.inr ⟨hx, hx2⟩

theorem set_intersection_sorted (l1 l2 : List Nat) (h1 : l1.Sorted (· < ·)) :
    (set_intersection l1 l2).Sorted (· < ·) :=
  h1.sublist (set_intersection_sublist l1 l2)

theorem node_elements_at_ok (mesh : Mesh) (node : Nat) (h : node < mesh.node_elements_.length) :
    node_elements_at mesh node = .ok mesh.node_elements_[node] := by
  unfold node_elements_at
  rw [List.getElem?_eq_getElem h]

theorem intersect_loop_spec (mesh : Mesh)
    (hsorted : ∀ l ∈ mesh.node_elements_, l.Sorted (· < ·)) :
    ∀ (nodes acc : List Nat), (∀ n ∈ nodes, n < mesh.node_elements_.length) →
      acc.Sorted (· < ·) →
      ∃ r, intersect_loop mesh nodes acc = .ok r ∧ r.Sorted (· < ·) ∧
        ∀ x, x ∈ r ↔ x ∈ acc ∧ ∀ n ∈ nodes, ∃ l, mesh.node_elements_[n]? = some l ∧ x ∈ l
  | [], acc, _, hacc => ⟨acc, rfl, hacc, fun x => by simp⟩
  | node :: rest, acc, hvalid, hacc => by
    have hn : node < mesh.node_elements_.length := hvalid node (List.mem_cons_self _ _)
    have hl : (mesh.node_elements_[node]).Sorted (· < ·) :=
      hsorted _ (List.getElem_mem hn)
    obtain ⟨r, hr, hrs, hrm⟩ := intersect_loop_spec mesh hsorted rest
      (set_intersection acc mesh.node_elements_[node])
      (fun n h => hvalid n (List.mem_cons_of_mem _ h)) (set_intersection_sorted _ _ hacc)
    refine ⟨r, ?_, hrs, ?_⟩
    · unfold intersect_loop
      rw [node_elements_at_ok mesh node hn]
      exact hr
    · intro x
      rw [hrm x, set_intersection_mem _ _ hacc hl x]
      simp only [List.mem_cons, forall_eq_or_imp, List.getElem?_eq_getElem hn,
        Option.some.injEq, exists_eq_left']
      tauto

theorem intersect_element_lists_ok (mesh : Mesh) (nodes_list : List Nat)
    (hvalid : ∀ n ∈ nodes_list, n < mesh.node_elements_.length)
    (hsorted : ∀ l ∈ mesh.node_elements_, l.Sorted (· < ·)) :
    ∃ r, intersect_element_lists mesh nodes_list = .ok r ∧ r.Sorted (· < ·) ∧
      (nodes_list ≠ [] →
        ∀ x, x ∈ r ↔ ∀ n ∈ nodes_list, ∃ l, mesh.node_elements_[n]? = some l ∧ x ∈ l) ∧
      (nodes_list = [] → r = []) ∧
      (∀ node, nodes_list = [node] → mesh.node_elements_[node]? = some r) ∧
      (∀ r1 : List Nat, r1.Sorted (· < ·) →
        (∀ x, x ∈ r1 ↔ ∀ n ∈ nodes_list, ∃ l, mesh.node_elements_[n]? = some l ∧ x ∈ l) →
        nodes_list ≠ [] → r1 = r) := by
  have huniq : ∀ r : List Nat, r.Sorted (· < ·) →
      (nodes_list ≠ [] →
        ∀ x, x ∈ r ↔ ∀ n ∈ nodes_list, ∃ l, mesh.node_elements_[n]? = some l ∧ x ∈ l) →
      ∀ r1 : List Nat, r1.Sorted (· < ·) →
        (∀ x, x ∈ r1 ↔ ∀ n ∈ nodes_list, ∃ l, mesh.node_elements_[n]? = some l ∧ x ∈ l) →
        nodes_list ≠ [] → r1 = r := by
    intro r hr hm r1 hr1 hm1 hne
    apply List.eq_of_perm_of_sorted _ hr1 hr
    rw [List.perm_ext_iff_of_nodup hr1.nodup hr.nodup]
    intro x
    rw [hm1 x, hm hne x]
  match nodes_list, hvalid, huniq with
  | [], _, _ =>
    exact ⟨[], rfl, List.sorted_nil, fun h => absurd rfl h, fun _ => rfl,
      (fun node h => by cases h), fun r1 _ _ h => absurd rfl h⟩
  | [node], hvalid, huniq =>
    have hn : node < mesh.node_elements_.length := hvalid node (List.mem_cons_self _ _)
    have hs := hsorted _ (List.getElem_mem hn)
    have hm : [node] ≠ [] →
        ∀ x, x ∈ mesh.node_elements_[node] ↔
          ∀ n ∈ [node], ∃ l, mesh.node_elements_[n]? = some l ∧ x ∈ l := by
      intro _ x
      simp [List.getElem?_eq_getElem hn]
    refine ⟨mesh.node_elements_[node], node_elements_at_ok mesh node hn, hs, hm,
      (fun h => by cases h), ?_, huniq _ hs hm⟩
    intro n1 h1
    injection h1 with h1
    subst h1
    exact List.getElem?_eq_getElem hn
  | node1 :: node2 :: rest, hvalid, huniq =>
    have hn1 : node1 < mesh.node_elements_.length := hvalid node1 (List.mem_cons_self _ _)
    have hn2 : node2 < mesh.node_elements_.length :=
      hvalid node2 (List.mem_cons_of_mem _ (List.mem_cons_self _ _))
    have hs1 := hsorted _ (List.getElem_mem hn1)
    have hs2 := hsorted _ (List.getElem_mem hn2)
    obtain ⟨r, hr, hrs, hrm⟩ := intersect_loop_spec mesh hsorted (node2 :: rest)
      (set_intersection mesh.node_elements_[node1] mesh.node_elements_[node2])
      (fun n h => hvalid n (List.mem_cons_of_mem _ h)) (set_intersection_sorted _ _ hs1)
    have hm : node1 :: node2 :: rest ≠ [] →
        ∀ x, x ∈ r ↔ ∀ n ∈ node1 :: node2 :: rest,
          ∃ l, mesh.node_elements_[n]? = some l ∧ x ∈ l := by
      intro _ x
      rw [hrm x, set_intersection_mem _ _ hs1 hs2 x]
      simp only [List.mem_cons, forall_eq_or_imp, List.getElem?_eq_getElem hn1,
        List.getElem?_eq_getElem hn2, Option.some.injEq, exists_eq_left']
      tauto
    refine ⟨r, ?_, hrs, hm, (fun h => by cases h), (fun node h => by cases h),
      huniq _ hrs hm⟩
    show (match node_elements_at mesh node1 with
      | Except.error f => Except.error f
      | Except.ok l1 =>
        match node_elements_at mesh node2 with
        | Except.error f => Except.error f
        | Except.ok l2 => intersect_loop mesh (node2 :: rest) (set_intersection l1 l2)) = _
    rw [node_elements_at_ok mesh node1 hn1, node_elements_at_ok mesh node2 hn2]
    exact hr

/-- C26.  For nodes of the mesh and lists `node_elements_` that are ascending without
repetition, `intersect_element_lists` completes, and its result is ascending without
repetition; for a non-empty list of nodes it holds exactly the elements that occur in the
list of every given node, and it is the only ascending list that does; for one node it is
the list of that node and for no node it is empty. -/
theorem intersect_element_lists_spec (mesh : Mesh) (nodes_list : List Nat)
    (hvalid : ∀ n ∈ nodes_list, n < mesh.node_elements_.length)
    (hsorted : ∀ l ∈ mesh.node_elements_, l.Sorted (· < ·)) :
    (∃ r, intersect_element_lists mesh nodes_list = .ok r) ∧
    ∀ r, intersect_element_lists mesh nodes_list = .ok r →
      r.Sorted (· < ·) ∧
      (nodes_list ≠ [] →
        ∀ x, x ∈ r ↔ ∀ n ∈ nodes_list, ∃ l, mesh.node_elements_[n]? = some l ∧ x ∈ l) ∧
      (nodes_list = [] → r = []) ∧
      (∀ node, nodes_list = [node] → mesh.node_elements_[node]? = some r) ∧
      (∀ r1 : List Nat, r1.Sorted (· < ·) →
        (∀ x, x ∈ r1 ↔ ∀ n ∈ nodes_list, ∃ l, mesh.node_elements_[n]? = some l ∧ x ∈ l) →
        nodes_list ≠ [] → r1 = r) := by
  obtain ⟨r, hr, hP⟩ := intersect_element_lists_ok mesh nodes_list hvalid hsorted
  refine ⟨⟨r, hr⟩, ?_⟩
  intro r1 hr1
  rw [hr] at hr1
  injection hr1 with hr1
  subst hr1
  exact hP

/-- Witness of C26 on the sample mesh: the nodes 0, 1 and 2 share the elements 1 and 2. -/
theorem intersect_element_lists_spec_witness :
    ∃ r, intersect_element_lists sample_mesh [0, 1, 2] = .ok r ∧ r = [1, 2] ∧
      r.Sorted (· < ·) ∧
      ∀ x, x ∈ r ↔ ∀ n ∈ [0, 1, 2], ∃ l, sample_mesh.node_elements_[n]? = some l ∧ x ∈ l :=
  ⟨_, rfl, rfl, by decide,
    ((intersect_element_lists_spec sample_mesh [0, 1, 2] (by decide)
      (by decide)).2 _ rfl).2.1 (by decide)⟩

end FlowMesh

/-! ## Mesh: the vectors of element IDs -/

namespace FlowMesh

theorem elem_index_ok (mesh : Mesh) (idx : Nat) (h : idx < mesh.element_ids_.length) :
    elem_index mesh idx = .ok mesh.element_ids_[idx] := by
  unfold elem_index
  rw [List.getElem?_eq_getElem h]

theorem take_drop_succ (l : List Int) (i n : Nat) (h : i < l.length) :
    (l.drop i).take (n + 1) = l[i] :: (l.drop (i + 1)).take n := by
  rw [List.drop_eq_getElem_cons h, List.take_succ_cons]

theorem bulk_id_loop_spec (mesh : Mesh) :
    ∀ (n i : Nat) (last_id : Int) (out : List Int), i + n ≤ mesh.element_ids_.length →
      i + n ≤ out.length →
      (List.Chain (· < ·) last_id ((mesh.element_ids_.drop i).take n) →
        ∃ r, bulk_id_loop mesh (List.range' i n) last_id out = .ok r ∧
          r.length = out.length ∧
          ∀ j, r[j]? = if i ≤ j ∧ j < i + n then mesh.element_ids_[j]? else out[j]?) ∧
      (¬ List.Chain (· < ·) last_id ((mesh.element_ids_.drop i).take n) →
        bulk_id_loop mesh (List.range' i n) last_id out =
          .error (Failure.user_error "Element IDs in non-increasing order"))
  | 0, i, last_id, out, _, _ => by
    constructor
    · intro _
      refine ⟨out, rfl, rfl, ?_⟩
      intro j
      rw [if_neg (by omega)]
    · intro h
      exact absurd List.Chain.nil h
  | n + 1, i, last_id, out, hids, hout => by
    have hi : i < mesh.element_ids_.length := by omega
    have ih := bulk_id_loop_spec mesh n (i + 1) mesh.element_ids_[i]
      (out.set i mesh.element_ids_[i]) (by omega) (by rw [List.length_set]; omega)
    rw [take_drop_succ _ _ _ hi, List.chain_cons, List.range'_succ]
    unfold bulk_id_loop
    rw [elem_index_ok mesh i hi]
    simp only
    by_cases hlt : last_id < mesh.element_ids_[i]
    · rw [if_neg (by omega)]
      constructor
      · rintro ⟨-, hc⟩
        obtain ⟨r, hr, hlen, hget⟩ := ih.1 hc
        refine ⟨r, hr, by rw [hlen, List.length_set], ?_⟩
        intro j
        rw [hget j, List.getElem?_set]
        by_cases hj : i = j
        · subst hj
          rw [if_neg (by omega), if_pos rfl, if_pos (by omega), if_pos (by omega)]
          exact (List.getElem?_eq_getElem hi).symm
        · rw [if_neg hj]
          by_cases hj2 : i + 1 ≤ j ∧ j < i + 1 + n
          · rw [if_pos hj2, if_pos (by omega)]
          · rw [if_neg hj2, if_neg (by omega)]
      · intro hc
        exact ih.2 (fun h => hc ⟨hlt, h⟩)
    · rw [if_pos (by omega)]
      constructor
      · rintro ⟨h, -⟩
        exact absurd h hlt
      · intro _
        rfl

end FlowMesh

namespace FlowMesh

theorem boundary_order_neg (a : Int) (ha : a < 0) (l : List Int) :
    List.Chain boundary_order a l ↔ List.Chain boundary_order (-1) l := by
  cases l with
  | nil => simp
  | cons b t =>
    rw [List.chain_cons, List.chain_cons]
    unfold boundary_order
    constructor
    · rintro ⟨_, h⟩
      exact ⟨by omega, h⟩
    · rintro ⟨_, h⟩
      exact ⟨by omega, h⟩

theorem boundary_id_loop_spec (mesh : Mesh) (start : Nat) :
    ∀ (n pos : Nat) (last_id : Int) (out : List Int),
      start + pos + n ≤ mesh.element_ids_.length → pos + n ≤ out.length →
      (List.Chain boundary_order last_id ((mesh.element_ids_.drop (start + pos)).take n) →
        ∃ r, boundary_id_loop mesh (List.range' (start + pos) n) pos last_id out = .ok r ∧
          r.length = out.length ∧
          ∀ j, r[j]? = if pos ≤ j ∧ j < pos + n
            then (mesh.element_ids_[start + j]?).map stored_id else out[j]?) ∧
      (¬ List.Chain boundary_order last_id ((mesh.element_ids_.drop (start + pos)).take n) →
        boundary_id_loop mesh (List.range' (start + pos) n) pos last_id out =
          .error (Failure.user_error "Element IDs in non-increasing order"))
  | 0, pos, last_id, out, _, _ => by
    constructor
    · intro _
      refine ⟨out, rfl, rfl, ?_⟩
      intro j
      rw [if_neg (by omega)]
    · intro h
      exact absurd List.Chain.nil h
  | n + 1, pos, last_id, out, hids, hout => by
    have hi : start + pos < mesh.element_ids_.length := by omega
    have hstep : ∀ (v : Int) (r : List Int), r.length = (out.set pos v).length →
        v = stored_id mesh.element_ids_[start + pos] →
        (∀ j, r[j]? = if pos + 1 ≤ j ∧ j < pos + 1 + n
          then (mesh.element_ids_[start + j]?).map stored_id else (out.set pos v)[j]?) →
        r.length = out.length ∧
        ∀ j, r[j]? = if pos ≤ j ∧ j < pos + (n + 1)
          then (mesh.element_ids_[start + j]?).map stored_id else out[j]? := by
      intro v r hlen hv hget
      refine ⟨by rw [hlen, List.length_set], ?_⟩
      intro j
      rw [hget j, List.getElem?_set]
      by_cases hj : pos = j
      · subst hj
        rw [if_neg (by omega), if_pos rfl, if_pos (by omega), if_pos (by omega),
          List.getElem?_eq_getElem hi, hv]
        rfl
      · rw [if_neg hj]
        by_cases hj2 : pos + 1 ≤ j ∧ j < pos + 1 + n
        · rw [if_pos hj2, if_pos (by omega)]
        · rw [if_neg hj2, if_neg (by omega)]
    rw [take_drop_succ _ _ _ hi, List.chain_cons, List.range'_succ]
    unfold boundary_id_loop
    rw [elem_index_ok mesh (start + pos) hi]
    simp only
    by_cases hneg : mesh.element_ids_[start + pos] < 0
    · rw [if_pos hneg]
      have ih := boundary_id_loop_spec mesh start n (pos + 1) (-1) (out.set pos (-1))
        (by omega) (by rw [List.length_set]; omega)
      rw [boundary_order_neg _ hneg]
      have hb : boundary_order last_id mesh.element_ids_[start + pos] := Or.inl hneg
      constructor
      · rintro ⟨-, hc⟩
        obtain ⟨r, hr, hlen, hget⟩ := ih.1 hc
        exact ⟨r, hr, hstep (-1) r hlen (by unfold stored_id; rw [if_pos hneg]) hget⟩
      · intro hc
        exact ih.2 (fun h => hc ⟨hb, h⟩)
    · rw [if_neg hneg]
      by_cases hlt : last_id < mesh.element_ids_[start + pos]
      · rw [if_neg (by omega)]
        have ih := boundary_id_loop_spec mesh start n (pos + 1) mesh.element_ids_[start + pos]
          (out.set pos mesh.element_ids_[start + pos])
          (by omega) (by rw [List.length_set]; omega)
        have hb : boundary_order last_id mesh.element_ids_[start + pos] := Or.inr hlt
        constructor
        · rintro ⟨-, hc⟩
          obtain ⟨r, hr, hlen, hget⟩ := ih.1 hc
          exact ⟨r, hr, hstep _ r hlen (by unfold stored_id; rw [if_neg hneg]) hget⟩
        · intro hc
          exact ih.2 (fun h => hc ⟨hb, h⟩)
      · rw [if_pos (by omega)]
        constructor
        · rintro ⟨h, -⟩
          rcases h with h | h
          · exact absurd h hneg
          · exact absurd h hlt
        · intro _
          rfl

theorem chain_boundary_start (l : List Int) :
    List.Chain boundary_order (-1) l ↔ List.Chain' boundary_order l := by
  cases l with
  | nil => simp
  | cons b t =>
    rw [List.chain_cons]
    have hb : boundary_order (-1) b := by unfold boundary_order; omega
    exact ⟨fun h => h.2, fun h => ⟨hb, h⟩⟩

theorem length_resize (v : List Int) (n : Nat) : (resize v n).length = n := by
  unfold resize
  rw [List.length_append, List.length_take, List.length_replicate]
  omega

theorem bulk_loop_result (mesh : Mesh) (r : List Int)
    (hget : ∀ j, r[j]? = if 0 ≤ j ∧ j < 0 + mesh.bulk_size_ then mesh.element_ids_[j]?
      else (resize [] mesh.bulk_size_)[j]?) : r = bulk_ids mesh := by
  apply List.ext_getElem?
  intro j
  unfold bulk_ids
  rw [hget j, List.getElem?_take]
  by_cases hj : j < mesh.bulk_size_
  · rw [if_pos (by omega), if_pos hj]
  · rw [if_neg (by omega), if_neg hj]
    exact List.getElem?_eq_none (by rw [length_resize]; omega)

theorem boundary_loop_result (mesh : Mesh) (out r : List Int)
    (hout : out.length = mesh.boundary_size_) (hlen : r.length = out.length)
    (hget : ∀ j, r[j]? = if 0 ≤ j ∧ j < 0 + mesh.boundary_size_
      then (mesh.element_ids_[mesh.element_vec_.length - mesh.boundary_size_ + j]?).map stored_id
      else out[j]?) : r = (boundary_ids mesh).map stored_id := by
  apply List.ext_getElem?
  intro j
  unfold boundary_ids
  rw [hget j, List.getElem?_map, List.getElem?_take]
  by_cases hj : j < mesh.boundary_size_
  · rw [if_pos (by omega), if_pos hj, List.getElem?_drop]
  · rw [if_neg (by omega), if_neg hj]
    exact List.getElem?_eq_none (by omega)

/-- C21, amended.  For a mesh whose bulk and boundary elements have IDs, called with an empty
`bulk_elements_id`, `elements_id_maps` raises the user error if and only if the IDs of the
bulk elements are not strictly increasing from a value greater than -1, or a boundary
element with a non-negative ID follows a boundary element with an ID that is not smaller.
Otherwise it returns the IDs of the bulk elements in index order and the IDs of the
boundary elements with every negative ID stored as -1; a negative ID never raises the
error.  Called with a non-empty `bulk_elements_id` it changes neither vector. -/
theorem elements_id_maps_spec (mesh : Mesh) (boundary_elements_id : List Int)
    (hbulk : mesh.bulk_size_ ≤ mesh.element_ids_.length)
    (hbdr : mesh.boundary_size_ ≤ mesh.element_vec_.length)
    (hids : mesh.element_vec_.length ≤ mesh.element_ids_.length) :
    ((∃ message, elements_id_maps mesh [] boundary_elements_id =
        .error (Failure.user_error message)) ↔
      ¬ (List.Chain (· < ·) (-1) (bulk_ids mesh) ∧
        List.Chain' boundary_order (boundary_ids mesh))) ∧
    (List.Chain (· < ·) (-1) (bulk_ids mesh) →
      List.Chain' boundary_order (boundary_ids mesh) →
      elements_id_maps mesh [] boundary_elements_id =
        .ok (bulk_ids mesh, (boundary_ids mesh).map stored_id)) ∧
    (∀ bulk_elements_id, bulk_elements_id ≠ [] →
      elements_id_maps mesh bulk_elements_id boundary_elements_id =
        .ok (bulk_elements_id, boundary_elements_id)) := by
  have hB := bulk_id_loop_spec mesh mesh.bulk_size_ 0 (-1) (resize [] mesh.bulk_size_)
    (by omega) (by rw [length_resize]; omega)
  have hD := boundary_id_loop_spec mesh (mesh.element_vec_.length - mesh.boundary_size_)
    mesh.boundary_size_ 0 (-1) (resize boundary_elements_id mesh.boundary_size_)
    (by omega) (by rw [length_resize]; omega)
  rw [List.drop_zero] at hB
  rw [Nat.add_zero, chain_boundary_start] at hD
  have hunf : elements_id_maps mesh [] boundary_elements_id =
      match bulk_id_loop mesh (List.range' 0 mesh.bulk_size_) (-1)
          (resize [] mesh.bulk_size_) with
      | .error f => .error f
      | .ok bulk =>
        match boundary_id_loop mesh
            (List.range' (mesh.element_vec_.length - mesh.boundary_size_) mesh.boundary_size_)
            0 (-1) (resize boundary_elements_id mesh.boundary_size_) with
        | .error f => .error f
        | .ok boundary => .ok (bulk, boundary) := by
    unfold elements_id_maps
    rw [if_pos List.length_nil, List.range_eq_range']
  refine ⟨?_, ?_, ?_⟩
  · rw [hunf]
    by_cases hc1 : List.Chain (· < ·) (-1) (bulk_ids mesh)
    · obtain ⟨r, hr, hlen, hget⟩ := hB.1 hc1
      rw [hr]
      by_cases hc2 : List.Chain' boundary_order (boundary_ids mesh)
      · obtain ⟨r2, hr2, -, -⟩ := hD.1 hc2
        rw [hr2]
        simp only [hc1, hc2, and_self, not_true_eq_false, iff_false]
        rintro ⟨_, h⟩
        cases h
      · rw [hD.2 hc2]
        simp only [hc1, hc2, and_false, not_false_eq_true, iff_true]
        exact ⟨_, rfl⟩
    · rw [hB.2 hc1]
      simp only [hc1, false_and, not_false_eq_true, iff_true]
      exact ⟨_, rfl⟩
  · intro hc1 hc2
    rw [hunf]
    obtain ⟨r, hr, hlen, hget⟩ := hB.1 hc1
    obtain ⟨r2, hr2, hlen2, hget2⟩ := hD.1 hc2
    rw [hr, hr2]
    simp only
    rw [bulk_loop_result mesh r hget,
      boundary_loop_result mesh _ r2 (length_resize _ _) hlen2 hget2]
  · intro b hb
    unfold elements_id_maps
    rw [if_neg (by
      intro h
      exact hb (List.length_eq_zero.1 h))]

/-- Witness of C21 on the sample mesh, with an empty and with a non-empty vector. -/
theorem elements_id_maps_spec_witness :
    elements_id_maps sample_mesh [] [7] = .ok ([1, 2], [3, -1, 2]) ∧
    elements_id_maps sample_mesh [4] [7] = .ok ([4], [7]) :=
  ⟨(elements_id_maps_spec sample_mesh [7] (by decide) (by decide) (by decide)).2.1
      (by simp [bulk_ids, sample_mesh]) (by simp [boundary_ids, sample_mesh, boundary_order]),
    (elements_id_maps_spec sample_mesh [7] (by decide) (by decide) (by decide)).2.2 [4]
      (by decide)⟩

/-- Counterexample to C21 as stated: the bulk IDs 1, 2 are strictly increasing from a value
greater than -1, but the boundary IDs 5, 3 raise the error. -/
theorem boundary_ids_raise_the_error :
    elements_id_maps unordered_boundary_mesh [] [] =
      .error (Failure.user_error "Element IDs in non-increasing order") ∧
    bulk_ids unordered_boundary_mesh = [1, 2] ∧
    List.Chain (· < ·) (-1) (bulk_ids unordered_boundary_mesh) :=
  ⟨rfl, rfl, by simp [bulk_ids, unordered_boundary_mesh, sample_mesh]⟩

end FlowMesh

/-! ## Input list of a multifield: the size check -/

namespace MultiFieldInput

theorem check_sizes_ok {Item : Type} (input_name : String) (comp_size : Nat) :
    ∀ list : List (InputRecord Item),
      check_sizes input_name comp_size list = .ok () ↔
        ∀ it ∈ list, ∀ mf_array, opt_val it input_name = some mf_array →
          mf_array.length = 1 ∨ mf_array.length = comp_size
  | [] => by simp [check_sizes]
  | it :: rest => by
    have ih := check_sizes_ok input_name comp_size rest
    unfold check_sizes
    cases h : opt_val it input_name with
    | none =>
      simp only [List.mem_cons, forall_eq_or_imp, h]
      rw [ih]
      simp
    | some mf_array =>
      simp only [List.mem_cons, forall_eq_or_imp, h, Option.some.injEq, forall_eq']
      by_cases hs : mf_array.length ≠ 1 ∧ mf_array.length ≠ comp_size
      · rw [if_pos hs]
        constructor
        · intro hc; cases hc
        · intro hc; exfalso; rcases hc.1 with h1 | h1
          · exact hs.1 h1
          · exact hs.2 h1
      · rw [if_neg hs, ih]
        constructor
        · intro hr
          refine ⟨?_, hr⟩
          by_contra hc
          exact hs ⟨fun h1 => hc (Or.inl h1), fun h1 => hc (Or.inr h1)⟩
        · intro hr; exact hr.2

theorem check_sizes_error {Item : Type} (input_name : String) (comp_size : Nat) :
    ∀ (list : List (InputRecord Item)) (e : MultiFieldException),
      check_sizes input_name comp_size list = .error e →
        ∃ size, e = MultiFieldException.Exc_InvalidMultiFieldSize input_name size comp_size ∧
          size ≠ 1 ∧ size ≠ comp_size
  | [], e => by simp [check_sizes]
  | it :: rest, e => by
    have ih := check_sizes_error input_name comp_size rest e
    unfold check_sizes
    cases h : opt_val it input_name with
    | none => exact ih
    | some mf_array =>
      by_cases hs : mf_array.length ≠ 1 ∧ mf_array.length ≠ comp_size
      · simp only [if_pos hs]
        intro he
        injection he with he
        exact ⟨mf_array.length, he.symm, hs⟩
      · simp only [if_neg hs]
        exact ih

/-- C22.  With the flag `declare_input`, `set_input_list` throws if and only if some record
of the list defines the input key of the multifield with an array whose size is neither 1
nor the number of component names; the exception is `Exc_InvalidMultiFieldSize`.
Otherwise it returns with the list stored as `full_input_list_` (and copied to
`shared_->input_list_`).  Without the flag it returns and changes nothing. -/
theorem set_input_list_checks_sizes {Item : Type} (self : MultiField Item)
    (list : List (InputRecord Item)) :
    (self.declare_input = true →
      ((∃ e, self.set_input_list list = .error e) ↔
        ∃ it ∈ list, ∃ mf_array, opt_val it self.input_name = some mf_array ∧
          mf_array.length ≠ 1 ∧ mf_array.length ≠ self.comp_names_.length) ∧
      (∀ e, self.set_input_list list = .error e →
        ∃ size, e = MultiFieldException.Exc_InvalidMultiFieldSize self.input_name size
          self.comp_names_.length) ∧
      ((¬ ∃ it ∈ list, ∃ mf_array, opt_val it self.input_name = some mf_array ∧
          mf_array.length ≠ 1 ∧ mf_array.length ≠ self.comp_names_.length) →
        self.set_input_list list =
          .ok { self with full_input_list_ := list, input_list_ := list })) ∧
    (self.declare_input = false → self.set_input_list list = .ok self) := by
  constructor
  · intro hflag
    have hok := check_sizes_ok self.input_name self.comp_names_.length list
    cases hc : check_sizes self.input_name self.comp_names_.length list with
    | error e =>
      have hres : self.set_input_list list = .error e := by
        simp [MultiField.set_input_list, hflag, hc]
      have hbad : ∃ it ∈ list, ∃ mf_array, opt_val it self.input_name = some mf_array ∧
          mf_array.length ≠ 1 ∧ mf_array.length ≠ self.comp_names_.length := by
        by_contra hno
        have : check_sizes self.input_name self.comp_names_.length list = .ok () := by
          rw [hok]
          intro it hit mf_array hmf
          by_contra hcon
          exact hno ⟨it, hit, mf_array, hmf, fun h1 => hcon (Or.inl h1),
            fun h1 => hcon (Or.inr h1)⟩
        rw [hc] at this
        cases this
      refine ⟨⟨fun _ => hbad, fun _ => ⟨e, hres⟩⟩, ?_, fun hno => absurd hbad hno⟩
      intro e1 he1
      rw [hres] at he1
      injection he1 with he1
      subst he1
      obtain ⟨size, hsize, -⟩ := check_sizes_error _ _ _ _ hc
      exact ⟨size, hsize⟩
    | ok u =>
      have hres : self.set_input_list list =
          .ok { self with full_input_list_ := list, input_list_ := list } := by
        simp [MultiField.set_input_list, hflag, hc]
      have hgood := hok.1 hc
      have hno : ¬ ∃ it ∈ list, ∃ mf_array, opt_val it self.input_name = some mf_array ∧
          mf_array.length ≠ 1 ∧ mf_array.length ≠ self.comp_names_.length := by
        rintro ⟨it, hit, mf_array, hmf, h1, h2⟩
        rcases hgood it hit mf_array hmf with h | h
        · exact h1 h
        · exact h2 h
      refine ⟨⟨?_, fun h => absurd h hno⟩, ?_, fun _ => hres⟩
      · rintro ⟨e, he⟩
        rw [hres] at he
        cases he
      · intro e he
        rw [hres] at he
        cases he
  · intro hflag
    simp [MultiField.set_input_list, hflag]

/-- Witness of C22: an array of three items for two components is refused, arrays of one
and two items are accepted and the list is stored. -/
theorem set_input_list_checks_sizes_witness :
    (∃ e, sample_field.set_input_list [[("conc", [1, 2, 3])]] = .error e) ∧
    sample_field.set_input_list [[("conc", [1, 2, 3])]] =
      .error (MultiFieldException.Exc_InvalidMultiFieldSize "conc" 3 2) ∧
    sample_field.set_input_list [[("conc", [1])], [("time", [0])], [("conc", [1, 2])]] =
      .ok { sample_field with
            full_input_list_ := [[("conc", [1])], [("time", [0])], [("conc", [1, 2])]]
            input_list_ := [[("conc", [1])], [("time", [0])], [("conc", [1, 2])]] } :=
  ⟨((set_input_list_checks_sizes sample_field [[("conc", [1, 2, 3])]]).1 rfl).1.2
      ⟨_, List.mem_singleton_self _, [1, 2, 3], rfl, by decide, by decide⟩,
    rfl, rfl⟩

end MultiFieldInput

/-! ## Update of the DOF values after reactions: the shift to the element average -/

namespace Transport

open FieldValueCache (Fault)

theorem shift_fold (c : ℚ) : ∀ (ps : List Int) (f : Int → ℚ),
    (∀ q, q ∉ ps → (ps.foldl (fun a p => Function.update a p (a p + c)) f) q = f q) ∧
    (ps.Nodup → ∀ p ∈ ps, (ps.foldl (fun a p => Function.update a p (a p + c)) f) p = f p + c)
  | [], f => ⟨fun _ _ => rfl, fun _ p hp => by cases hp⟩
  | p0 :: t, f => by
    have ih := shift_fold c t (Function.update f p0 (f p0 + c))
    simp only [List.foldl_cons]
    constructor
    · intro q hq
      rw [List.mem_cons, not_or] at hq
      rw [ih.1 q hq.2, Function.update_noteq hq.1]
    · intro hnd p hp
      rw [List.nodup_cons] at hnd
      rcases List.mem_cons.1 hp with h | h
      · subst h
        rw [ih.1 p hnd.1, Function.update_same]
      · have hne : p ≠ p0 := fun h1 => hnd.1 (h1 ▸ h)
        rw [ih.2 hnd.2 p h, Function.update_noteq hne]

theorem foldl_sum (g : Nat → ℚ) : ∀ (l : List Nat) (init : ℚ),
    l.foldl (fun sum j => sum + g j) init = init + (l.map g).sum
  | [], init => by simp
  | a :: t, init => by
    simp only [List.foldl_cons, List.map_cons, List.sum_cons]
    rw [foldl_sum g t]
    ring

theorem sum_shift (c : ℚ) (f g : Int → ℚ) : ∀ (ps : List Int),
    (∀ p ∈ ps, g p = f p + c) → (ps.map g).sum = (ps.map f).sum + (ps.length : ℚ) * c
  | [], _ => by simp
  | p :: t, h => by
    simp only [List.map_cons, List.sum_cons, List.length_cons]
    rw [sum_shift c f g t (fun q hq => h q (List.mem_cons_of_mem _ hq)),
      h p (List.mem_cons_self _ _)]
    push_cast
    ring

theorem sum_congr_on (f g : Int → ℚ) : ∀ (ps : List Int),
    (∀ p ∈ ps, g p = f p) → (ps.map g).sum = (ps.map f).sum
  | [], _ => rfl
  | p :: t, h => by
    simp only [List.map_cons, List.sum_cons]
    rw [sum_congr_on f g t (fun q hq => h q (List.mem_cons_of_mem _ hq)),
      h p (List.mem_cons_self _ _)]

theorem shift_cell_eq (self : TransportDG) (cell : DHCell) (i_cell sbi : Nat)
    (array : Int → ℚ) :
    shift_cell self cell (self.fe_n_dofs cell.dim) i_cell sbi array =
      (cell_positions self cell).foldl
        (fun a p => Function.update a p
          (a p + (self.solution_elem_ sbi i_cell - mean_at array (cell_positions self cell))))
        array := by
  unfold shift_cell cell_positions mean_at
  rw [List.foldl_map, foldl_sum, List.length_map, List.length_range, List.map_map]
  simp only [zero_add]
  rfl

theorem shift_cell_spec (self : TransportDG) (cell : DHCell) (i_cell sbi : Nat)
    (array : Int → ℚ) :
    (∀ q, q ∉ cell_positions self cell →
      shift_cell self cell (self.fe_n_dofs cell.dim) i_cell sbi array q = array q) ∧
    ((cell_positions self cell).Nodup →
      (∀ p ∈ cell_positions self cell,
        shift_cell self cell (self.fe_n_dofs cell.dim) i_cell sbi array p =
          array p + (self.solution_elem_ sbi i_cell -
            mean_at array (cell_positions self cell))) ∧
      (0 < self.fe_n_dofs cell.dim →
        mean_at (shift_cell self cell (self.fe_n_dofs cell.dim) i_cell sbi array)
          (cell_positions self cell) = self.solution_elem_ sbi i_cell)) := by
  rw [shift_cell_eq]
  have hf := shift_fold (self.solution_elem_ sbi i_cell -
    mean_at array (cell_positions self cell)) (cell_positions self cell) array
  refine ⟨hf.1, fun hnd => ⟨hf.2 hnd, ?_⟩⟩
  intro hpos
  have hlen : ((cell_positions self cell).length : ℚ) ≠ 0 := by
    unfold cell_positions
    rw [List.length_map, List.length_range]
    exact_mod_cast (Nat.pos_iff_ne_zero.1 hpos)
  unfold mean_at at *
  rw [sum_shift _ array _ _ (hf.2 hnd)]
  field_simp

end Transport

namespace Transport

open FieldValueCache (Fault)

theorem cell_n_dofs_ok (self : TransportDG) (cell : DHCell)
    (h : cell.dim = 1 ∨ cell.dim = 2 ∨ cell.dim = 3) :
    cell_n_dofs self cell = .ok (self.fe_n_dofs cell.dim) := by
  unfold cell_n_dofs
  rw [if_pos h]

theorem update_cells_spec (self : TransportDG) :
    ∀ (cells : List DHCell) (k : Nat) (arrays : Nat → Int → ℚ),
      (∀ cell ∈ cells, cell.dim = 1 ∨ cell.dim = 2 ∨ cell.dim = 3) →
      ∃ r, update_cells self cells k arrays = .ok r ∧
        (∀ sbi q, q ∉ (cells.map (cell_positions self)).flatten → r sbi q = arrays sbi q) ∧
        (∀ sbi, ¬ sbi < self.n_substances → r sbi = arrays sbi) ∧
        ((cells.map (cell_positions self)).flatten.Nodup →
          ∀ i cell, cells[i]? = some cell → ∀ sbi, sbi < self.n_substances →
            (∃ c, ∀ p ∈ cell_positions self cell, r sbi p = arrays sbi p + c) ∧
            (0 < self.fe_n_dofs cell.dim →
              mean_at (r sbi) (cell_positions self cell) = self.solution_elem_ sbi (k + i)))
  | [], k, arrays, _ =>
    ⟨arrays, rfl, fun _ _ _ => rfl, fun _ _ => rfl, fun _ i cell h => by simp at h⟩
  | cell :: rest, k, arrays, hdim => by
    have hd := hdim cell (List.mem_cons_self _ _)
    obtain ⟨r, hr, hout, hsub, hin⟩ := update_cells_spec self rest (k + 1)
      (fun sbi => if sbi < self.n_substances
        then shift_cell self cell (self.fe_n_dofs cell.dim) k sbi (arrays sbi) else arrays sbi)
      (fun c hc => hdim c (List.mem_cons_of_mem _ hc))
    refine ⟨r, ?_, ?_, ?_, ?_⟩
    · unfold update_cells
      rw [cell_n_dofs_ok self cell hd]
      exact hr
    · intro sbi q hq
      rw [List.map_cons, List.flatten_cons, List.mem_append, not_or] at hq
      rw [hout sbi q hq.2]
      by_cases hs : sbi < self.n_substances
      · simp only [if_pos hs]
        exact (shift_cell_spec self cell k sbi (arrays sbi)).1 q hq.1
      · simp only [if_neg hs]
    · intro sbi hs
      rw [hsub sbi hs]
      simp only [if_neg hs]
    · intro hnd i c hc sbi hs
      rw [List.map_cons, List.flatten_cons, List.nodup_append] at hnd
      obtain ⟨hnd1, hnd2, hdis⟩ := hnd
      cases i with
      | zero =>
        simp only [List.getElem?_cons_zero, Option.some.injEq] at hc
        subst hc
        have hsp := (shift_cell_spec self cell k sbi (arrays sbi)).2 hnd1
        have hkeep : ∀ p ∈ cell_positions self cell,
            r sbi p = shift_cell self cell (self.fe_n_dofs cell.dim) k sbi (arrays sbi) p := by
          intro p hp
          rw [hout sbi p (fun h => hdis hp h)]
          simp only [if_pos hs]
        refine ⟨⟨_, fun p hp => by rw [hkeep p hp, hsp.1 p hp]⟩, ?_⟩
        intro hpos
        rw [Nat.add_zero, ← hsp.2 hpos]
        unfold mean_at
        rw [sum_congr_on _ _ _ hkeep]
      | succ i =>
        simp only [List.getElem?_cons_succ] at hc
        obtain ⟨⟨cst, hcst⟩, hmean⟩ := hin hnd2 i c hc sbi hs
        have hmem : ∀ p ∈ cell_positions self c,
            p ∈ (rest.map (cell_positions self)).flatten := by
          intro p hp
          rw [List.mem_flatten]
          exact ⟨_, List.mem_map.2 ⟨c, List.getElem?_mem hc, rfl⟩, hp⟩
        refine ⟨⟨cst, ?_⟩, ?_⟩
        · intro p hp
          rw [hcst p hp]
          simp only [if_pos hs]
          rw [(shift_cell_spec self cell k sbi (arrays sbi)).1 p
            (fun h => hdis h (hmem p hp))]
        · intro hpos
          rw [hmean hpos]
          congr 1
          omega

/-- C29.  In exact arithmetic, for own cells of dimension 1, 2 or 3 whose DOFs lie at
pairwise different positions of the solution array, `update_after_reactions(true)`
completes, and for every own cell and every substance it has added one constant to all DOF
values of the cell: the differences between the DOF values of the cell are unchanged, and
for a cell with `n_dofs > 0` their arithmetic mean is `solution_elem_[sbi][i_cell]`.
With `solution_changed == false` no DOF value is changed. -/
theorem update_after_reactions_shifts_to_average (self : TransportDG)
    (hdim : ∀ cell ∈ self.own_range, cell.dim = 1 ∨ cell.dim = 2 ∨ cell.dim = 3)
    (hdofs : (self.own_range.map (cell_positions self)).flatten.Nodup) :
    (∃ r, update_after_reactions self true = .ok r ∧
      ∀ i_cell cell, self.own_range[i_cell]? = some cell →
        ∀ sbi, sbi < self.n_substances →
          (∃ c, ∀ p ∈ cell_positions self cell,
            r.solution_array sbi p = self.solution_array sbi p + c) ∧
          (∀ p ∈ cell_positions self cell, ∀ q ∈ cell_positions self cell,
            r.solution_array sbi p - r.solution_array sbi q =
              self.solution_array sbi p - self.solution_array sbi q) ∧
          (0 < self.fe_n_dofs cell.dim →
            mean_at (r.solution_array sbi) (cell_positions self cell) =
              self.solution_elem_ sbi i_cell)) ∧
    update_after_reactions self false = .ok self := by
  refine ⟨?_, rfl⟩
  obtain ⟨r, hr, -, -, hin⟩ := update_cells_spec self self.own_range 0 self.solution_array hdim
  refine ⟨{ self with solution_array := r }, ?_, ?_⟩
  · unfold update_after_reactions
    simp only [if_true, hr]
  · intro i cell hc sbi hs
    obtain ⟨⟨c, hcst⟩, hmean⟩ := hin hdofs i cell hc sbi hs
    refine ⟨⟨c, hcst⟩, ?_, ?_⟩
    · intro p hp q hq
      show r sbi p - r sbi q = _
      rw [hcst p hp, hcst q hq]
      ring
    · intro hpos
      have := hmean hpos
      rw [Nat.zero_add] at this
      exact this

/-- Witness of C29: on the sample discretisation the values 0 and 1 of the first cell
become values with the mean 10 and the difference 1. -/
theorem update_after_reactions_shifts_to_average_witness :
    ∃ r, update_after_reactions sample_transport true = .ok r ∧
      mean_at (r.solution_array 0) [0, 1] = 10 ∧
      r.solution_array 0 1 - r.solution_array 0 0 = 1 :=
  let ⟨r, hr, hall⟩ := (update_after_reactions_shifts_to_average sample_transport
    (by decide) (by decide)).1
  ⟨r, hr, (hall 0 ⟨1, [0, 1]⟩ rfl 0 (by decide)).2.2 (by decide),
    by
      have h := (hall 0 ⟨1, [0, 1]⟩ rfl 0 (by decide)).2.1 1 (by decide) 0 (by decide)
      rw [h]
      show ((1 : Int) : ℚ) - ((0 : Int) : ℚ) = 1
      simp⟩

end Transport
